import Mathlib

/-!
# rpc-proxy: the schema-driven protobuf encoder

A shallow embedding of `protocol/protobuf` (types.go, encode.go, cast.go,
protobuf.go, errors.go) and the properties of its marshaller.

Conventions of the embedding.

* A byte is a natural number below 256; a `Buffer` is the list of bytes written
  so far (Go's `bytes.Buffer`, append only).
* Go strings that travel through a record are byte lists (`len` is the byte
  length); schema identifiers (message, field and type names) are `String`s.
* Machine integers are `Nat`/`Int` with the wrap-around written out.  Go's
  `int` is taken to be 64 bits wide.
* Go maps are association lists; a lookup finds the first entry of a key and
  the order of the list stands for the order in which `range` yields the
  entries.
* A function that returns `error` returns a `Ret`: `ok`, `err e`, or `panic`
  when the Go code would panic (a call through a nil function value, an index
  out of range, a nil dereference).
* Pointers are values.  Where the code mutates an object in place the function
  returns the mutated object next to its result.
* `github.com/spf13/cast` is embedded as of v1.3.0, on the dynamic types
  `Value` tells apart.  What it delegates to `strconv`/`strings` for text is a
  parameter (`Strconv`).
-/

namespace protobuf

/-! ## Errors (errors.go) -/

/-- The error values of errors.go. -/
inductive Error where
  | RequiredNotSetError (field : String)
  | MessageNotExistsError (name : String)
  | errInvalidParser
  | errRepeatedHasNil
  | errInvalidField
  | errInvalidDataType
  | errOneofHasNil
  | ErrNil
  | ErrTooLarge
  deriving DecidableEq, Repr

/-- What a call leaves: a normal return with a value, a returned error, or a panic. -/
inductive Ret (α : Type) where
  | ok (a : α)
  | err (e : Error)
  | panic
  deriving DecidableEq, Repr

/-! ## Wire constants (types.go) -/

def WireVarint : Nat := 0
def WireFixed64 : Nat := 1
def WireBytes : Nat := 2
def WireStartGroup : Nat := 3
def WireEndGroup : Nat := 4
def WireFixed32 : Nat := 5

/-! ## Wire primitives (encode.go) -/

/-- The bytes written so far. -/
abbrev Buffer := List Nat

/-- Maximum length of a varint. -/
def maxVarintBytes : Nat := 10

/-- The loop of `EncodeVarint`: `for x >= 1<<7 { WriteByte(uint8(x&0x7f | 0x80)); x >>= 7 }`
followed by `WriteByte(uint8(x))`.  The first argument bounds the iterations. -/
def varintLoop : Nat → Buffer → Nat → Buffer
  | 0, p, x => p ++ [x % 256]
  | fuel + 1, p, x =>
    if x ≥ 1 <<< 7 then varintLoop fuel (p ++ [(x &&& 0x7f ||| 0x80) % 256]) (x >>> 7)
    else p ++ [x % 256]

/-- EncodeVarint writes a varint-encoded integer to the Buffer.  Every
iteration at least halves `x`, so `x` iterations are always enough. -/
def Buffer.EncodeVarint (p : Buffer) (x : Nat) : Buffer :=
  varintLoop x p x

/-- EncodeFixed64 writes a 64-bit integer to the Buffer, low byte first. -/
def Buffer.EncodeFixed64 (p : Buffer) (x : Nat) : Buffer :=
  p ++ [x % 256, (x >>> 8) % 256, (x >>> 16) % 256, (x >>> 24) % 256,
        (x >>> 32) % 256, (x >>> 40) % 256, (x >>> 48) % 256, (x >>> 56) % 256]

/-- EncodeFixed32 writes a 32-bit integer to the Buffer, low byte first. -/
def Buffer.EncodeFixed32 (p : Buffer) (x : Nat) : Buffer :=
  p ++ [x % 256, (x >>> 8) % 256, (x >>> 16) % 256, (x >>> 24) % 256]

/-- The value `EncodeZigzag64` hands to `EncodeVarint`:
`uint64((x << 1) ^ uint64((int64(x) >> 63)))`. -/
def zigzag64 (x : Nat) : Nat :=
  ((x <<< 1) % 2 ^ 64) ^^^ (if x % 2 ^ 64 ≥ 2 ^ 63 then 2 ^ 64 - 1 else 0)

/-- The value `EncodeZigzag32` hands to `EncodeVarint`:
`uint64((uint32(x) << 1) ^ uint32((int32(x) >> 31)))`. -/
def zigzag32 (x : Nat) : Nat :=
  (((x % 2 ^ 32) <<< 1) % 2 ^ 32) ^^^ (if x % 2 ^ 32 ≥ 2 ^ 31 then 2 ^ 32 - 1 else 0)

/-- EncodeZigzag64 writes a zigzag-encoded 64-bit integer to the Buffer. -/
def Buffer.EncodeZigzag64 (p : Buffer) (x : Nat) : Buffer :=
  Buffer.EncodeVarint p (zigzag64 x)

/-- EncodeZigzag32 writes a zigzag-encoded 32-bit integer to the Buffer. -/
def Buffer.EncodeZigzag32 (p : Buffer) (x : Nat) : Buffer :=
  Buffer.EncodeVarint p (zigzag32 x)

/-- EncodeRawBytes writes a count-delimited byte buffer to the Buffer.  A Go
length is below 2^63, so `uint64(len(b))` is the length. -/
def Buffer.EncodeRawBytes (p : Buffer) (b : List Nat) : Buffer :=
  Buffer.EncodeVarint p b.length ++ b

/-- EncodeStringBytes writes an encoded string to the Buffer. -/
def Buffer.EncodeStringBytes (p : Buffer) (s : List Nat) : Buffer :=
  Buffer.EncodeVarint p s.length ++ s

/-! ## Record values -/

/-- The integer kinds of Go. -/
inductive IntKind where
  | int | int8 | int16 | int32 | int64
  | uint | uint8 | uint16 | uint32 | uint64
  deriving DecidableEq, Repr

/-- A value of type `interface{}` as a record holds it: the dynamic types the
coercions tell apart.  Floats are their IEEE-754 bit patterns; `list` is
`[]interface{}`; `other` is any value of a type the coercions do not know
(a map, a struct, a channel). -/
inductive Value where
  | null
  | bool (b : Bool)
  | int (k : IntKind) (n : Int)
  | float32 (bits : Nat)
  | float64 (bits : Nat)
  | str (s : List Nat)
  | bytes (b : List Nat)
  | list (xs : List Value)
  | other

/-- The UTF-8 bytes of one code point. -/
def utf8Char (c : Nat) : List Nat :=
  if c < 0x80 then [c]
  else if c < 0x800 then [0xC0 + c / 64, 0x80 + c % 64]
  else if c < 0x10000 then [0xE0 + c / 4096, 0x80 + c / 64 % 64, 0x80 + c % 64]
  else [0xF0 + c / 262144, 0x80 + c / 4096 % 64, 0x80 + c / 64 % 64, 0x80 + c % 64]

/-- The bytes of a Go string literal. -/
def utf8 (s : String) : List Nat :=
  (s.toList.map (fun c => utf8Char c.toNat)).flatten

/-! ## Integer and floating-point conversions of the language -/

/-- Conversion to `int64` (and to `int`): the value modulo 2^64, read as two's complement. -/
def toInt64 (n : Int) : Int :=
  (n + 2 ^ 63) % 2 ^ 64 - 2 ^ 63

/-- Conversion to `int32`. -/
def toInt32 (n : Int) : Int :=
  (n + 2 ^ 31) % 2 ^ 32 - 2 ^ 31

/-- Conversion to `uint64`. -/
def toUint64 (n : Int) : Nat :=
  (n % 2 ^ 64).toNat

/-- Conversion to `uint32`. -/
def toUint32 (n : Int) : Nat :=
  (n % 2 ^ 32).toNat

/-- Shift right by `s` bits rounding to nearest, ties to even. -/
def roundShift (m s : Nat) : Nat :=
  let q := m >>> s
  let r := m % 2 ^ s
  let half := 2 ^ s / 2
  if s = 0 then m
  else if r > half then q + 1
  else if r = half ∧ q % 2 = 1 then q + 1
  else q

/-- Conversion `float32(f)` for a float64 given by its bits: IEEE-754 narrowing, round to
nearest even; the result is the bit pattern `math.Float32bits` shows. -/
def float64ToFloat32 (bits : Nat) : Nat :=
  let sign := (bits >>> 63) % 2
  let e := (bits >>> 52) % 2048
  let m := bits % 2 ^ 52
  let s32 := sign * 2 ^ 31
  if e = 2047 then
    if m = 0 then s32 + 0x7F800000 else s32 + 0x7FC00000 + (m >>> 29) % 2 ^ 22
  else if e = 0 then s32
  else
    let sig := 2 ^ 52 + m
    -- unbiased exponent is e - 1023; float32 normals need e - 1023 ≥ -126, that is e ≥ 897
    if e ≥ 897 then
      let r := roundShift sig 29
      -- r is in [2^23, 2^24]; the biased float32 exponent is e - 896
      let v := (e - 897) * 2 ^ 23 + r
      if v ≥ 0x7F800000 then s32 + 0x7F800000 else s32 + v
    else
      -- subnormal float32: shift by 29 + (897 - e)
      let sh := 29 + (897 - e)
      s32 + roundShift sig sh

/-- Conversion `float64(f)` for a float32 given by its bits: exact widening. -/
def float32ToFloat64 (bits : Nat) : Nat :=
  let sign := (bits >>> 31) % 2
  let e := (bits >>> 23) % 256
  let m := bits % 2 ^ 23
  let s64 := sign * 2 ^ 63
  if e = 255 then
    if m = 0 then s64 + 0x7FF0000000000000 else s64 + 0x7FF8000000000000 + m * 2 ^ 29 % 2 ^ 51
  else if e = 0 then
    if m = 0 then s64
    else
      -- value m * 2^-149 with m < 2^23: normalise
      let l := Nat.log2 m
      s64 + (l + 874) * 2 ^ 52 + (m * 2 ^ (52 - l)) % 2 ^ 52
  else s64 + (e + 896) * 2 ^ 52 + m * 2 ^ 29

/-- Conversion `float64(n)` for an integer: round to nearest even to 53 significant bits. -/
def intToFloat64 (n : Int) : Nat :=
  let sign := if n < 0 then 2 ^ 63 else 0
  let a := n.natAbs
  if a = 0 then 0
  else
    let l := Nat.log2 a
    if l ≤ 52 then sign + (l + 1023) * 2 ^ 52 + (a * 2 ^ (52 - l)) % 2 ^ 52
    else
      let r := roundShift a (l - 52)
      -- r is in [2^52, 2^53]; a carry out of the significand bumps the exponent
      sign + (l + 1022) * 2 ^ 52 + r

/-- Conversion `int64(f)` (and `int(f)`) for a float64 given by its bits: truncation
towards zero.  Out of range and NaN give -2^63, as the amd64 conversion does. -/
def float64ToInt (bits : Nat) : Int :=
  let neg := (bits >>> 63) % 2 = 1
  let e := (bits >>> 52) % 2048
  let m := bits % 2 ^ 52
  if e < 1023 then 0
  else if e ≥ 1086 then -(2 ^ 63 : Int)
  else
    let sig := 2 ^ 52 + m
    let a : Nat := if e ≥ 1075 then sig <<< (e - 1075) else sig >>> (1075 - e)
    if neg then -(a : Int) else (a : Int)

/-! ## Text conversions -/

/-- The text functions of `strconv` and `strings` that `cast` calls, as the
embedding takes them: a function from the text to the parsed value (`none` when
the library returns an error) and from the value to its text. -/
structure Strconv where
  /-- The result of `strconv.ParseInt(s, 0, 0)`. -/
  ParseInt : List Nat → Option Int
  /-- The result of `strconv.ParseFloat(s, 64)`, as float64 bits. -/
  ParseFloat : List Nat → Option Nat
  /-- The result of `strconv.FormatFloat(f, 'f', -1, 64)` on float64 bits. -/
  FormatFloat64 : Nat → List Nat
  /-- The result of `strconv.FormatFloat(float64(f), 'f', -1, 32)` on float32 bits. -/
  FormatFloat32 : Nat → List Nat
  /-- The result of `strings.Fields(s)`. -/
  Fields : List Nat → List (List Nat)

/-- The decimal digits of a number, as ASCII. -/
def decimalDigits : Nat → Nat → List Nat
  | 0, _ => []
  | fuel + 1, n => if n < 10 then [48 + n] else decimalDigits fuel (n / 10) ++ [48 + n % 10]

/-- The text of `strconv.FormatInt(n, 10)`. -/
def FormatInt (n : Int) : List Nat :=
  if n < 0 then 45 :: decimalDigits (n.natAbs + 1) n.natAbs
  else decimalDigits (n.natAbs + 1) n.natAbs

/-- The text of `strconv.FormatBool`. -/
def FormatBool (b : Bool) : List Nat :=
  if b then utf8 "true" else utf8 "false"

/-- The result of `strconv.ParseBool`; it accepts 1, t, T, TRUE, true, True, 0, f, F, FALSE, false, False. -/
def ParseBool (s : List Nat) : Option Bool :=
  if s = utf8 "1" ∨ s = utf8 "t" ∨ s = utf8 "T" ∨ s = utf8 "TRUE" ∨ s = utf8 "true"
      ∨ s = utf8 "True" then some true
  else if s = utf8 "0" ∨ s = utf8 "f" ∨ s = utf8 "F" ∨ s = utf8 "FALSE" ∨ s = utf8 "false"
      ∨ s = utf8 "False" then some false
  else none

/-- Decimal digits to a number; `none` on a byte that is not a digit. -/
def parseDigits : Nat → List Nat → Option Nat
  | acc, [] => some acc
  | acc, c :: cs => if 48 ≤ c ∧ c ≤ 57 then parseDigits (acc * 10 + (c - 48)) cs else none

/-- A reading of `strconv.ParseInt` for signed decimal literals within int64. -/
def parseDecimal (s : List Nat) : Option Int :=
  let body (neg : Bool) (ds : List Nat) : Option Int :=
    match ds with
    | [] => none
    | _ =>
      match parseDigits 0 ds with
      | none => none
      | some n =>
        if neg then (if n ≤ 2 ^ 63 then some (-(n : Int)) else none)
        else (if n < 2 ^ 63 then some (n : Int) else none)
  match s with
  | [] => none
  | 43 :: ds => body false ds
  | 45 :: ds => body true ds
  | ds => body false ds

/-- The text conversions restricted to plain decimal integers: what the
examples of this development need.  Floats have no text form here and text
does not split into fields. -/
def Strconv.decimal : Strconv where
  ParseInt := parseDecimal
  ParseFloat := fun _ => none
  FormatFloat64 := fun _ => []
  FormatFloat32 := fun _ => []
  Fields := fun s => [s]

/-! ## Coercions (spf13/cast and cast.go) -/

namespace cast

/-- ToIntE casts an interface to an int. -/
def ToIntE (L : Strconv) : Value → Option Int
  | .int _ n => some (toInt64 n)
  | .float64 b => some (float64ToInt b)
  | .float32 b => some (float64ToInt (float32ToFloat64 b))
  | .str s => (L.ParseInt s).map toInt64
  | .bool b => some (if b then 1 else 0)
  | .null => some 0
  | _ => none

/-- ToInt64E casts an interface to an int64. -/
def ToInt64E (L : Strconv) : Value → Option Int
  | .int _ n => some (toInt64 n)
  | .float64 b => some (float64ToInt b)
  | .float32 b => some (float64ToInt (float32ToFloat64 b))
  | .str s => (L.ParseInt s).map toInt64
  | .bool b => some (if b then 1 else 0)
  | .null => some 0
  | _ => none

/-- ToBoolE casts an interface to a bool: of the integer kinds only `int` is accepted. -/
def ToBoolE : Value → Option Bool
  | .bool b => some b
  | .null => some false
  | .int .int n => some (n != 0)
  | .str s => ParseBool s
  | _ => none

/-- ToFloat64E casts an interface to a float64 (its bits). -/
def ToFloat64E (L : Strconv) : Value → Option Nat
  | .float64 b => some b
  | .float32 b => some (float32ToFloat64 b)
  | .int _ n => some (intToFloat64 n)
  | .str s => L.ParseFloat s
  | .bool b => some (if b then 0x3FF0000000000000 else 0)
  | _ => none

/-- ToStringE casts an interface to a string. -/
def ToStringE (L : Strconv) : Value → Option (List Nat)
  | .str s => some s
  | .bool b => some (FormatBool b)
  | .float64 b => some (L.FormatFloat64 b)
  | .float32 b => some (L.FormatFloat32 b)
  | .int _ n => some (FormatInt (toInt64 n))
  | .bytes b => some b
  | .null => some []
  | _ => none

/-- ToString is ToStringE with the error dropped. -/
def ToString (L : Strconv) (i : Value) : List Nat :=
  (ToStringE L i).getD []

/-- ToIntSliceE casts an interface to a []int: every element of a slice goes through ToIntE. -/
def ToIntSliceE (L : Strconv) : Value → Option (List Int)
  | .list xs => xs.mapM (ToIntE L)
  | .bytes b => b.mapM (fun x => ToIntE L (.int .uint8 x))
  | _ => none

/-- ToBoolSliceE casts an interface to a []bool: every element of a slice goes through ToBoolE. -/
def ToBoolSliceE : Value → Option (List Bool)
  | .list xs => xs.mapM ToBoolE
  | .bytes b => b.mapM (fun x => ToBoolE (.int .uint8 x))
  | _ => none

/-- ToStringSliceE casts an interface to a []string. -/
def ToStringSliceE (L : Strconv) : Value → Option (List (List Nat))
  | .list xs => some (xs.map (ToString L))
  | .str s => some (L.Fields s)
  | .null => none
  | v => (ToStringE L v).map (fun s => [s])

end cast

/-- ToByteSliceE (cast.go): a `[]interface{}` whose elements are all of dynamic
type `byte`, a `[]byte`, or a string. -/
def ToByteSliceE : Value → Option (List Nat)
  | .list xs => xs.mapM (fun u => match u with
      | .int .uint8 n => some (n % 256).toNat
      | _ => none)
  | .bytes v => some v
  | .str v => some v
  | _ => none

/-- ToInt64SliceE (cast.go): every element of a slice goes through ToInt64E. -/
def ToInt64SliceE (L : Strconv) : Value → Option (List Int)
  | .list xs => xs.mapM (cast.ToInt64E L)
  | .bytes b => b.mapM (fun x => cast.ToInt64E L (.int .uint8 x))
  | _ => none

/-! ## Descriptor model (types.go) -/

/-- The functions of type `valueEncoder`. -/
inductive valueEncoder where
  | EncodeVarint | EncodeFixed64 | EncodeFixed32 | EncodeZigzag64 | EncodeZigzag32
  deriving DecidableEq, Repr

/-- The functions of type `encoder`. -/
inductive encoder where
  | enc_bool | enc_int32 | enc_float32 | enc_float64 | enc_uint32 | enc_int64 | enc_string
  | enc_slice_bool | enc_slice_byte | enc_slice_int32 | enc_slice_uint32 | enc_slice_int64
  | enc_slice_string
  deriving DecidableEq, Repr

/-- A type reference: its name, and key and value types when it is a map. -/
inductive TypeDesc where
  | mk (Name : String) (KeyType : Option TypeDesc) (ValueType : Option TypeDesc)

/-- The name of a type reference. -/
def TypeDesc.Name : TypeDesc → String
  | .mk n _ _ => n

structure EnumValue where
  Name : String
  Value : Int

structure Enum where
  Name : String
  Values : List (String × EnumValue)

/-- A field: what the schema declares, and `tagcode`, `enc`, `valEnc`, which
`Field.init` fills in (empty and nil before). -/
structure Field where
  Name : String
  Tag : Int
  Typ : TypeDesc
  Repeated : Bool
  Oneof : Option String
  tagcode : List Nat
  enc : Option encoder
  valEnc : Option valueEncoder

/-- A message.  `Fields` is the map from field name to field. -/
inductive Message where
  | mk (Name : String) (Fields : List (String × Field)) (NestedMessages : List Message)
      (NestedEnums : List Enum) (Order : List String)

def Message.Name : Message → String
  | .mk n _ _ _ _ => n

def Message.Fields : Message → List (String × Field)
  | .mk _ fs _ _ _ => fs

def Message.NestedMessages : Message → List Message
  | .mk _ _ ms _ _ => ms

def Message.NestedEnums : Message → List Enum
  | .mk _ _ _ es _ => es

def Message.Order : Message → List String
  | .mk _ _ _ _ o => o

structure Method where
  Name : String
  Request : String
  Response : String
  ReqStream : Bool
  RespStream : Bool

structure Service where
  Name : String
  Methods : List (String × Method)

/-- The parsed schema.  An entry of `Messages` may hold a nil pointer (`none`). -/
structure Protobuf where
  Syntax : String
  Dependency : List (String × Bool)
  Enums : List (String × Enum)
  Messages : List (String × Option Message)
  Services : List (String × Service)

/-- Assignment `m[k] = v` on a map: the entry of `k` is replaced where it
stands, a new key goes to the end. -/
def mapSet {α : Type} (k : String) (v : α) : List (String × α) → List (String × α)
  | [] => [(k, v)]
  | (k', v') :: rest => if k' = k then (k, v) :: rest else (k', v') :: mapSet k v rest

def Protobuf.hasEnum (p : Protobuf) (name : String) : Bool :=
  (p.Enums.lookup name).isSome

def Protobuf.hasMessage (p : Protobuf) (name : String) : Bool :=
  (p.Messages.lookup name).isSome

/-! ## Field encoders (encode.go) -/

/-- A call through a `valueEncoder` function value. -/
def valueEncoder.call : valueEncoder → Buffer → Nat → Buffer
  | .EncodeVarint => Buffer.EncodeVarint
  | .EncodeFixed64 => Buffer.EncodeFixed64
  | .EncodeFixed32 => Buffer.EncodeFixed32
  | .EncodeZigzag64 => Buffer.EncodeZigzag64
  | .EncodeZigzag32 => Buffer.EncodeZigzag32

/-- The call `f.valEnc(o, x)`: a nil `valEnc` panics.  The error a value encoder
returns is always nil and the callers drop it. -/
def Field.callValEnc (f : Field) (o : Buffer) (x : Nat) : Buffer × Ret Unit :=
  match f.valEnc with
  | none => (o, .panic)
  | some ve => (ve.call o x, .ok ())

/-- Encode a bool. -/
def Buffer.enc_bool (o : Buffer) (f : Field) (i : Value) : Buffer × Ret Unit :=
  match cast.ToBoolE i with
  | none => (o, .err .errInvalidDataType)
  | some v =>
    if !v then (o, .err .ErrNil)
    else
      let o := o ++ f.tagcode
      match f.callValEnc o 1 with
      | (o, .panic) => (o, .panic)
      | (o, _) => (o, .ok ())

/-- Encode an int32. -/
def Buffer.enc_int32 (L : Strconv) (o : Buffer) (f : Field) (i : Value) : Buffer × Ret Unit :=
  match cast.ToIntE L i with
  | none => (o, .err .errInvalidDataType)
  | some x =>
    if x = 0 then (o, .err .ErrNil)
    else
      let o := o ++ f.tagcode
      match f.callValEnc o (toUint64 x) with
      | (o, .panic) => (o, .panic)
      | (o, _) => (o, .ok ())

/-- Encode a float: `x := math.Float32bits(float32(v))`. -/
def Buffer.enc_float32 (L : Strconv) (o : Buffer) (f : Field) (i : Value) : Buffer × Ret Unit :=
  match cast.ToFloat64E L i with
  | none => (o, .err .errInvalidDataType)
  | some v =>
    let x := float64ToFloat32 v
    if x = 0 then (o, .err .ErrNil)
    else
      let o := o ++ f.tagcode
      match f.callValEnc o x with
      | (o, .panic) => (o, .panic)
      | (o, _) => (o, .ok ())

/-- Encode a double: `x := math.Float64bits(v)`. -/
def Buffer.enc_float64 (L : Strconv) (o : Buffer) (f : Field) (i : Value) : Buffer × Ret Unit :=
  match cast.ToFloat64E L i with
  | none => (o, .err .errInvalidDataType)
  | some x =>
    if x = 0 then (o, .err .ErrNil)
    else
      let o := o ++ f.tagcode
      match f.callValEnc o x with
      | (o, .panic) => (o, .panic)
      | (o, _) => (o, .ok ())

/-- Encode an uint32. -/
def Buffer.enc_uint32 (L : Strconv) (o : Buffer) (f : Field) (i : Value) : Buffer × Ret Unit :=
  match cast.ToIntE L i with
  | none => (o, .err .errInvalidDataType)
  | some x =>
    if x = 0 then (o, .err .ErrNil)
    else
      let o := o ++ f.tagcode
      match f.callValEnc o (toUint64 x) with
      | (o, .panic) => (o, .panic)
      | (o, _) => (o, .ok ())

/-- Encode an int64. -/
def Buffer.enc_int64 (L : Strconv) (o : Buffer) (f : Field) (i : Value) : Buffer × Ret Unit :=
  match cast.ToInt64E L i with
  | none => (o, .err .errInvalidDataType)
  | some x =>
    if x = 0 then (o, .err .ErrNil)
    else
      let o := o ++ f.tagcode
      match f.callValEnc o (toUint64 x) with
      | (o, .panic) => (o, .panic)
      | (o, _) => (o, .ok ())

/-- Encode a string. -/
def Buffer.enc_string (L : Strconv) (o : Buffer) (f : Field) (i : Value) : Buffer × Ret Unit :=
  match cast.ToStringE L i with
  | none => (o, .err .errInvalidDataType)
  | some v =>
    if v = [] then (o, .err .ErrNil)
    else (Buffer.EncodeStringBytes (o ++ f.tagcode) v, .ok ())

/-- The loop `for _, x := range s { f.valEnc(buf, v(x)) }` of the packed
encoders, over the values already converted to uint64. -/
def valEncAll (f : Field) : Buffer → List Nat → Buffer × Ret Unit
  | buf, [] => (buf, .ok ())
  | buf, x :: xs =>
    match f.callValEnc buf x with
    | (buf, .panic) => (buf, .panic)
    | (buf, _) => valEncAll f buf xs

/-- Encode a slice of bools ([]bool) in packed format. -/
def Buffer.enc_slice_bool (o : Buffer) (f : Field) (i : Value) : Buffer × Ret Unit :=
  match cast.ToBoolSliceE i with
  | none => (o, .err .errInvalidDataType)
  | some s =>
    let l := s.length
    if l = 0 then (o, .err .ErrNil)
    else
      let o := Buffer.EncodeVarint (o ++ f.tagcode) l
      match valEncAll f o (s.map (fun x => if x then 1 else 0)) with
      | (o, .panic) => (o, .panic)
      | (o, _) => (o, .ok ())

/-- Encode a slice of bytes ([]byte). -/
def Buffer.enc_slice_byte (o : Buffer) (f : Field) (i : Value) : Buffer × Ret Unit :=
  match ToByteSliceE i with
  | none => (o, .err .errInvalidDataType)
  | some s =>
    if s.length = 0 then (o, .err .ErrNil)
    else (Buffer.EncodeRawBytes (o ++ f.tagcode) s, .ok ())

/-- Encode a slice of int32s ([]int32) in packed format: each element is
`uint64(int32(s[i]))`, written to a scratch buffer first. -/
def Buffer.enc_slice_int32 (L : Strconv) (o : Buffer) (f : Field) (i : Value) :
    Buffer × Ret Unit :=
  match cast.ToIntSliceE L i with
  | none => (o, .err .errInvalidDataType)
  | some s =>
    let l := s.length
    if l = 0 then (o, .err .ErrNil)
    else
      match valEncAll f [] (s.map (fun x => toUint64 (toInt32 x))) with
      | (_, .panic) => (o, .panic)
      | (buf, _) => (Buffer.EncodeVarint (o ++ f.tagcode) buf.length ++ buf, .ok ())

/-- Encode a slice of uint32s ([]uint32) in packed format.  The element
conversion is the one of enc_slice_int32, `uint64(int32(s[i]))`. -/
def Buffer.enc_slice_uint32 (L : Strconv) (o : Buffer) (f : Field) (i : Value) :
    Buffer × Ret Unit :=
  match cast.ToIntSliceE L i with
  | none => (o, .err .errInvalidDataType)
  | some s =>
    let l := s.length
    if l = 0 then (o, .err .ErrNil)
    else
      match valEncAll f [] (s.map (fun x => toUint64 (toInt32 x))) with
      | (_, .panic) => (o, .panic)
      | (buf, _) => (Buffer.EncodeVarint (o ++ f.tagcode) buf.length ++ buf, .ok ())

/-- Encode a slice of int64s ([]int64) in packed format. -/
def Buffer.enc_slice_int64 (L : Strconv) (o : Buffer) (f : Field) (i : Value) :
    Buffer × Ret Unit :=
  match ToInt64SliceE L i with
  | none => (o, .err .errInvalidDataType)
  | some s =>
    let l := s.length
    if l = 0 then (o, .err .ErrNil)
    else
      match valEncAll f [] (s.map toUint64) with
      | (_, .panic) => (o, .panic)
      | (buf, _) => (Buffer.EncodeVarint (o ++ f.tagcode) buf.length ++ buf, .ok ())

/-- The loop of enc_slice_string: tag code and string, once per element. -/
def encStrings (f : Field) : Buffer → List (List Nat) → Buffer
  | o, [] => o
  | o, s :: ss => encStrings f (Buffer.EncodeStringBytes (o ++ f.tagcode) s) ss

/-- Encode a slice of strings ([]string). -/
def Buffer.enc_slice_string (L : Strconv) (o : Buffer) (f : Field) (i : Value) :
    Buffer × Ret Unit :=
  match cast.ToStringSliceE L i with
  | none => (o, .err .errInvalidDataType)
  | some ss => (encStrings f o ss, .ok ())

/-- A call through an `encoder` function value. -/
def encoder.call (L : Strconv) : encoder → Buffer → Field → Value → Buffer × Ret Unit
  | .enc_bool => Buffer.enc_bool
  | .enc_int32 => Buffer.enc_int32 L
  | .enc_float32 => Buffer.enc_float32 L
  | .enc_float64 => Buffer.enc_float64 L
  | .enc_uint32 => Buffer.enc_uint32 L
  | .enc_int64 => Buffer.enc_int64 L
  | .enc_string => Buffer.enc_string L
  | .enc_slice_bool => Buffer.enc_slice_bool
  | .enc_slice_byte => Buffer.enc_slice_byte
  | .enc_slice_int32 => Buffer.enc_slice_int32 L
  | .enc_slice_uint32 => Buffer.enc_slice_uint32 L
  | .enc_slice_int64 => Buffer.enc_slice_int64 L
  | .enc_slice_string => Buffer.enc_slice_string L

/-! ## The compiler (types.go) -/

/-- The test `strings.HasPrefix(s, pre)`. -/
def hasPrefix (s pre : String) : Bool :=
  pre.toList.isPrefixOf s.toList

/-- First part of `Field.init`: the wire type, and the value encoder where the
branch assigns one.  `none` is the `return errInvalidField` of the last branch. -/
def Field.wireStep (f : Field) (root : Protobuf) : Option (Nat × Field) :=
  let typ := f.Typ.Name
  if typ = "int32" ∨ typ = "int64" ∨ typ = "uint32" ∨ typ = "uint64" ∨
      typ = "sint32" ∨ typ = "sint64" ∨ typ = "bool" ∨ root.hasEnum typ = true then
    if typ = "sint32" then some (WireVarint, { f with valEnc := some .EncodeZigzag32 })
    else if typ = "sint64" then some (WireVarint, { f with valEnc := some .EncodeZigzag64 })
    else some (WireVarint, { f with valEnc := some .EncodeVarint })
  else if typ = "fixed64" ∨ typ = "sfixed64" ∨ typ = "double" then
    some (WireFixed64, { f with valEnc := some .EncodeFixed64 })
  else if typ = "string" ∨ typ = "bytes" ∨ root.hasMessage typ = true then
    some (WireBytes, { f with valEnc := some .EncodeVarint })
  else if typ = "fixed32" ∨ typ = "sfixed32" ∨ typ = "float" then
    some (WireFixed32, f)
  else if hasPrefix typ "google.protobuf." = true then
    some (WireBytes, f)
  else none

/-- Second part of `Field.init`: the encoder of a non-repeated field (the
`switch typ`), or wire type Bytes for a repeated one.  `none` is the
`return errInvalidField` of the default case. -/
def Field.encStep (f : Field) (root : Protobuf) (wireType : Nat) : Option (Nat × Field) :=
  let typ := f.Typ.Name
  if !f.Repeated then
    if typ = "bool" then some (wireType, { f with enc := some .enc_bool })
    else if typ = "int32" ∨ typ = "sint32" ∨ typ = "sfixed32" then
      some (wireType, { f with enc := some .enc_int32 })
    else if typ = "uint32" ∨ typ = "fixed32" then
      some (wireType, { f with enc := some .enc_uint32 })
    else if typ = "int64" ∨ typ = "sint64" ∨ typ = "sfixed64" then
      some (wireType, { f with enc := some .enc_int64 })
    else if typ = "uint64" ∨ typ = "fixed64" then
      some (wireType, { f with enc := some .enc_int64 })
    else if typ = "float" then some (wireType, { f with enc := some .enc_float32 })
    else if typ = "double" then some (wireType, { f with enc := some .enc_float64 })
    else if typ = "string" ∨ typ = "bytes" then
      some (wireType, { f with enc := some .enc_string })
    else if hasPrefix typ "google.protobuf." = true then some (wireType, f)
    else if root.hasEnum typ = true then some (wireType, { f with enc := some .enc_int32 })
    else if root.hasMessage typ = true then some (wireType, f)
    else none
  else some (WireBytes, f)

/-- The loop `for i = 0; x > 127; i++ { tagbuf[i] = 0x80 | uint8(x&0x7F); x >>= 7 }`
on the scratch array; `none` when `tagbuf[i]` is out of range.  The first
argument bounds the iterations. -/
def tagLoop : Nat → List Nat → Nat → Nat → Option (List Nat × Nat × Nat)
  | 0, tagbuf, i, x => some (tagbuf, i, x)
  | fuel + 1, tagbuf, i, x =>
    if x > 127 then
      if i < tagbuf.length then
        tagLoop fuel (tagbuf.set i (0x80 ||| (x &&& 0x7F) % 256)) (i + 1) (x >>> 7)
      else none
    else some (tagbuf, i, x)

/-- Third part of `Field.init`: `x := uint32(f.Tag)<<3 | wireType`, the loop
over `tagbuf := [8]byte{}`, then `tagbuf[i] = uint8(x)` and
`f.tagcode = tagbuf[0 : i+1]`.  `none` is an index out of range. -/
def Field.tagStep (f : Field) (wireType : Nat) : Option Field :=
  let x := (toUint32 f.Tag <<< 3) % 2 ^ 32 ||| wireType
  match tagLoop x (List.replicate 8 0) 0 x with
  | none => none
  | some (tagbuf, i, x) =>
    if i < tagbuf.length then some { f with tagcode := (tagbuf.set i (x % 256)).take (i + 1) }
    else none

/-- Precalculate tag code: `Field.init`.  The field is mutated in place, so
the field as the call leaves it is returned with the result. -/
def Field.init (f : Field) (root : Protobuf) : Field × Ret Unit :=
  match f.wireStep root with
  | none => (f, .err .errInvalidField)
  | some (wireType, f) =>
    match f.encStep root wireType with
    | none => (f, .err .errInvalidField)
    | some (wireType, f) =>
      match f.tagStep wireType with
      | none => (f, .panic)
      | some f => (f, .ok ())

/-- The loop `for _, f := range m.Fields { err = f.init(p) ... }`: stops at the
first error; the fields visited before it stay compiled. -/
def initFields (p : Protobuf) : List (String × Field) → List (String × Field) × Ret Unit
  | [] => ([], .ok ())
  | (k, f) :: rest =>
    match f.init p with
    | (f, .ok _) =>
      let r := initFields p rest
      ((k, f) :: r.1, r.2)
    | (f, e) => ((k, f) :: rest, e)

/-- The loop `for _, ne := range m.NestedEnums { p.Enums[ne.Name] = ne }`. -/
def hoistEnums : List (String × Enum) → List Enum → List (String × Enum)
  | enums, [] => enums
  | enums, ne :: rest => hoistEnums (mapSet ne.Name ne enums) rest

/-- The tag `p.Fields[name].Tag` that `Less` reads. -/
def tagOf (fields : List (String × Field)) (name : String) : Int :=
  match fields.lookup name with
  | some f => f.Tag
  | none => 0

/-- The call `sort.Sort(m)`: `Order` sorted by `Less`, that is by ascending tag.
With fewer than two names nothing is compared.  Otherwise every name is
compared at least once and `Less` dereferences `p.Fields[name]`, a nil pointer
for a name that is not a field: `none` is that panic.  Go's sort is not
stable; names of equal tag keep their order here, as they do in the insertion
sort Go runs on short slices. -/
def sortOrder (fields : List (String × Field)) (order : List String) : Option (List String) :=
  if order.length < 2 then some order
  else if order.all (fun n => (fields.lookup n).isSome) then
    some (order.insertionSort (fun a b => tagOf fields a ≤ tagOf fields b))
  else none

/-- What `Message.init` leaves: the schema, the message (mutated in place), the
keys of `p.Messages` it assigned, and its result. -/
structure InitResult where
  p : Protobuf
  m : Message
  assigned : List String
  ret : Ret Unit

/-- What the loop over the nested messages leaves. -/
structure NestedResult where
  p : Protobuf
  ms : List Message
  assigned : List String
  ret : Ret Unit

mutual
/-- Compile a message: `Message.init`.  Nested messages are hoisted and compiled
first, then the nested enums are hoisted, then the fields are compiled, then
`Order` is sorted. -/
def Message.init (p : Protobuf) : Message → InitResult
  | .mk name fields nested enums order =>
    let r := Message.initNested p nested
    match r.ret with
    | .ok _ =>
      let p := { r.p with Enums := hoistEnums r.p.Enums enums }
      match initFields p fields with
      | (fields, .ok _) =>
        match sortOrder fields order with
        | some order => ⟨p, .mk name fields r.ms enums order, r.assigned, .ok ()⟩
        | none => ⟨p, .mk name fields r.ms enums order, r.assigned, .panic⟩
      | (fields, e) => ⟨p, .mk name fields r.ms enums order, r.assigned, e⟩
    | e => ⟨r.p, .mk name fields r.ms enums order, r.assigned, e⟩
/-- The loop `for _, nm := range m.NestedMessages { p.Messages[nm.Name] = nm; err = nm.init(p) ... }`.
The map holds a pointer to `nm`, so after `nm.init` the entry shows the compiled
`nm`, unless `nm.init` itself assigned the key to a deeper message. -/
def Message.initNested (p : Protobuf) : List Message → NestedResult
  | [] => ⟨p, [], [], .ok ()⟩
  | nm :: rest =>
    let r := Message.init { p with Messages := mapSet nm.Name (some nm) p.Messages } nm
    let p := if nm.Name ∈ r.assigned then r.p
             else { r.p with Messages := mapSet nm.Name (some r.m) r.p.Messages }
    match r.ret with
    | .ok _ =>
      let rr := Message.initNested p rest
      ⟨rr.p, r.m :: rr.ms, nm.Name :: (r.assigned ++ rr.assigned), rr.ret⟩
    | e => ⟨p, r.m :: rest, nm.Name :: r.assigned, e⟩
end

/-- Compile the schema: `Protobuf.init`, `for _, m := range p.Messages { m.init(p) }`.
The second argument is the sequence of keys the `range` yields: Go fixes neither
their order nor whether an entry added during the loop is yielded.  The entry
of a key points to the message compiled, so it shows the compiled message
afterwards, unless the key was assigned anew meanwhile. -/
def Protobuf.init (p : Protobuf) : List String → Protobuf × Ret Unit
  | [] => (p, .ok ())
  | name :: rest =>
    match p.Messages.lookup name with
    | none => Protobuf.init p rest
    | some none => (p, .panic)
    | some (some m) =>
      let r := m.init p
      let p := if name ∈ r.assigned then r.p
               else { r.p with Messages := mapSet name (some r.m) r.p.Messages }
      match r.ret with
      | .ok _ => Protobuf.init p rest
      | e => (p, e)

/-! ## Marshalling (types.go, protobuf.go) -/

/-- The loop of `Message.Marshal` over `m.Order`.  The error an encoder returns
is dropped; a panic ends the call. -/
def marshalLoop (L : Strconv) (fields : List (String × Field)) (data : List (String × Value)) :
    List String → Buffer → Buffer × Ret Unit
  | [], buf => (buf, .ok ())
  | fn :: rest, buf =>
    match fields.lookup fn with
    | none => (buf, .err .errInvalidField)
    | some field =>
      match data.lookup field.Name with
      | none => marshalLoop L fields data rest buf
      | some .null => marshalLoop L fields data rest buf
      | some v =>
        match field.enc with
        | none => marshalLoop L fields data rest buf
        | some enc =>
          match enc.call L buf field v with
          | (buf, .panic) => (buf, .panic)
          | (buf, _) => marshalLoop L fields data rest buf

/-- Marshal a record with a compiled message into a buffer: `Message.Marshal`. -/
def Message.Marshal (L : Strconv) (m : Message) (_p : Protobuf) (buf : Buffer)
    (data : List (String × Value)) : Buffer × Ret Unit :=
  marshalLoop L m.Fields data m.Order buf

/-- A protocol instance: the idle buffers its `sync.Pool` holds, and the schema. -/
structure ProtobufProtocol where
  bufPool : List Buffer
  parser : Option Protobuf

/-- A fresh instance: `NewProtobufProtocol`. -/
def NewProtobufProtocol : ProtobufProtocol :=
  ⟨[], none⟩

/-- The call `bufPool.Get()`: the pool hands back the idle buffer it picks and
removes it, or, when it picks none, a new empty buffer (`New`). -/
def poolGet (pool : List Buffer) (pick : Option Nat) : Buffer × List Buffer :=
  match pick with
  | none => ([], pool)
  | some i =>
    match pool.get? i with
    | some b => (b, pool.eraseIdx i)
    | none => ([], pool)

/-- The call `bufPool.Put(buf)`. -/
def poolPut (pool : List Buffer) (buf : Buffer) : List Buffer :=
  buf :: pool

/-- Modelled from the spec: `ParseReader`, the schema parser, is not among the
sources.  The spec has the compiler run as part of parse: the descriptor the
grammar built is compiled by `Protobuf.init`, whose error is the error of the
parse. -/
def ParseReader (descriptor : Protobuf) (visit : List String) : Ret Protobuf :=
  match descriptor.init visit with
  | (pb, .ok _) => .ok pb
  | (_, .err e) => .err e
  | (_, .panic) => .panic

/-- Install a schema: `ProtobufProtocol.Parse`, given what `ParseReader` returned. -/
def ProtobufProtocol.Parse (p : ProtobufProtocol) (parsed : Ret Protobuf) :
    ProtobufProtocol × Ret Unit :=
  match parsed with
  | .ok pb => ({ p with parser := some pb }, .ok ())
  | .err e => (p, .err e)
  | .panic => (p, .panic)

/-- Marshal a record: `ProtobufProtocol.Marshal`.  `pick` is the choice the pool
makes in `Get`.  The deferred `Put` runs on every way out once the buffer is
taken. -/
def ProtobufProtocol.Marshal (L : Strconv) (p : ProtobufProtocol) (pick : Option Nat)
    (name : String) (data : List (String × Value)) : ProtobufProtocol × Ret (List Nat) :=
  match p.parser with
  | none => (p, .err .errInvalidParser)
  | some parser =>
    match parser.Messages.lookup name with
    | none => (p, .err (.MessageNotExistsError name))
    | some none => (p, .err (.MessageNotExistsError name))
    | some (some m) =>
      let g := poolGet p.bufPool pick
      let r := m.Marshal L parser g.1 data
      let p := { p with bufPool := poolPut g.2 r.1 }
      match r.2 with
      | .ok _ => (p, .ok r.1)
      | .err e => (p, .err e)
      | .panic => (p, .panic)

/-! ## Schemas and records of the examples -/

/-- A field as the parser leaves it: declared parts set, compiled parts empty. -/
def declField (name : String) (tag : Int) (typ : String) (repeated : Bool) : Field :=
  ⟨name, tag, .mk typ none none, repeated, none, [], none, none⟩

/-- The declaration of `Pet` in the test schema. -/
def petDecl : Message :=
  .mk "Pet" [("type", declField "type" 1 "PetType" false),
    ("name", declField "name" 2 "string" false)] [] [] ["type", "name"]

/-- The declaration of `Person` in the test schema. -/
def personDecl : Message :=
  .mk "Person" [
    ("name", declField "name" 1 "string" false),
    ("age", declField "age" 2 "uint32" false),
    ("gender", declField "gender" 3 "Gender" false),
    ("hobbies", declField "hobbies" 4 "string" true),
    ("desc", declField "desc" 6 "google.protobuf.Any" true),
    ("online_time", declField "online_time" 5 "google.protobuf.Duration" false),
    ("pets", declField "pets" 7 "Pet" true)] [] []
    ["name", "age", "gender", "hobbies", "desc", "online_time", "pets"]

/-- The schema of protobuf_test.go (`_testProto`) as a descriptor. -/
def testProto : Protobuf where
  Syntax := "proto3"
  Dependency := [("google/protobuf/any.proto", true), ("google/protobuf/duration.proto", true)]
  Enums := [
    ("Gender", ⟨"Gender", [("MALE", ⟨"MALE", 0⟩), ("FEMALE", ⟨"FEMALE", 1⟩)]⟩),
    ("PetType", ⟨"PetType", [("DOG", ⟨"DOG", 0⟩), ("CAT", ⟨"CAT", 1⟩), ("SNAKE", ⟨"SNAKE", 2⟩)]⟩)]
  Messages := [
    ("Person", some personDecl),
    ("Pet", some petDecl),
    ("Integer", some (.mk "Integer" [("value", declField "value" 1 "int32" false)] [] []
        ["value"])),
    ("PersonGetRequest", some (.mk "PersonGetRequest" [("id", declField "id" 1 "uint32" false)]
        [] [] ["id"]))]
  Services := [("PersonService", ⟨"PersonService",
    [("GetByID", ⟨"GetByID", "PersonGetRequest", "Person", false, false⟩)]⟩)]

/-- The messages of the test schema in the order of their declaration. -/
def testVisit : List String := ["Person", "Pet", "Integer", "PersonGetRequest"]

/-- The test schema as `Protobuf.init` leaves it. -/
def testSchema : Protobuf :=
  (testProto.init testVisit).1

/-- A fresh instance on which `Parse` of the test schema has succeeded. -/
def testProtocol : ProtobufProtocol :=
  (NewProtobufProtocol.Parse (ParseReader testProto testVisit)).1

/-- The record of `TestMarshal`. -/
def petRecord : List (String × Value) :=
  [("type", .int .int 1), ("name", .str (utf8 "xiaoqiang"))]

/-- The bytes 08 01 12 09 "xiaoqiang". -/
def petBytes : List Nat :=
  [0x08, 0x01, 0x12, 0x09] ++ utf8 "xiaoqiang"

/-- A schema with one message, `Lists { repeated int32 nums = 1; repeated string strs = 2; }`. -/
def listsProto : Protobuf where
  Syntax := "proto3"
  Dependency := []
  Enums := []
  Messages := [("Lists", some (.mk "Lists" [
      ("nums", declField "nums" 1 "int32" true),
      ("strs", declField "strs" 2 "string" true)] [] [] ["nums", "strs"]))]
  Services := []

/-- A fresh instance on which `Parse` of `listsProto` has succeeded. -/
def listsProtocol : ProtobufProtocol :=
  (NewProtobufProtocol.Parse (ParseReader listsProto ["Lists"])).1

/-- A field of `Lists` as `Parse` compiled it. -/
def listsField (name : String) : Option Field :=
  match listsProtocol.parser with
  | none => none
  | some pb =>
    match pb.Messages.lookup "Lists" with
    | some (some m) => m.Fields.lookup name
    | _ => none

/-- The record value [1, 300, -1]. -/
def numsValue : Value :=
  .list [.int .int 1, .int .int 300, .int .int (-1)]

/-- The record value ["a", "bb"]. -/
def strsValue : Value :=
  .list [.str (utf8 "a"), .str (utf8 "bb")]

/-- The schema `message Outer { enum E { A = 0; } message Inner { E e = 1; } }`:
one top-level message with a nested enum and a nested message that uses it. -/
def nestedProto : Protobuf where
  Syntax := "proto3"
  Dependency := []
  Enums := []
  Messages := [("Outer", some (.mk "Outer" []
      [.mk "Inner" [("e", declField "e" 1 "E" false)] [] [] ["e"]]
      [⟨"E", [("A", ⟨"A", 0⟩)]⟩] []))]
  Services := []

/-! ## Conditions the properties are stated under -/

/-- The fifteen builtin scalar type names. -/
def scalarName (t : String) : Prop :=
  t = "int32" ∨ t = "int64" ∨ t = "uint32" ∨ t = "uint64" ∨ t = "sint32" ∨ t = "sint64"
    ∨ t = "bool" ∨ t = "fixed32" ∨ t = "sfixed32" ∨ t = "fixed64" ∨ t = "sfixed64"
    ∨ t = "float" ∨ t = "double" ∨ t = "string" ∨ t = "bytes"

/-- A message as the parser leaves it: no field has an encoder or a value
encoder yet. -/
def Message.uncompiled (m : Message) : Bool :=
  m.Fields.all (fun kf => kf.2.enc.isNone && kf.2.valEnc.isNone)

/-- Every name in `Order` is a key of `Fields`. -/
def Message.orderInFields (m : Message) : Bool :=
  m.Order.all (fun fn => (m.Fields.lookup fn).isSome)

/-- The zero value of a field's type: an empty sequence for a repeated field,
false for bool, the empty string or byte sequence for string and bytes, 0.0 for
float and double, the integer 0 for the integer types and for enums. -/
def isZeroValue (typ : String) (repeated : Bool) (v : Value) : Bool :=
  if repeated then
    match v with
    | .list [] => true
    | .bytes [] => true
    | _ => false
  else if typ = "bool" then
    match v with
    | .bool false => true
    | _ => false
  else if typ = "string" ∨ typ = "bytes" then
    match v with
    | .str [] => true
    | .bytes [] => true
    | _ => false
  else if typ = "float" ∨ typ = "double" then
    match v with
    | .float64 0 => true
    | .float32 0 => true
    | _ => false
  else
    match v with
    | .int _ 0 => true
    | _ => false

/-- Every field of the message is absent from the record, nil in it, or holds
the zero value of its type. -/
def zeroRecord (m : Message) (data : List (String × Value)) : Bool :=
  m.Fields.all (fun kf =>
    match data.lookup kf.2.Name with
    | none => true
    | some .null => true
    | some v => isZeroValue kf.2.Typ.Name kf.2.Repeated v)

/-- Modelled from the spec: the varint reader of the wire primitives (no decoder
is among the sources): little-endian base-128 groups, every byte but the last
with its high bit set.  It returns the value and the bytes that follow; it
reads a varint of any length. -/
def decodeVarint : List Nat → Option (Nat × List Nat)
  | [] => none
  | b :: rest =>
    if b < 128 then some (b, rest)
    else
      match decodeVarint rest with
      | some (v, rest) => some (b - 128 + 128 * v, rest)
      | none => none

/-- Modelled from the spec: skipping a value by the length rule of its wire
kind: one varint; 8 bytes; a varint length and that many bytes; 4 bytes. -/
def skipValue (wire : Nat) (bytes : List Nat) : Option (List Nat) :=
  if wire = WireVarint then (decodeVarint bytes).map (fun r => r.2)
  else if wire = WireFixed64 then (if 8 ≤ bytes.length then some (bytes.drop 8) else none)
  else if wire = WireBytes then
    match decodeVarint bytes with
    | some (n, rest) => if n ≤ rest.length then some (rest.drop n) else none
    | none => none
  else if wire = WireFixed32 then (if 4 ≤ bytes.length then some (bytes.drop 4) else none)
  else none

/-- Modelled from the spec: the loop of `scanTags`, which reads a tag code and
skips its value; the first argument bounds the iterations. -/
def scanLoop : Nat → List Nat → Option (List Nat)
  | _, [] => some []
  | 0, _ :: _ => none
  | fuel + 1, b :: bs =>
    match decodeVarint (b :: bs) with
    | none => none
    | some (key, rest) =>
      match skipValue (key &&& 7) rest with
      | none => none
      | some rest => (scanLoop fuel rest).map (fun ts => (key >>> 3) :: ts)

/-- Modelled from the spec: the field numbers of the successive tag codes of a
message on the wire.  A tag code is the varint of `(fieldTag << 3) | wireKind`;
the value after it is skipped by its wire kind.  `none` when the bytes are no
sequence of tag codes and values.  Every tag code takes a byte, so as many
iterations as there are bytes are enough. -/
def scanTags (bytes : List Nat) : Option (List Nat) :=
  scanLoop bytes.length bytes

/-- The encoder of a field writes a value of the wire kind `w` of its tag code:
no encoder; or the string encoder under kind Bytes; or a numeric encoder whose
value encoder writes a varint under kind Varint or eight bytes under kind
Fixed64, or has no value encoder (its call panics). -/
def wireConsistent (w : Nat) (enc : Option encoder) (valEnc : Option valueEncoder) : Prop :=
  enc = none
  ∨ (enc = some .enc_string ∧ w = WireBytes)
  ∨ ((enc = some .enc_bool ∨ enc = some .enc_int32 ∨ enc = some .enc_uint32
        ∨ enc = some .enc_int64 ∨ enc = some .enc_float32 ∨ enc = some .enc_float64)
      ∧ ((w = WireVarint ∧ (valEnc = some .EncodeVarint ∨ valEnc = some .EncodeZigzag32
            ∨ valEnc = some .EncodeZigzag64))
        ∨ (w = WireFixed64 ∧ valEnc = some .EncodeFixed64)
        ∨ valEnc = none))

/-- The bytes `c` are one tag code of field number `n` followed by its value:
in front of any bytes, the scan reads `n` and goes on behind `c`. -/
def isGroup (n : Nat) (c : List Nat) : Prop :=
  ∀ rest, scanTags (c ++ rest) = (scanTags rest).map (fun ts => n :: ts)

/-- Every field tag is a protobuf field number: at least 1 and below 2^29. -/
def Message.tagsInRange (m : Message) : Bool :=
  m.Fields.all (fun kf => decide (1 ≤ kf.2.Tag) && decide (kf.2.Tag < 2 ^ 29))

/-- The tags of the fields that `Order` lists are pairwise distinct. -/
def Message.orderTagsDistinct (m : Message) : Bool :=
  decide ((m.Order.map (tagOf m.Fields)).Nodup)

/-- No enum of the schema is named string or bytes and no message of the schema
is named fixed32, sfixed32 or float. -/
def noScalarClash (p : Protobuf) : Bool :=
  !p.hasEnum "string" && !p.hasEnum "bytes" && !p.hasMessage "fixed32"
    && !p.hasMessage "sfixed32" && !p.hasMessage "float"

/-- No field of the message is of type fixed32, sfixed32 or float. -/
def Message.noFixed32 (m : Message) : Bool :=
  m.Fields.all (fun kf => decide (kf.2.Typ.Name ≠ "fixed32")
    && decide (kf.2.Typ.Name ≠ "sfixed32") && decide (kf.2.Typ.Name ≠ "float"))

/-- A message with the tags 2 and 2^29 + 1, `Wide { int32 a = 2; int32 b = 536870913; }`. -/
def wideDecl : Message :=
  .mk "Wide" [("a", declField "a" 2 "int32" false),
    ("b", declField "b" (2 ^ 29 + 1) "int32" false)] [] [] ["a", "b"]

/-- A schema with the message `Wide`. -/
def wideProto : Protobuf where
  Syntax := "proto3"
  Dependency := []
  Enums := []
  Messages := [("Wide", some wideDecl)]
  Services := []

/-- A message with a string field, `Text { string s = 2; }`, in a schema
that has an enum named string. -/
def textDecl : Message :=
  .mk "Text" [("s", declField "s" 2 "string" false)] [] [] ["s"]

/-- A schema with the message `Text` and an enum named string. -/
def clashProto : Protobuf where
  Syntax := "proto3"
  Dependency := []
  Enums := [("string", ⟨"string", [("A", ⟨"A", 0⟩)]⟩)]
  Messages := [("Text", some textDecl)]
  Services := []

/-- Every field of the message that reads the record key `key` is of a
google.protobuf type. -/
def Message.keyIsGoogle (m : Message) (key : String) : Bool :=
  m.Fields.all (fun kf => kf.2.Name != key || hasPrefix kf.2.Typ.Name "google.protobuf.")

/-- The record without the entries of a key. -/
def dropKey (key : String) (data : List (String × Value)) : List (String × Value) :=
  data.filter (fun kv => kv.1 != key)

/-- The type names `Field.init` accepts for a schema: a builtin scalar, an
enum or a message of the schema, or a name that starts with google.protobuf. -/
def knownType (root : Protobuf) (t : String) : Prop :=
  t = "int32" ∨ t = "int64" ∨ t = "uint32" ∨ t = "uint64" ∨ t = "sint32" ∨ t = "sint64"
    ∨ t = "bool" ∨ t = "fixed32" ∨ t = "sfixed32" ∨ t = "fixed64" ∨ t = "sfixed64"
    ∨ t = "float" ∨ t = "double" ∨ t = "string" ∨ t = "bytes"
    ∨ root.hasEnum t = true ∨ root.hasMessage t = true
    ∨ hasPrefix t "google.protobuf." = true

/-- The value a base-128 reader gives a sequence of groups: the sum over i of
`(b_i mod 128) * 128^i`. -/
def varintValue : List Nat → Nat
  | [] => 0
  | b :: rest => b % 128 + 128 * varintValue rest

/-- The formula `(z >> 1) ^ -(z & 1)` that undoes the zigzag mapping, in
unsigned 64-bit arithmetic. -/
def unzigzag64 (z : Nat) : Nat :=
  (z >>> 1) ^^^ ((2 ^ 64 - (z &&& 1)) % 2 ^ 64)

/-- The formula `(z >> 1) ^ -(z & 1)` in unsigned 32-bit arithmetic. -/
def unzigzag32 (z : Nat) : Nat :=
  (z >>> 1) ^^^ ((2 ^ 32 - (z &&& 1)) % 2 ^ 32)

/-- The little-endian value of a byte sequence: the sum over i of `b_i * 256^i`. -/
def leValue : List Nat → Nat
  | [] => 0
  | b :: rest => b + 256 * leValue rest

/-- The type names of the first branch of `Field.init`: the integer types,
bool, and the enums of the schema. -/
def isVarintType (root : Protobuf) (t : String) : Prop :=
  t = "int32" ∨ t = "int64" ∨ t = "uint32" ∨ t = "uint64" ∨ t = "sint32" ∨ t = "sint64"
    ∨ t = "bool" ∨ root.hasEnum t = true

/-- The type names of the second branch of `Field.init`. -/
def isFixed64Type (t : String) : Prop :=
  t = "fixed64" ∨ t = "sfixed64" ∨ t = "double"

/-- The type names of the third branch of `Field.init`: string, bytes, and the
messages of the schema. -/
def isBytesType (root : Protobuf) (t : String) : Prop :=
  t = "string" ∨ t = "bytes" ∨ root.hasMessage t = true

/-- The type names of the fourth branch of `Field.init`. -/
def isFixed32Type (t : String) : Prop :=
  t = "fixed32" ∨ t = "sfixed32" ∨ t = "float"

/-- A schema with an enum named double and no message. -/
def doubleEnumProto : Protobuf where
  Syntax := "proto3"
  Dependency := []
  Enums := [("double", ⟨"double", [("A", ⟨"A", 0⟩)]⟩)]
  Messages := []
  Services := []

/-- A message with a double field, `Reading { double d = 1; }`. -/
def doubleDecl : Message :=
  .mk "Reading" [("d", declField "d" 1 "double" false)] [] [] ["d"]

/-- A schema with one message, `Fixed { fixed32 x = 1; sfixed32 y = 2; }`. -/
def fixedProto : Protobuf where
  Syntax := "proto3"
  Dependency := []
  Enums := []
  Messages := [("Fixed", some (.mk "Fixed" [
      ("x", declField "x" 1 "fixed32" false),
      ("y", declField "y" 2 "sfixed32" false)] [] [] ["x", "y"]))]
  Services := []

/-- A fresh instance on which `Parse` of `fixedProto` has succeeded. -/
def fixedProtocol : ProtobufProtocol :=
  (NewProtobufProtocol.Parse (ParseReader fixedProto ["Fixed"])).1

/-- A field of `Fixed` as `Parse` compiled it. -/
def fixedField (name : String) : Option Field :=
  match fixedProtocol.parser with
  | none => none
  | some pb =>
    match pb.Messages.lookup "Fixed" with
    | some (some m) => m.Fields.lookup name
    | _ => none

/-- Sign extension of a 32-bit pattern to 64 bits: the upper 32 bits are set
when bit 31 is. -/
def signExtend32 (u : Nat) : Nat :=
  if u < 2 ^ 31 then u else u + (2 ^ 64 - 2 ^ 32)

/-- The payload of a packed int32 field in the words of its description: each
element is truncated to its low 32 bits (`x mod 2^32`), the 32-bit pattern is
sign-extended to 64 bits, and the varints follow one another in list order. -/
def packedInt32 (s : List Int) : List Nat :=
  (s.map (fun x => Buffer.EncodeVarint [] (signExtend32 (x % 2 ^ 32).toNat))).flatten

/-- The record value [1, 300, -1, 2^31, 2^32 + 5]: the last two elements do not
fit an int32. -/
def wideNumsValue : Value :=
  .list [.int .int 1, .int .int 300, .int .int (-1), .int .int 2147483648,
    .int .int 4294967301]

mutual
/-- The names of the messages nested in a message, at any depth, in the order
in which `Message.init` assigns them to `p.Messages`. -/
def Message.nestedNames : Message → List String
  | .mk _ _ nested _ _ => Message.nestedNamesList nested
/-- The names of the messages of a list and of the messages nested in them. -/
def Message.nestedNamesList : List Message → List String
  | [] => []
  | nm :: rest => nm.Name :: (nm.nestedNames ++ Message.nestedNamesList rest)
end

/-- The nested message of `dupOuter`, `Pet { string nick = 1; }`. -/
def dupNestedPet : Message :=
  .mk "Pet" [("nick", declField "nick" 1 "string" false)] [] [] ["nick"]

/-- A message with a nested message named Pet and a nested enum named Color,
`Outer { message Pet { string nick = 1; } enum Color { BLUE = 0; } }`. -/
def dupOuter : Message :=
  .mk "Outer" [] [dupNestedPet] [⟨"Color", [("BLUE", ⟨"BLUE", 0⟩)]⟩] []

/-- A schema that holds `Outer`, and already a message `Pet { int32 id = 1; }`
and an enum `Color { RED = 0; }` under the names of the nested ones. -/
def dupProto : Protobuf where
  Syntax := "proto3"
  Dependency := []
  Enums := [("Color", ⟨"Color", [("RED", ⟨"RED", 0⟩)]⟩)]
  Messages := [("Outer", some dupOuter),
    ("Pet", some (.mk "Pet" [("id", declField "id" 1 "int32" false)] [] [] ["id"]))]
  Services := []

/-- The names of the fields of the message under a key of `p.Messages`. -/
def fieldNamesAt (p : Protobuf) (key : String) : Option (List String) :=
  match p.Messages.lookup key with
  | some (some m) => some (m.Fields.map (fun kf => kf.1))
  | _ => none

/-- The names of the values of the enum under a key of `p.Enums`. -/
def valueNamesAt (p : Protobuf) (key : String) : Option (List String) :=
  (p.Enums.lookup key).map (fun e => e.Values.map (fun kv => kv.1))

/-- The field `repeated uint32 ids = 1` as `Field.init` compiles it. -/
def idsField : Field :=
  ((declField "ids" 1 "uint32" true).init testProto).1

/-! ## Theorems -/

/-- C1. On a fresh instance with the test schema, Marshal("Pet", {type: 1,
name: "xiaoqiang"}) succeeds and returns the 13 bytes 08 01 12 09 "xiaoqiang",
whatever the text conversions and whatever the pool picks. -/
theorem marshal_pet_bytes (L : Strconv) (pick : Option Nat) :
    (testProtocol.Marshal L pick "Pet" petRecord).2
      = .ok [0x08, 0x01, 0x12, 0x09, 120, 105, 97, 111, 113, 105, 97, 110, 103]
    ∧ utf8 "xiaoqiang" = [120, 105, 97, 111, 113, 105, 97, 110, 103] := by
  cases pick with
  | none => exact ⟨rfl, rfl⟩
  | some i => exact ⟨rfl, rfl⟩

/-- C2. The buffer taken from the pool is never reset: when the pool hands back
the buffer of an earlier call, Marshal returns the earlier bytes followed by
the new ones, 26 bytes where a fresh instance returns 13. -/
theorem marshal_reused_buffer_keeps_old_bytes :
    (testProtocol.Marshal Strconv.decimal none "Pet" petRecord).2 = .ok petBytes
    ∧ ((testProtocol.Marshal Strconv.decimal none "Pet" petRecord).1.Marshal
          Strconv.decimal (some 0) "Pet" petRecord).2 = .ok (petBytes ++ petBytes) := by
  decide

/-- C3. The error of a field encoder is dropped: a text that is no number in
an int32 field, and a value no string can be made of in a string field, both
leave Marshal returning a nil error, in the second case with the bytes of the
field encoded before. -/
theorem marshal_drops_coercion_errors :
    cast.ToIntE Strconv.decimal (.str (utf8 "abc")) = none
    ∧ (testProtocol.Marshal Strconv.decimal none "Integer" [("value", .str (utf8 "abc"))]).2
        = .ok []
    ∧ cast.ToStringE Strconv.decimal .other = none
    ∧ (testProtocol.Marshal Strconv.decimal none "Pet"
        [("type", .int .int 1), ("name", .other)]).2 = .ok [0x08, 0x01] := by
  decide

/-- C6. A repeated field gets no encoder from `Field.init` (its `enc` stays
nil), so Marshal writes nothing for [1, 300, -1] in a repeated int32 field and
nothing for ["a", "bb"] in a repeated string field; enc_slice_int32 and
enc_slice_string, called on the same compiled fields, write the bytes the claim
describes. -/
theorem marshal_skips_repeated_fields :
    (listsProtocol.Marshal Strconv.decimal none "Lists" [("nums", numsValue)]).2 = .ok []
    ∧ (listsProtocol.Marshal Strconv.decimal none "Lists" [("strs", strsValue)]).2 = .ok []
    ∧ (listsField "nums").map
        (fun f => (f.enc, Buffer.enc_slice_int32 Strconv.decimal [] f numsValue))
      = some (none, ([0x0A, 13, 0x01, 0xAC, 0x02, 0xFF, 0xFF, 0xFF, 0xFF, 0xFF, 0xFF, 0xFF,
                0xFF, 0xFF, 0x01], .ok ()))
    ∧ (listsField "strs").map
        (fun f => (f.enc, Buffer.enc_slice_string Strconv.decimal [] f strsValue))
      = some (none, ([0x12, 1, 97, 0x12, 2, 98, 98], .ok ())) := by
  decide

/-- C7, the claim refuted: a record that supplies a value for the
google.protobuf.Duration field of Person marshals without error, to no bytes. -/
theorem marshal_google_field_succeeds :
    (testProtocol.Marshal Strconv.decimal none "Person"
      [("online_time", .str (utf8 "5s"))]).2 = .ok []
    ∧ (testProtocol.Marshal Strconv.decimal none "Person"
      [("name", .str (utf8 "a")), ("online_time", .str (utf8 "5s"))]).2
        = .ok [0x0A, 0x01, 97] := by
  decide

/-- C9. Compiling the schema `Outer { enum E; message Inner { E e = 1; } }`
fails with errInvalidField: `Message.init` compiles the nested message Inner
before it hoists the nested enum E, so the field of Inner finds no type E. -/
theorem init_nested_enum_fails :
    (nestedProto.init ["Outer"]).2 = .err .errInvalidField
    ∧ ParseReader nestedProto ["Outer"] = .err .errInvalidField :=
  ⟨by decide, rfl⟩

/-! ### The loop of Marshal returns nil, errInvalidField, or panics -/

theorem marshalLoop_ret (L : Strconv) (fields : List (String × Field))
    (data : List (String × Value)) (order : List String) (buf : Buffer) :
    (marshalLoop L fields data order buf).2 = .ok ()
    ∨ (marshalLoop L fields data order buf).2 = .err .errInvalidField
    ∨ (marshalLoop L fields data order buf).2 = .panic := by
  induction order generalizing buf with
  | nil => simp [marshalLoop]
  | cons fn rest ih =>
    unfold marshalLoop
    split
    · simp
    · split
      · exact ih _
      · exact ih _
      · split
        · exact ih _
        · split
          · simp
          · exact ih _

/-- C8. A new instance has no schema and a failed Parse installs none.  Marshal
on an instance without a schema returns errInvalidParser; with a schema, a name
that is missing or maps to nil gives MessageNotExistsError with that name, and
Marshal returns that error in no other case; both times the instance, its pool
included, is left as it was and no bytes are returned. -/
theorem marshal_lookup_failures (L : Strconv) (p : ProtobufProtocol) (pick : Option Nat)
    (name : String) (data : List (String × Value)) :
    NewProtobufProtocol.parser = none
    ∧ (∀ e, (p.Parse (.err e)).1 = p)
    ∧ (p.parser = none → p.Marshal L pick name data = (p, .err .errInvalidParser))
    ∧ (∀ pb, p.parser = some pb →
        ((pb.Messages.lookup name = none ∨ pb.Messages.lookup name = some none) →
            p.Marshal L pick name data = (p, .err (.MessageNotExistsError name)))
        ∧ (∀ n, (p.Marshal L pick name data).2 = .err (.MessageNotExistsError n) →
            n = name ∧
            (pb.Messages.lookup name = none ∨ pb.Messages.lookup name = some none))) := by
  refine ⟨rfl, fun _ => rfl, ?_, ?_⟩
  · intro h
    simp only [ProtobufProtocol.Marshal, h]
  · intro pb h
    refine ⟨?_, ?_⟩
    · rintro (h1 | h1) <;> simp only [ProtobufProtocol.Marshal, h, h1]
    · intro n hn
      unfold ProtobufProtocol.Marshal at hn
      rw [h] at hn
      simp only at hn
      split at hn
      · rename_i h1
        simp only [Ret.err.injEq, Error.MessageNotExistsError.injEq] at hn
        exact ⟨hn.symm, Or.inl h1⟩
      · rename_i h1
        simp only [Ret.err.injEq, Error.MessageNotExistsError.injEq] at hn
        exact ⟨hn.symm, Or.inr h1⟩
      · rename_i m hm
        exfalso
        have := marshalLoop_ret L m.Fields data m.Order (poolGet p.bufPool pick).1
        simp only [Message.Marshal] at hn
        rcases this with h1 | h1 | h1 <;> rw [h1] at hn <;> simp at hn

/-! ### What `Field.init` decides from the type name -/

theorem encStep_ne_none (f : Field) (root : Protobuf) (w : Nat)
    (h : knownType root f.Typ.Name) : f.encStep root w ≠ none := by
  unfold knownType at h
  unfold Field.encStep
  dsimp only
  generalize f.Typ.Name = t at *
  by_cases h0 : (!f.Repeated) = true
  swap
  · rw [if_neg h0]; exact Option.some_ne_none _
  rw [if_pos h0]
  by_cases h1 : t = "bool"
  · rw [if_pos h1]; exact Option.some_ne_none _
  rw [if_neg h1]
  by_cases h2 : t = "int32" ∨ t = "sint32" ∨ t = "sfixed32"
  · rw [if_pos h2]; exact Option.some_ne_none _
  rw [if_neg h2]
  by_cases h3 : t = "uint32" ∨ t = "fixed32"
  · rw [if_pos h3]; exact Option.some_ne_none _
  rw [if_neg h3]
  by_cases h4 : t = "int64" ∨ t = "sint64" ∨ t = "sfixed64"
  · rw [if_pos h4]; exact Option.some_ne_none _
  rw [if_neg h4]
  by_cases h5 : t = "uint64" ∨ t = "fixed64"
  · rw [if_pos h5]; exact Option.some_ne_none _
  rw [if_neg h5]
  by_cases h6 : t = "float"
  · rw [if_pos h6]; exact Option.some_ne_none _
  rw [if_neg h6]
  by_cases h7 : t = "double"
  · rw [if_pos h7]; exact Option.some_ne_none _
  rw [if_neg h7]
  by_cases h8 : t = "string" ∨ t = "bytes"
  · rw [if_pos h8]; exact Option.some_ne_none _
  rw [if_neg h8]
  by_cases h9 : hasPrefix t "google.protobuf." = true
  · rw [if_pos h9]; exact Option.some_ne_none _
  rw [if_neg h9]
  by_cases h10 : root.hasEnum t = true
  · rw [if_pos h10]; exact Option.some_ne_none _
  rw [if_neg h10]
  by_cases h11 : root.hasMessage t = true
  · rw [if_pos h11]; exact Option.some_ne_none _
  exfalso
  tauto

theorem wireStep_eq_none_iff (f : Field) (root : Protobuf) :
    f.wireStep root = none ↔ ¬ knownType root f.Typ.Name := by
  unfold Field.wireStep knownType
  dsimp only
  generalize f.Typ.Name = t at *
  split_ifs <;> simp only [reduceCtorEq, false_iff, true_iff] <;> tauto

theorem wireStep_typ (f f1 : Field) (root : Protobuf) (w : Nat)
    (h : f.wireStep root = some (w, f1)) :
    f1.Typ = f.Typ ∧ f1.Repeated = f.Repeated ∧ f1.Tag = f.Tag ∧ f1.Name = f.Name
      ∧ f1.enc = f.enc ∧ f1.tagcode = f.tagcode := by
  unfold Field.wireStep at h
  simp only [] at h
  split_ifs at h <;>
    simp only [Option.some.injEq, Prod.mk.injEq, reduceCtorEq] at h <;>
    obtain ⟨_, rfl⟩ := h <;> simp

theorem field_init_err (f : Field) (root : Protobuf) (e : Error)
    (he : (f.init root).2 = .err e) :
    e = .errInvalidField ∧ ¬ knownType root f.Typ.Name := by
  unfold Field.init at he
  split at he
  · rename_i hw
    simp only [Ret.err.injEq] at he
    exact ⟨he.symm, (wireStep_eq_none_iff f root).1 hw⟩
  · rename_i w f1 hw
    exfalso
    have hk : knownType root f1.Typ.Name := by
      rw [(wireStep_typ f f1 root w hw).1]
      by_contra hc
      rw [(wireStep_eq_none_iff f root).2 hc] at hw
      exact Option.noConfusion hw
    split at he
    · rename_i he2
      exact encStep_ne_none f1 root w hk he2
    · split at he <;> simp at he

/-- C10. `Field.init` returns errInvalidField exactly when the type name is no
builtin scalar name, no key of Enums, no key of Messages and does not start
with google.protobuf.; whether the field is repeated plays no part, and
`Field.init` returns no other error. -/
theorem field_init_fails_iff (f : Field) (root : Protobuf) :
    ((f.init root).2 = .err .errInvalidField ↔
      ¬ (f.Typ.Name = "int32" ∨ f.Typ.Name = "int64" ∨ f.Typ.Name = "uint32"
        ∨ f.Typ.Name = "uint64" ∨ f.Typ.Name = "sint32" ∨ f.Typ.Name = "sint64"
        ∨ f.Typ.Name = "bool" ∨ f.Typ.Name = "fixed32" ∨ f.Typ.Name = "sfixed32"
        ∨ f.Typ.Name = "fixed64" ∨ f.Typ.Name = "sfixed64" ∨ f.Typ.Name = "float"
        ∨ f.Typ.Name = "double" ∨ f.Typ.Name = "string" ∨ f.Typ.Name = "bytes"
        ∨ (root.Enums.lookup f.Typ.Name).isSome = true
        ∨ (root.Messages.lookup f.Typ.Name).isSome = true
        ∨ hasPrefix f.Typ.Name "google.protobuf." = true))
    ∧ ∀ e, (f.init root).2 = .err e → e = .errInvalidField := by
  refine ⟨⟨fun h => (field_init_err f root _ h).2, fun h => ?_⟩,
    fun e he => (field_init_err f root e he).1⟩
  have h' : ¬ knownType root f.Typ.Name := h
  unfold Field.init
  rw [(wireStep_eq_none_iff f root).2 h']

theorem encStep_cases (f : Field) (root : Protobuf) (w w' : Nat) (f' : Field)
    (h : f.encStep root w = some (w', f')) :
    f'.Typ = f.Typ ∧ f'.Repeated = f.Repeated ∧ f'.Tag = f.Tag ∧ f'.Name = f.Name
    ∧ f'.valEnc = f.valEnc ∧ f'.tagcode = f.tagcode
    ∧ ((f.Repeated = true ∧ w' = WireBytes ∧ f'.enc = f.enc)
      ∨ (f.Repeated = false ∧ w' = w ∧
        ((f.Typ.Name = "bool" ∧ f'.enc = some .enc_bool)
        ∨ ((f.Typ.Name = "int32" ∨ f.Typ.Name = "sint32" ∨ f.Typ.Name = "sfixed32")
            ∧ f'.enc = some .enc_int32)
        ∨ ((f.Typ.Name = "uint32" ∨ f.Typ.Name = "fixed32") ∧ f'.enc = some .enc_uint32)
        ∨ ((f.Typ.Name = "int64" ∨ f.Typ.Name = "sint64" ∨ f.Typ.Name = "sfixed64"
            ∨ f.Typ.Name = "uint64" ∨ f.Typ.Name = "fixed64") ∧ f'.enc = some .enc_int64)
        ∨ (f.Typ.Name = "float" ∧ f'.enc = some .enc_float32)
        ∨ (f.Typ.Name = "double" ∧ f'.enc = some .enc_float64)
        ∨ ((f.Typ.Name = "string" ∨ f.Typ.Name = "bytes") ∧ f'.enc = some .enc_string)
        ∨ (¬ scalarName f.Typ.Name ∧ hasPrefix f.Typ.Name "google.protobuf." = true
            ∧ f'.enc = f.enc)
        ∨ (¬ scalarName f.Typ.Name ∧ hasPrefix f.Typ.Name "google.protobuf." = false
            ∧ root.hasEnum f.Typ.Name = true ∧ f'.enc = some .enc_int32)
        ∨ (¬ scalarName f.Typ.Name ∧ hasPrefix f.Typ.Name "google.protobuf." = false
            ∧ root.hasEnum f.Typ.Name = false ∧ root.hasMessage f.Typ.Name = true
            ∧ f'.enc = f.enc)))) := by
  unfold Field.encStep at h
  dsimp only at h
  unfold scalarName
  generalize f.Typ.Name = t at *
  by_cases h0 : f.Repeated = true
  · rw [if_neg (by simp [h0])] at h
    simp only [Option.some.injEq, Prod.mk.injEq] at h
    obtain ⟨rfl, rfl⟩ := h
    exact ⟨rfl, rfl, rfl, rfl, rfl, rfl, Or.inl ⟨h0, rfl, rfl⟩⟩
  rw [if_pos (by simp [h0])] at h
  have h0' : f.Repeated = false := by simpa using h0
  by_cases h1 : t = "bool"
  · rw [if_pos h1] at h
    simp only [Option.some.injEq, Prod.mk.injEq] at h
    obtain ⟨rfl, rfl⟩ := h
    exact ⟨rfl, rfl, rfl, rfl, rfl, rfl, Or.inr ⟨h0', rfl, Or.inl ⟨h1, rfl⟩⟩⟩
  rw [if_neg h1] at h
  by_cases h2 : t = "int32" ∨ t = "sint32" ∨ t = "sfixed32"
  · rw [if_pos h2] at h
    simp only [Option.some.injEq, Prod.mk.injEq] at h
    obtain ⟨rfl, rfl⟩ := h
    refine ⟨rfl, rfl, rfl, rfl, rfl, rfl, Or.inr ⟨h0', rfl, ?_⟩⟩
    right; left; exact ⟨h2, rfl⟩
  rw [if_neg h2] at h
  by_cases h3 : t = "uint32" ∨ t = "fixed32"
  · rw [if_pos h3] at h
    simp only [Option.some.injEq, Prod.mk.injEq] at h
    obtain ⟨rfl, rfl⟩ := h
    refine ⟨rfl, rfl, rfl, rfl, rfl, rfl, Or.inr ⟨h0', rfl, ?_⟩⟩
    right; right; left; exact ⟨h3, rfl⟩
  rw [if_neg h3] at h
  by_cases h4 : t = "int64" ∨ t = "sint64" ∨ t = "sfixed64"
  · rw [if_pos h4] at h
    simp only [Option.some.injEq, Prod.mk.injEq] at h
    obtain ⟨rfl, rfl⟩ := h
    refine ⟨rfl, rfl, rfl, rfl, rfl, rfl, Or.inr ⟨h0', rfl, ?_⟩⟩
    right; right; right; left; exact ⟨by tauto, rfl⟩
  rw [if_neg h4] at h
  by_cases h5 : t = "uint64" ∨ t = "fixed64"
  · rw [if_pos h5] at h
    simp only [Option.some.injEq, Prod.mk.injEq] at h
    obtain ⟨rfl, rfl⟩ := h
    refine ⟨rfl, rfl, rfl, rfl, rfl, rfl, Or.inr ⟨h0', rfl, ?_⟩⟩
    right; right; right; left; exact ⟨by tauto, rfl⟩
  rw [if_neg h5] at h
  by_cases h6 : t = "float"
  · rw [if_pos h6] at h
    simp only [Option.some.injEq, Prod.mk.injEq] at h
    obtain ⟨rfl, rfl⟩ := h
    refine ⟨rfl, rfl, rfl, rfl, rfl, rfl, Or.inr ⟨h0', rfl, ?_⟩⟩
    right; right; right; right; left; exact ⟨h6, rfl⟩
  rw [if_neg h6] at h
  by_cases h7 : t = "double"
  · rw [if_pos h7] at h
    simp only [Option.some.injEq, Prod.mk.injEq] at h
    obtain ⟨rfl, rfl⟩ := h
    refine ⟨rfl, rfl, rfl, rfl, rfl, rfl, Or.inr ⟨h0', rfl, ?_⟩⟩
    right; right; right; right; right; left; exact ⟨h7, rfl⟩
  rw [if_neg h7] at h
  by_cases h8 : t = "string" ∨ t = "bytes"
  · rw [if_pos h8] at h
    simp only [Option.some.injEq, Prod.mk.injEq] at h
    obtain ⟨rfl, rfl⟩ := h
    refine ⟨rfl, rfl, rfl, rfl, rfl, rfl, Or.inr ⟨h0', rfl, ?_⟩⟩
    right; right; right; right; right; right; left; exact ⟨h8, rfl⟩
  rw [if_neg h8] at h
  have hns : ¬ (t = "int32" ∨ t = "int64" ∨ t = "uint32" ∨ t = "uint64" ∨ t = "sint32"
    ∨ t = "sint64" ∨ t = "bool" ∨ t = "fixed32" ∨ t = "sfixed32" ∨ t = "fixed64"
    ∨ t = "sfixed64" ∨ t = "float" ∨ t = "double" ∨ t = "string" ∨ t = "bytes") := by
    tauto
  by_cases h9 : hasPrefix t "google.protobuf." = true
  · rw [if_pos h9] at h
    simp only [Option.some.injEq, Prod.mk.injEq] at h
    obtain ⟨rfl, rfl⟩ := h
    refine ⟨rfl, rfl, rfl, rfl, rfl, rfl, Or.inr ⟨h0', rfl, ?_⟩⟩
    right; right; right; right; right; right; right; left
    exact ⟨hns, h9, rfl⟩
  rw [if_neg h9] at h
  have h9' : hasPrefix t "google.protobuf." = false := by simpa using h9
  by_cases h10 : root.hasEnum t = true
  · rw [if_pos h10] at h
    simp only [Option.some.injEq, Prod.mk.injEq] at h
    obtain ⟨rfl, rfl⟩ := h
    refine ⟨rfl, rfl, rfl, rfl, rfl, rfl, Or.inr ⟨h0', rfl, ?_⟩⟩
    right; right; right; right; right; right; right; right; left
    exact ⟨hns, h9', h10, rfl⟩
  rw [if_neg h10] at h
  have h10' : root.hasEnum t = false := by simpa using h10
  by_cases h11 : root.hasMessage t = true
  · rw [if_pos h11] at h
    simp only [Option.some.injEq, Prod.mk.injEq] at h
    obtain ⟨rfl, rfl⟩ := h
    refine ⟨rfl, rfl, rfl, rfl, rfl, rfl, Or.inr ⟨h0', rfl, ?_⟩⟩
    right; right; right; right; right; right; right; right; right
    exact ⟨hns, h9', h10', h11, rfl⟩
  rw [if_neg h11] at h
  exact Option.noConfusion h


/-! ### Compiled fields and compiled messages -/

theorem tagStep_fields (f f' : Field) (w : Nat) (h : f.tagStep w = some f') :
    f'.Typ = f.Typ ∧ f'.Repeated = f.Repeated ∧ f'.Tag = f.Tag ∧ f'.Name = f.Name
      ∧ f'.enc = f.enc ∧ f'.valEnc = f.valEnc := by
  unfold Field.tagStep at h
  dsimp only at h
  split at h
  · exact Option.noConfusion h
  · split at h
    · simp only [Option.some.injEq] at h
      subst h
      exact ⟨rfl, rfl, rfl, rfl, rfl, rfl⟩
    · exact Option.noConfusion h

/-- The three steps of a successful `Field.init`. -/
theorem field_init_ok (f0 f : Field) (root : Protobuf) (h : f0.init root = (f, .ok ())) :
    ∃ w0 f1 w f2, f0.wireStep root = some (w0, f1) ∧ f1.encStep root w0 = some (w, f2)
      ∧ f2.tagStep w = some f := by
  unfold Field.init at h
  split at h
  · simp at h
  · rename_i w0 f1 hw
    split at h
    · simp at h
    · rename_i w f2 he
      split at h
      · simp at h
      · rename_i f3 ht
        simp only [Prod.mk.injEq, and_true] at h
        subst h
        exact ⟨w0, f1, w, f2, hw, he, ht⟩

theorem initFields_lookup (root : Protobuf) (fs fs' : List (String × Field))
    (h : initFields root fs = (fs', .ok ())) (fn : String) (f : Field)
    (hl : fs'.lookup fn = some f) :
    ∃ f0, fs.lookup fn = some f0 ∧ f0.init root = (f, .ok ()) := by
  induction fs generalizing fs' with
  | nil =>
    simp only [initFields, Prod.mk.injEq, and_true] at h
    subst h
    simp at hl
  | cons kf rest ih =>
    obtain ⟨k, f0⟩ := kf
    unfold initFields at h
    split at h
    · rename_i f1 u hf
      simp only [Prod.mk.injEq] at h
      obtain ⟨h1, h2⟩ := h
      subst h1
      have hu : u = () := rfl
      subst hu
      by_cases hk : fn = k
      · subst hk
        simp only [List.lookup_cons, beq_self_eq_true] at hl ⊢
        simp only [Option.some.injEq] at hl
        subst hl
        exact ⟨f0, rfl, hf⟩
      · have hk' : (fn == k) = false := by simpa using hk
        simp only [List.lookup_cons, hk'] at hl ⊢
        exact ih (initFields root rest).1 (by rw [← h2]) hl
    · rename_i f1 e hne hf
      simp only [Prod.mk.injEq] at h
      obtain ⟨_, h2⟩ := h
      exact absurd h2 (hne ())

theorem message_init_ok (p : Protobuf) (m0 : Message) (h : (Message.init p m0).ret = .ok ()) :
    initFields (Message.init p m0).p m0.Fields = ((Message.init p m0).m.Fields, .ok ())
      ∧ sortOrder (Message.init p m0).m.Fields m0.Order = some (Message.init p m0).m.Order := by
  obtain ⟨name, fields, nested, enums, order⟩ := m0
  generalize hr : Message.init p (.mk name fields nested enums order) = r at h ⊢
  unfold Message.init at hr
  dsimp only at hr
  split at hr
  · split at hr
    · rename_i fs' u hfs
      have hu : u = () := rfl
      subst hu
      split at hr
      · rename_i order' hso
        subst hr
        exact ⟨hfs, hso⟩
      · subst hr
        simp at h
    · rename_i fs' e hne hfs
      subst hr
      exact absurd h (hne ())
  · rename_i e hne
    subst hr
    exact absurd h (hne ())

/-- What a successful `Field.init` leaves of a field the parser produced. -/
theorem field_init_ok_enc (f0 f : Field) (root : Protobuf) (h : f0.init root = (f, .ok ()))
    (hfresh : f0.enc = none) :
    f.Typ = f0.Typ ∧ f.Repeated = f0.Repeated ∧ f.Tag = f0.Tag ∧ f.Name = f0.Name
    ∧ ((f.Repeated = true ∧ f.enc = none)
      ∨ (f.Repeated = false ∧
        ((f.Typ.Name = "bool" ∧ f.enc = some .enc_bool)
        ∨ ((f.Typ.Name = "int32" ∨ f.Typ.Name = "sint32" ∨ f.Typ.Name = "sfixed32")
            ∧ f.enc = some .enc_int32)
        ∨ ((f.Typ.Name = "uint32" ∨ f.Typ.Name = "fixed32") ∧ f.enc = some .enc_uint32)
        ∨ ((f.Typ.Name = "int64" ∨ f.Typ.Name = "sint64" ∨ f.Typ.Name = "sfixed64"
            ∨ f.Typ.Name = "uint64" ∨ f.Typ.Name = "fixed64") ∧ f.enc = some .enc_int64)
        ∨ (f.Typ.Name = "float" ∧ f.enc = some .enc_float32)
        ∨ (f.Typ.Name = "double" ∧ f.enc = some .enc_float64)
        ∨ ((f.Typ.Name = "string" ∨ f.Typ.Name = "bytes") ∧ f.enc = some .enc_string)
        ∨ (¬ scalarName f.Typ.Name ∧ hasPrefix f.Typ.Name "google.protobuf." = true
            ∧ f.enc = none)
        ∨ (¬ scalarName f.Typ.Name ∧ hasPrefix f.Typ.Name "google.protobuf." = false
            ∧ root.hasEnum f.Typ.Name = true ∧ f.enc = some .enc_int32)
        ∨ (¬ scalarName f.Typ.Name ∧ hasPrefix f.Typ.Name "google.protobuf." = false
            ∧ root.hasEnum f.Typ.Name = false ∧ root.hasMessage f.Typ.Name = true
            ∧ f.enc = none)))) := by
  obtain ⟨w0, f1, w, f2, hw, he, ht⟩ := field_init_ok f0 f root h
  obtain ⟨a1, a2, a3, a4, a5, _⟩ := wireStep_typ f0 f1 root w0 hw
  obtain ⟨b1, b2, b3, b4, _, _, hc⟩ := encStep_cases f1 root w0 w f2 he
  obtain ⟨c1, c2, c3, c4, c5, _⟩ := tagStep_fields f2 f w ht
  have e1 : f.Typ = f1.Typ := by rw [c1, b1]
  have e2 : f.Repeated = f1.Repeated := by rw [c2, b2]
  have e3 : f1.enc = none := by rw [a5, hfresh]
  refine ⟨by rw [e1, a1], by rw [e2, a2], by rw [c3, b3, a3], by rw [c4, b4, a4], ?_⟩
  rw [e1, e2, c5]
  rw [e3] at hc
  rcases hc with ⟨h1, _, h3⟩ | ⟨h1, _, h3⟩
  · exact Or.inl ⟨h1, h3⟩
  · exact Or.inr ⟨h1, h3⟩

theorem hasPrefix_google_not_scalar (t : String)
    (h : hasPrefix t "google.protobuf." = true) : ¬ scalarName t := by
  unfold scalarName
  intro hs
  rcases hs with h1 | h1 | h1 | h1 | h1 | h1 | h1 | h1 | h1 | h1 | h1 | h1 | h1 | h1 | h1 <;>
    (subst h1; revert h; decide)

/-- A compiled field of a google.protobuf type has no encoder. -/
theorem field_init_google_enc (f0 f : Field) (root : Protobuf)
    (h : f0.init root = (f, .ok ())) (hfresh : f0.enc = none)
    (hg : hasPrefix f0.Typ.Name "google.protobuf." = true) : f.enc = none := by
  obtain ⟨e1, _, _, _, hc⟩ := field_init_ok_enc f0 f root h hfresh
  rw [← e1] at hg
  have hns := hasPrefix_google_not_scalar _ hg
  unfold scalarName at hns
  rcases hc with ⟨_, h2⟩ | ⟨_, hc⟩
  · exact h2
  · rcases hc with ⟨h1, _⟩ | ⟨h1, _⟩ | ⟨h1, _⟩ | ⟨h1, _⟩ | ⟨h1, _⟩ | ⟨h1, _⟩ | ⟨h1, _⟩
      | ⟨_, _, h2⟩ | ⟨_, h1, _⟩ | ⟨_, h1, _⟩
    · exact absurd h1 (by tauto)
    · exact absurd h1 (by tauto)
    · exact absurd h1 (by tauto)
    · exact absurd h1 (by tauto)
    · exact absurd h1 (by tauto)
    · exact absurd h1 (by tauto)
    · exact absurd h1 (by tauto)
    · exact h2
    · rw [hg] at h1; exact Bool.noConfusion h1
    · rw [hg] at h1; exact Bool.noConfusion h1

theorem isZeroValue_bool (v : Value) (h : isZeroValue "bool" false v = true) :
    v = .bool false := by
  unfold isZeroValue at h
  simp only [Bool.false_eq_true, if_false, if_true] at h
  split at h
  · rfl
  · exact Bool.noConfusion h

theorem isZeroValue_text (t : String) (v : Value) (ht : t = "string" ∨ t = "bytes")
    (h : isZeroValue t false v = true) : v = .str [] ∨ v = .bytes [] := by
  unfold isZeroValue at h
  have hb : t ≠ "bool" := by rcases ht with rfl | rfl <;> decide
  simp only [Bool.false_eq_true, if_false, hb, ht, if_true] at h
  split at h
  · exact Or.inl rfl
  · exact Or.inr rfl
  · exact Bool.noConfusion h

theorem isZeroValue_float (t : String) (v : Value) (ht : t = "float" ∨ t = "double")
    (h : isZeroValue t false v = true) : v = .float64 0 ∨ v = .float32 0 := by
  unfold isZeroValue at h
  have hb : t ≠ "bool" := by rcases ht with rfl | rfl <;> decide
  have hs : ¬ (t = "string" ∨ t = "bytes") := by rcases ht with rfl | rfl <;> decide
  simp only [Bool.false_eq_true, if_false, hb, hs, ht, if_true] at h
  split at h
  · exact Or.inl rfl
  · exact Or.inr rfl
  · exact Bool.noConfusion h

theorem isZeroValue_int (t : String) (v : Value) (hb : t ≠ "bool")
    (hs : ¬ (t = "string" ∨ t = "bytes")) (hf : ¬ (t = "float" ∨ t = "double"))
    (h : isZeroValue t false v = true) : ∃ k, v = .int k 0 := by
  unfold isZeroValue at h
  simp only [Bool.false_eq_true, if_false, hb, hs, hf] at h
  split at h
  · exact ⟨_, rfl⟩
  · exact Bool.noConfusion h

theorem enc_int32_zero (L : Strconv) (buf : Buffer) (f : Field) (k : IntKind) :
    Buffer.enc_int32 L buf f (.int k 0) = (buf, .err .ErrNil) := by
  simp [Buffer.enc_int32, cast.ToIntE, toInt64]

theorem enc_uint32_zero (L : Strconv) (buf : Buffer) (f : Field) (k : IntKind) :
    Buffer.enc_uint32 L buf f (.int k 0) = (buf, .err .ErrNil) := by
  simp [Buffer.enc_uint32, cast.ToIntE, toInt64]

theorem enc_int64_zero (L : Strconv) (buf : Buffer) (f : Field) (k : IntKind) :
    Buffer.enc_int64 L buf f (.int k 0) = (buf, .err .ErrNil) := by
  simp [Buffer.enc_int64, cast.ToInt64E, toInt64]

/-- A compiled field given the zero value of its type writes nothing and
does not panic. -/
theorem zero_value_writes_nothing (L : Strconv) (root : Protobuf) (f0 f : Field)
    (h : f0.init root = (f, .ok ())) (hfresh : f0.enc = none) (v : Value)
    (hz : isZeroValue f.Typ.Name f.Repeated v = true) (buf : Buffer) (e : encoder)
    (he : f.enc = some e) : ∃ er, e.call L buf f v = (buf, .err er) := by
  obtain ⟨_, _, _, _, hc⟩ := field_init_ok_enc f0 f root h hfresh
  rcases hc with ⟨_, h2⟩ | ⟨hr, hc⟩
  · rw [h2] at he; exact Option.noConfusion he
  rw [hr] at hz
  rcases hc with ⟨h1, h2⟩ | ⟨h1, h2⟩ | ⟨h1, h2⟩ | ⟨h1, h2⟩ | ⟨h1, h2⟩ | ⟨h1, h2⟩ | ⟨h1, h2⟩
      | ⟨_, _, h2⟩ | ⟨h1, _, _, h2⟩ | ⟨_, _, _, _, h2⟩
  · rw [h2] at he; cases he
    rw [h1] at hz
    rw [isZeroValue_bool v hz]
    exact ⟨_, rfl⟩
  · rw [h2] at he; cases he
    obtain ⟨k, rfl⟩ := isZeroValue_int _ v (by rcases h1 with h | h | h <;> rw [h] <;> decide)
      (by rcases h1 with h | h | h <;> rw [h] <;> decide)
      (by rcases h1 with h | h | h <;> rw [h] <;> decide) hz
    exact ⟨_, enc_int32_zero L buf f k⟩
  · rw [h2] at he; cases he
    obtain ⟨k, rfl⟩ := isZeroValue_int _ v (by rcases h1 with h | h <;> rw [h] <;> decide)
      (by rcases h1 with h | h <;> rw [h] <;> decide)
      (by rcases h1 with h | h <;> rw [h] <;> decide) hz
    exact ⟨_, enc_uint32_zero L buf f k⟩
  · rw [h2] at he; cases he
    obtain ⟨k, rfl⟩ := isZeroValue_int _ v
      (by rcases h1 with h | h | h | h | h <;> rw [h] <;> decide)
      (by rcases h1 with h | h | h | h | h <;> rw [h] <;> decide)
      (by rcases h1 with h | h | h | h | h <;> rw [h] <;> decide) hz
    exact ⟨_, enc_int64_zero L buf f k⟩
  · rw [h2] at he; cases he
    rcases isZeroValue_float _ v (Or.inl h1) hz with rfl | rfl
    · exact ⟨_, rfl⟩
    · exact ⟨_, rfl⟩
  · rw [h2] at he; cases he
    rcases isZeroValue_float _ v (Or.inr h1) hz with rfl | rfl
    · exact ⟨_, rfl⟩
    · exact ⟨_, rfl⟩
  · rw [h2] at he; cases he
    rcases isZeroValue_text _ v h1 hz with rfl | rfl
    · exact ⟨_, rfl⟩
    · exact ⟨_, rfl⟩
  · rw [h2] at he; exact Option.noConfusion he
  · rw [h2] at he; cases he
    unfold scalarName at h1
    obtain ⟨k, rfl⟩ := isZeroValue_int _ v (by tauto) (by tauto) (by tauto) hz
    exact ⟨_, enc_int32_zero L buf f k⟩
  · rw [h2] at he; exact Option.noConfusion he

theorem mem_of_lookup {α : Type} (l : List (String × α)) (k : String) (v : α)
    (h : l.lookup k = some v) : (k, v) ∈ l := by
  induction l with
  | nil => simp at h
  | cons kv rest ih =>
    obtain ⟨k', v'⟩ := kv
    by_cases hk : k = k'
    · subst hk
      simp only [List.lookup_cons, beq_self_eq_true, Option.some.injEq] at h
      subst h
      exact List.mem_cons_self _ _
    · have hk' : (k == k') = false := by simpa using hk
      simp only [List.lookup_cons, hk'] at h
      exact List.mem_cons_of_mem _ (ih h)

theorem initFields_lookup_isSome (root : Protobuf) (fs fs' : List (String × Field))
    (h : initFields root fs = (fs', .ok ())) (fn : String) :
    (fs'.lookup fn).isSome = (fs.lookup fn).isSome := by
  induction fs generalizing fs' with
  | nil =>
    simp only [initFields, Prod.mk.injEq, and_true] at h
    subst h
    rfl
  | cons kf rest ih =>
    obtain ⟨k, f0⟩ := kf
    unfold initFields at h
    split at h
    · rename_i f1 u hf
      simp only [Prod.mk.injEq] at h
      obtain ⟨h1, h2⟩ := h
      subst h1
      have hu : u = () := rfl
      subst hu
      by_cases hk : fn = k
      · subst hk
        simp only [List.lookup_cons, beq_self_eq_true, Option.isSome_some]
      · have hk' : (fn == k) = false := by simpa using hk
        simp only [List.lookup_cons, hk']
        exact ih (initFields root rest).1 (by rw [← h2])
    · rename_i f1 e hne hf
      simp only [Prod.mk.injEq] at h
      obtain ⟨_, h2⟩ := h
      exact absurd h2 (hne ())

theorem sortOrder_mem (fields : List (String × Field)) (order order' : List String)
    (h : sortOrder fields order = some order') (fn : String) : fn ∈ order' ↔ fn ∈ order := by
  unfold sortOrder at h
  split at h
  · simp only [Option.some.injEq] at h
    subst h
    exact Iff.rfl
  · split at h
    · simp only [Option.some.injEq] at h
      subst h
      exact (List.perm_insertionSort _ _).mem_iff
    · exact Option.noConfusion h

theorem lookup_dropKey (key k : String) (data : List (String × Value)) (h : k ≠ key) :
    (dropKey key data).lookup k = data.lookup k := by
  unfold dropKey
  induction data with
  | nil => rfl
  | cons kv rest ih =>
    obtain ⟨k', v⟩ := kv
    by_cases hk : k' = key
    · subst hk
      have h1 : (k == k') = false := by simpa using h
      simp only [List.filter_cons, bne_self_eq_false, Bool.false_eq_true, if_false,
        List.lookup_cons, h1]
      exact ih
    · have h1 : (k' != key) = true := by simpa using hk
      simp only [List.filter_cons, h1, if_true, List.lookup_cons]
      split
      · rfl
      · exact ih


/-- The fields of a compiled message are the declared fields, each compiled by
`Field.init` against the schema the call leaves, and `Order` still names the
same fields. -/
theorem message_init_fields (p : Protobuf) (m0 : Message)
    (h : (Message.init p m0).ret = .ok ()) :
    (∀ fn f, (Message.init p m0).m.Fields.lookup fn = some f →
        ∃ f0, m0.Fields.lookup fn = some f0
          ∧ f0.init (Message.init p m0).p = (f, .ok ()))
      ∧ (∀ fn, ((Message.init p m0).m.Fields.lookup fn).isSome = (m0.Fields.lookup fn).isSome)
      ∧ (∀ fn, fn ∈ (Message.init p m0).m.Order ↔ fn ∈ m0.Order) := by
  obtain ⟨h1, h2⟩ := message_init_ok p m0 h
  exact ⟨fun fn f hl => initFields_lookup _ _ _ h1 fn f hl,
    fun fn => initFields_lookup_isSome _ _ _ h1 fn,
    fun fn => sortOrder_mem _ _ _ h2 fn⟩

theorem marshalLoop_nothing (L : Strconv) (fields : List (String × Field))
    (data : List (String × Value)) (buf : Buffer) (order : List String)
    (hin : ∀ fn ∈ order, (fields.lookup fn).isSome = true)
    (hz : ∀ fn f, fields.lookup fn = some f → ∀ v, data.lookup f.Name = some v →
      v = .null ∨ ∀ e, f.enc = some e → ∃ er, e.call L buf f v = (buf, .err er)) :
    marshalLoop L fields data order buf = (buf, .ok ()) := by
  induction order with
  | nil => rfl
  | cons fn rest ih =>
    have ih' := ih (fun x hx => hin x (List.mem_cons_of_mem _ hx))
    unfold marshalLoop
    split
    · rename_i hl
      have := hin fn (List.mem_cons_self _ _)
      rw [hl] at this
      exact Bool.noConfusion this
    · rename_i field hl
      split
      · exact ih'
      · exact ih'
      · rename_i v hv hd
        rcases hz fn field hl v hd with h0 | h0
        · exact absurd h0 (by simpa using hv)
        · split
          · exact ih'
          · rename_i e he
            obtain ⟨er, her⟩ := h0 e he
            rw [her]
            exact ih'

/-- C5. A record in which every declared field is absent, nil or the zero
value of its type marshals, on a fresh instance whose schema holds the
compiled message, without error to the empty byte sequence. -/
theorem marshal_zero_record (L : Strconv) (root pb : Protobuf) (m0 : Message)
    (name : String) (pick : Option Nat) (data : List (String × Value))
    (hun : m0.uncompiled = true) (hord : m0.orderInFields = true)
    (hinit : (Message.init root m0).ret = .ok ())
    (hlook : pb.Messages.lookup name = some (some (Message.init root m0).m))
    (hzero : zeroRecord m0 data = true) :
    (ProtobufProtocol.Marshal L ⟨[], some pb⟩ pick name data).2 = .ok [] := by
  obtain ⟨h1, h2, h3⟩ := message_init_fields root m0 hinit
  have hg : (poolGet [] pick).1 = [] := by
    cases pick with
    | none => rfl
    | some i => rfl
  have key : marshalLoop L (Message.init root m0).m.Fields data
      (Message.init root m0).m.Order [] = ([], .ok ()) := by
    apply marshalLoop_nothing
    · intro fn hfn
      rw [h2 fn]
      have := (h3 fn).1 hfn
      unfold Message.orderInFields at hord
      exact List.all_eq_true.1 hord fn this
    · intro fn f hl v hv
      obtain ⟨f0, hl0, hi⟩ := h1 fn f hl
      have hmem := mem_of_lookup _ _ _ hl0
      unfold Message.uncompiled at hun
      have hf0 := List.all_eq_true.1 hun _ hmem
      simp only [Bool.and_eq_true, Option.isNone_iff_eq_none] at hf0
      obtain ⟨e1, e2, _, e4, _⟩ := field_init_ok_enc f0 f _ hi hf0.1
      unfold zeroRecord at hzero
      have hz0 := List.all_eq_true.1 hzero _ hmem
      simp only at hz0
      rw [← e4, hv] at hz0
      by_cases hn : v = .null
      · exact Or.inl hn
      · right
        have hz1 : isZeroValue f.Typ.Name f.Repeated v = true := by
          rw [e1, e2]
          split at hz0
          · rename_i hh; exact Option.noConfusion hh
          · rename_i hh; exact absurd (Option.some.inj hh) hn
          · rename_i v' _ hh
            cases Option.some.inj hh
            exact hz0
        intro e he
        exact zero_value_writes_nothing L _ f0 f hi hf0.1 v hz1 [] e he
  unfold ProtobufProtocol.Marshal
  simp only [hlook, Message.Marshal, hg, key]

/-- Witness of C5: Pet of the test schema with {type: 0, name: ""}. -/
theorem marshal_zero_record_witness :
    zeroRecord petDecl [("type", .int .int 0), ("name", .str [])] = true
    ∧ (ProtobufProtocol.Marshal Strconv.decimal ⟨[], some testSchema⟩ none "Pet"
        [("type", .int .int 0), ("name", .str [])]).2 = .ok [] :=
  ⟨by decide, marshal_zero_record Strconv.decimal testProto testSchema petDecl "Pet" none
    [("type", .int .int 0), ("name", .str [])] (by decide) (by decide) (by decide) rfl
    (by decide)⟩

theorem marshalLoop_congr (L : Strconv) (fields : List (String × Field))
    (data data' : List (String × Value)) (order : List String) (buf : Buffer)
    (h : ∀ fn f, fields.lookup fn = some f →
      f.enc = none ∨ data.lookup f.Name = data'.lookup f.Name) :
    marshalLoop L fields data order buf = marshalLoop L fields data' order buf := by
  induction order generalizing buf with
  | nil => rfl
  | cons fn rest ih =>
    unfold marshalLoop
    split
    · rfl
    · rename_i field hl
      rcases h fn field hl with h0 | h0
      · rw [h0]
        refine Eq.trans (b := marshalLoop L fields data rest buf) ?_
          (Eq.trans (ih buf) ?_)
        · split <;> rfl
        · split <;> rfl
      · rw [h0]
        split
        · exact ih buf
        · exact ih buf
        · split
          · exact ih buf
          · split
            · rfl
            · exact ih _

/-- C7, amended. A compiled field of a google.protobuf type has no encoder and
Marshal passes over it: whatever the record supplies under the key of such a
field, Marshal returns what it returns for the record without that key, and
leaves the instance in the same state. -/
theorem marshal_ignores_google_fields (L : Strconv) (root pb : Protobuf) (m0 : Message)
    (p : ProtobufProtocol) (name key : String) (pick : Option Nat)
    (data : List (String × Value))
    (hun : m0.uncompiled = true) (hinit : (Message.init root m0).ret = .ok ())
    (hp : p.parser = some pb)
    (hlook : pb.Messages.lookup name = some (some (Message.init root m0).m))
    (hkey : m0.keyIsGoogle key = true) :
    p.Marshal L pick name data = p.Marshal L pick name (dropKey key data) := by
  obtain ⟨h1, _, _⟩ := message_init_fields root m0 hinit
  have key : ∀ buf, marshalLoop L (Message.init root m0).m.Fields data
      (Message.init root m0).m.Order buf
      = marshalLoop L (Message.init root m0).m.Fields (dropKey key data)
      (Message.init root m0).m.Order buf := by
    intro buf
    apply marshalLoop_congr
    intro fn f hl
    obtain ⟨f0, hl0, hi⟩ := h1 fn f hl
    have hmem := mem_of_lookup _ _ _ hl0
    unfold Message.uncompiled at hun
    have hf0 := List.all_eq_true.1 hun _ hmem
    simp only [Bool.and_eq_true, Option.isNone_iff_eq_none] at hf0
    obtain ⟨_, _, _, e4, _⟩ := field_init_ok_enc f0 f _ hi hf0.1
    unfold Message.keyIsGoogle at hkey
    have hk0 := List.all_eq_true.1 hkey _ hmem
    simp only [Bool.or_eq_true, bne_iff_ne, ne_eq] at hk0
    rcases hk0 with hk0 | hk0
    · right
      rw [e4]
      exact (lookup_dropKey key f0.Name data hk0).symm
    · left
      exact field_init_google_enc f0 f _ hi hf0.1 hk0
  unfold ProtobufProtocol.Marshal
  simp only [hp, hlook, Message.Marshal, key]

/-- Witness of C7, amended: Person of the test schema, with and without a value
for online_time. -/
theorem marshal_ignores_google_fields_witness :
    personDecl.keyIsGoogle "online_time" = true
    ∧ testProtocol.Marshal Strconv.decimal none "Person"
        [("name", .str (utf8 "a")), ("online_time", .str (utf8 "5s"))]
      = testProtocol.Marshal Strconv.decimal none "Person"
        (dropKey "online_time" [("name", .str (utf8 "a")), ("online_time", .str (utf8 "5s"))]) :=
  ⟨by decide, marshal_ignores_google_fields Strconv.decimal testProto testSchema personDecl
    testProtocol "Person" "online_time" none
    [("name", .str (utf8 "a")), ("online_time", .str (utf8 "5s"))] (by decide) (by decide) rfl rfl
    (by decide)⟩

/-! ### Tag codes on the wire -/

theorem varint_byte (x : Nat) : (x &&& 0x7f ||| 0x80) % 256 = x % 128 + 128 := by
  have h1 : x &&& 0x7f = x % 128 := Nat.and_pow_two_sub_one_eq_mod x 7
  rw [h1]
  have h2 : ∀ y, y < 128 → (y ||| 0x80) % 256 = y + 128 := by decide
  exact h2 _ (Nat.mod_lt _ (by norm_num))

theorem varintLoop_append (fuel : Nat) (p : Buffer) (x : Nat) :
    varintLoop fuel p x = p ++ varintLoop fuel [] x := by
  induction fuel generalizing p x with
  | zero => simp [varintLoop]
  | succ n ih =>
    unfold varintLoop
    split
    · rw [ih (p ++ _), ih ([] ++ _)]
      simp
    · simp

/-- EncodeVarint appends to the buffer and leaves its bytes alone. -/
theorem EncodeVarint_append (p : Buffer) (x : Nat) :
    Buffer.EncodeVarint p x = p ++ Buffer.EncodeVarint [] x :=
  varintLoop_append x p x

theorem decodeVarint_varintLoop (fuel x : Nat) (h : x ≤ fuel) (rest : List Nat) :
    decodeVarint (varintLoop fuel [] x ++ rest) = some (x, rest) := by
  induction fuel generalizing x with
  | zero =>
    have hx : x = 0 := by omega
    subst hx
    simp [varintLoop, decodeVarint]
  | succ n ih =>
    unfold varintLoop
    split
    · rename_i hx
      have hx' : 128 ≤ x := hx
      rw [varintLoop_append, varint_byte]
      simp only [List.nil_append, List.singleton_append, List.cons_append]
      unfold decodeVarint
      have h1 : ¬ (x % 128 + 128 < 128) := by omega
      rw [if_neg h1]
      have h2 : x >>> 7 ≤ n := by
        rw [Nat.shiftRight_eq_div_pow]
        have : x / 2 ^ 7 < x := Nat.div_lt_self (by omega) (by norm_num)
        omega
      rw [ih (x >>> 7) h2]
      simp only [Option.some.injEq, Prod.mk.injEq, and_true]
      rw [Nat.shiftRight_eq_div_pow]
      omega
    · rename_i hx
      have hx' : x < 128 := by
        have : ¬ (128 ≤ x) := hx
        omega
      have h1 : x % 256 = x := Nat.mod_eq_of_lt (by omega)
      simp only [List.nil_append, List.singleton_append, h1]
      unfold decodeVarint
      rw [if_pos hx']

/-- The varint reader reads back what EncodeVarint wrote. -/
theorem decodeVarint_EncodeVarint (x : Nat) (rest : List Nat) :
    decodeVarint (Buffer.EncodeVarint [] x ++ rest) = some (x, rest) :=
  decodeVarint_varintLoop x x (Nat.le_refl x) rest

theorem decodeVarint_length (bytes : List Nat) (v : Nat) (rest : List Nat)
    (h : decodeVarint bytes = some (v, rest)) : rest.length < bytes.length := by
  induction bytes generalizing v rest with
  | nil => simp [decodeVarint] at h
  | cons b bs ih =>
    unfold decodeVarint at h
    split at h
    · simp only [Option.some.injEq, Prod.mk.injEq] at h
      obtain ⟨_, rfl⟩ := h
      simp
    · split at h
      · rename_i v' rest' hd
        simp only [Option.some.injEq, Prod.mk.injEq] at h
        obtain ⟨_, rfl⟩ := h
        have := ih v' _ hd
        simp only [List.length_cons]
        omega
      · exact Option.noConfusion h

theorem skipValue_length (w : Nat) (bytes rest : List Nat)
    (h : skipValue w bytes = some rest) : rest.length ≤ bytes.length := by
  unfold skipValue at h
  split at h
  · cases hd : decodeVarint bytes with
    | none => rw [hd] at h; simp at h
    | some r =>
      rw [hd] at h
      simp only [Option.map_some', Option.some.injEq] at h
      subst h
      exact Nat.le_of_lt (decodeVarint_length bytes r.1 r.2 hd)
  · split at h
    · split at h
      · simp only [Option.some.injEq] at h
        subst h
        simp
      · exact Option.noConfusion h
    · split at h
      · split at h
        · rename_i n r hd
          split at h
          · simp only [Option.some.injEq] at h
            subst h
            have := decodeVarint_length bytes n r hd
            simp only [List.length_drop]
            omega
          · exact Option.noConfusion h
        · exact Option.noConfusion h
      · split at h
        · split at h
          · simp only [Option.some.injEq] at h
            subst h
            simp
          · exact Option.noConfusion h
        · exact Option.noConfusion h

theorem scanLoop_succ (fuel : Nat) (bytes : List Nat) (h : bytes.length ≤ fuel) :
    scanLoop (fuel + 1) bytes = scanLoop fuel bytes := by
  induction fuel generalizing bytes with
  | zero =>
    cases bytes with
    | nil => simp [scanLoop]
    | cons b bs => simp at h
  | succ n ih =>
    cases bytes with
    | nil => simp [scanLoop]
    | cons b bs =>
      rw [scanLoop, scanLoop]
      cases hd : decodeVarint (b :: bs) with
      | none => rfl
      | some r =>
        obtain ⟨key, rest⟩ := r
        simp only
        cases hs : skipValue (key &&& 7) rest with
        | none => rfl
        | some rest' =>
          simp only
          have h1 := decodeVarint_length _ _ _ hd
          have h2 := skipValue_length _ _ _ hs
          rw [ih rest' (by simp only [List.length_cons] at h h1; omega)]

theorem scanLoop_ge (fuel : Nat) (bytes : List Nat) (h : bytes.length ≤ fuel) :
    scanLoop fuel bytes = scanTags bytes := by
  unfold scanTags
  induction fuel with
  | zero =>
    have : bytes.length = 0 := by omega
    rw [this]
  | succ n ih =>
    by_cases hn : bytes.length ≤ n
    · rw [scanLoop_succ n bytes hn]
      exact ih hn
    · have : bytes.length = n + 1 := by omega
      rw [this]

/-- One step of the scan: a tag code that reads as `key`, then a value that is
skipped by the wire kind of `key`. -/
theorem scanTags_step (bytes rest rest' : List Nat) (key : Nat)
    (hd : decodeVarint bytes = some (key, rest))
    (hs : skipValue (key &&& 7) rest = some rest') :
    scanTags bytes = (scanTags rest').map (fun ts => (key >>> 3) :: ts) := by
  cases bytes with
  | nil => simp [decodeVarint] at hd
  | cons b bs =>
    unfold scanTags
    simp only [List.length_cons]
    rw [scanLoop, hd]
    simp only
    rw [hs]
    simp only
    have h1 := decodeVarint_length _ _ _ hd
    have h2 := skipValue_length _ _ _ hs
    rw [scanLoop_ge bs.length rest' (by simp only [List.length_cons] at h1; omega)]
    rfl

theorem tag_byte (x : Nat) : (0x80 ||| (x &&& 0x7F) % 256) = x % 128 + 128 := by
  have h1 : x &&& 0x7F = x % 128 := Nat.and_pow_two_sub_one_eq_mod x 7
  rw [h1]
  have h2 : ∀ y, y < 128 → (0x80 ||| y % 256) = y + 128 := by decide
  exact h2 _ (Nat.mod_lt _ (by norm_num))

theorem take_succ_set (l : List Nat) (i a : Nat) (h : i < l.length) :
    (l.set i a).take (i + 1) = l.take i ++ [a] := by
  induction l generalizing i with
  | nil => simp at h
  | cons b bs ih =>
    cases i with
    | zero => simp
    | succ j =>
      simp only [List.length_cons, Nat.add_lt_add_iff_right] at h
      simp only [List.set_cons_succ, List.take_succ_cons, List.cons_append, ih j h]

theorem take_set_of_le (l : List Nat) (i j a : Nat) (h : j ≤ i) :
    (l.set i a).take j = l.take j := by
  induction l generalizing i j with
  | nil => simp
  | cons b bs ih =>
    cases j with
    | zero => simp
    | succ j' =>
      cases i with
      | zero => omega
      | succ i' =>
        simp only [List.set_cons_succ, List.take_succ_cons, ih i' j' (by omega)]

theorem tagLoop_spec (fuel : Nat) (tb : List Nat) (i x : Nat) (hfuel : x ≤ fuel)
    (hi : i < tb.length) (hx : x < 128 ^ (tb.length - i)) :
    ∃ tb' i' x', tagLoop fuel tb i x = some (tb', i', x') ∧ i' < tb'.length
      ∧ (tb'.set i' (x' % 256)).take (i' + 1) = tb.take i ++ varintLoop fuel [] x := by
  induction fuel generalizing tb i x with
  | zero =>
    have h0 : x = 0 := by omega
    subst h0
    exact ⟨tb, i, 0, rfl, hi, by rw [take_succ_set tb i _ hi]; rfl⟩
  | succ n ih =>
    unfold tagLoop varintLoop
    by_cases h127 : x > 127
    · rw [if_pos h127, if_pos hi, if_pos (show x ≥ 1 <<< 7 from h127)]
      have hlen : (tb.set i (0x80 ||| (x &&& 0x7F) % 256)).length = tb.length :=
        List.length_set _ _ _
      have hd : tb.length - i ≥ 2 := by
        by_contra hc
        have : tb.length - i = 1 := by omega
        rw [this] at hx
        omega
      have hx2 : x >>> 7 < 128 ^ (tb.length - (i + 1)) := by
        rw [Nat.shiftRight_eq_div_pow]
        apply Nat.div_lt_of_lt_mul
        have : tb.length - i = (tb.length - (i + 1)) + 1 := by omega
        rw [this, pow_succ] at hx
        calc x < 128 ^ (tb.length - (i + 1)) * 128 := hx
          _ = 2 ^ 7 * 128 ^ (tb.length - (i + 1)) := by ring
      have hf2 : x >>> 7 ≤ n := by
        rw [Nat.shiftRight_eq_div_pow]
        have : x / 2 ^ 7 < x := Nat.div_lt_self (by omega) (by norm_num)
        omega
      obtain ⟨tb', i', x', h1, h2, h3⟩ := ih (tb.set i (0x80 ||| (x &&& 0x7F) % 256)) (i + 1)
        (x >>> 7) hf2 (by rw [hlen]; omega) (by rw [hlen]; exact hx2)
      refine ⟨tb', i', x', h1, h2, ?_⟩
      rw [h3, take_succ_set tb i _ hi, tag_byte, varint_byte,
        varintLoop_append n ([] ++ [x % 128 + 128])]
      simp
    · rw [if_neg h127, if_neg (show ¬ x ≥ 1 <<< 7 from h127)]
      exact ⟨tb, i, x, rfl, hi, by rw [take_succ_set tb i _ hi]; rfl⟩

/-- The tag code `Field.init` computes is the varint of the key
`uint32(Tag) << 3 | wireType`. -/
theorem tagStep_tagcode (f f' : Field) (w : Nat) (hw : w < 8)
    (h : f.tagStep w = some f') :
    f'.tagcode = Buffer.EncodeVarint [] ((toUint32 f.Tag <<< 3) % 2 ^ 32 ||| w) := by
  unfold Field.tagStep at h
  dsimp only at h
  generalize hk : (toUint32 f.Tag <<< 3) % 2 ^ 32 ||| w = key at h ⊢
  split at h
  · exact Option.noConfusion h
  · rename_i tb i x hl
    split at h
    · simp only [Option.some.injEq] at h
      subst h
      simp only
      have hkey : key < 128 ^ 8 := by
        rw [← hk]
        have h1 : (toUint32 f.Tag <<< 3) % 2 ^ 32 < 2 ^ 32 := Nat.mod_lt _ (by norm_num)
        have h2 : w < 2 ^ 32 := by omega
        have := Nat.or_lt_two_pow h1 h2
        omega
      · obtain ⟨tb', i', x', h1, _, h3⟩ := tagLoop_spec key (List.replicate 8 0) 0 key
          (Nat.le_refl _) (by simp) (by simpa using hkey)
        rw [hl] at h1
        simp only [Option.some.injEq, Prod.mk.injEq] at h1
        obtain ⟨rfl, rfl, rfl⟩ := h1
        rw [h3]
        rfl
    · exact Option.noConfusion h

theorem tagKey_eq (tag : Int) (w : Nat) (h1 : 1 ≤ tag) (h2 : tag < 2 ^ 29) (hw : w < 8) :
    (toUint32 tag <<< 3) % 2 ^ 32 ||| w = 2 ^ 3 * tag.toNat + w := by
  unfold toUint32
  have e1 : (tag % 2 ^ 32).toNat = tag.toNat := by
    rw [Int.emod_eq_of_lt (by omega) (by omega)]
  rw [e1, Nat.shiftLeft_eq]
  have e2 : tag.toNat < 2 ^ 29 := by omega
  rw [Nat.mod_eq_of_lt (by omega)]
  rw [Nat.mul_comm]
  exact (Nat.mul_add_lt_is_or (i := 3) hw tag.toNat).symm

theorem tagKey_split (t w : Nat) (hw : w < 8) :
    (2 ^ 3 * t + w) >>> 3 = t ∧ (2 ^ 3 * t + w) &&& 7 = w := by
  constructor
  · rw [Nat.shiftRight_eq_div_pow]
    omega
  · have : (2 ^ 3 * t + w) &&& 7 = (2 ^ 3 * t + w) % 2 ^ 3 :=
      Nat.and_pow_two_sub_one_eq_mod _ 3
    rw [this]
    omega

theorem wireStep_cases (f f1 : Field) (root : Protobuf) (w : Nat)
    (h : f.wireStep root = some (w, f1)) :
    (f.Typ.Name = "sint32" ∧ w = WireVarint ∧ f1.valEnc = some .EncodeZigzag32)
    ∨ (f.Typ.Name = "sint64" ∧ w = WireVarint ∧ f1.valEnc = some .EncodeZigzag64)
    ∨ ((f.Typ.Name = "int32" ∨ f.Typ.Name = "int64" ∨ f.Typ.Name = "uint32" ∨ f.Typ.Name = "uint64" ∨ f.Typ.Name = "sint32" ∨ f.Typ.Name = "sint64"
          ∨ f.Typ.Name = "bool" ∨ root.hasEnum f.Typ.Name = true)
        ∧ w = WireVarint ∧ f1.valEnc = some .EncodeVarint)
    ∨ (¬ (f.Typ.Name = "int32" ∨ f.Typ.Name = "int64" ∨ f.Typ.Name = "uint32" ∨ f.Typ.Name = "uint64" ∨ f.Typ.Name = "sint32" ∨ f.Typ.Name = "sint64"
          ∨ f.Typ.Name = "bool" ∨ root.hasEnum f.Typ.Name = true)
        ∧ (f.Typ.Name = "fixed64" ∨ f.Typ.Name = "sfixed64" ∨ f.Typ.Name = "double") ∧ w = WireFixed64 ∧ f1.valEnc = some .EncodeFixed64)
    ∨ (¬ (f.Typ.Name = "int32" ∨ f.Typ.Name = "int64" ∨ f.Typ.Name = "uint32" ∨ f.Typ.Name = "uint64" ∨ f.Typ.Name = "sint32" ∨ f.Typ.Name = "sint64"
          ∨ f.Typ.Name = "bool" ∨ root.hasEnum f.Typ.Name = true)
        ∧ ¬ (f.Typ.Name = "fixed64" ∨ f.Typ.Name = "sfixed64" ∨ f.Typ.Name = "double") ∧ (f.Typ.Name = "string" ∨ f.Typ.Name = "bytes" ∨ root.hasMessage f.Typ.Name = true)
        ∧ w = WireBytes ∧ f1.valEnc = some .EncodeVarint)
    ∨ (¬ (f.Typ.Name = "int32" ∨ f.Typ.Name = "int64" ∨ f.Typ.Name = "uint32" ∨ f.Typ.Name = "uint64" ∨ f.Typ.Name = "sint32" ∨ f.Typ.Name = "sint64"
          ∨ f.Typ.Name = "bool" ∨ root.hasEnum f.Typ.Name = true)
        ∧ ¬ (f.Typ.Name = "fixed64" ∨ f.Typ.Name = "sfixed64" ∨ f.Typ.Name = "double") ∧ ¬ (f.Typ.Name = "string" ∨ f.Typ.Name = "bytes" ∨ root.hasMessage f.Typ.Name = true)
        ∧ (f.Typ.Name = "fixed32" ∨ f.Typ.Name = "sfixed32" ∨ f.Typ.Name = "float") ∧ w = WireFixed32 ∧ f1.valEnc = f.valEnc)
    ∨ (¬ (f.Typ.Name = "int32" ∨ f.Typ.Name = "int64" ∨ f.Typ.Name = "uint32" ∨ f.Typ.Name = "uint64" ∨ f.Typ.Name = "sint32" ∨ f.Typ.Name = "sint64"
          ∨ f.Typ.Name = "bool" ∨ root.hasEnum f.Typ.Name = true)
        ∧ ¬ (f.Typ.Name = "fixed64" ∨ f.Typ.Name = "sfixed64" ∨ f.Typ.Name = "double") ∧ ¬ (f.Typ.Name = "string" ∨ f.Typ.Name = "bytes" ∨ root.hasMessage f.Typ.Name = true)
        ∧ hasPrefix f.Typ.Name "google.protobuf." = true ∧ w = WireBytes ∧ f1.valEnc = f.valEnc) := by
  unfold Field.wireStep at h
  dsimp only at h
  generalize f.Typ.Name = t at *
  by_cases c1 : t = "int32" ∨ t = "int64" ∨ t = "uint32" ∨ t = "uint64" ∨
      t = "sint32" ∨ t = "sint64" ∨ t = "bool" ∨ root.hasEnum t = true
  · rw [if_pos c1] at h
    by_cases s1 : t = "sint32"
    · rw [if_pos s1] at h
      simp only [Option.some.injEq, Prod.mk.injEq] at h
      obtain ⟨rfl, rfl⟩ := h
      exact Or.inl ⟨s1, rfl, rfl⟩
    rw [if_neg s1] at h
    by_cases s2 : t = "sint64"
    · rw [if_pos s2] at h
      simp only [Option.some.injEq, Prod.mk.injEq] at h
      obtain ⟨rfl, rfl⟩ := h
      exact Or.inr (Or.inl ⟨s2, rfl, rfl⟩)
    rw [if_neg s2] at h
    simp only [Option.some.injEq, Prod.mk.injEq] at h
    obtain ⟨rfl, rfl⟩ := h
    exact Or.inr (Or.inr (Or.inl ⟨c1, rfl, rfl⟩))
  rw [if_neg c1] at h
  by_cases c2 : t = "fixed64" ∨ t = "sfixed64" ∨ t = "double"
  · rw [if_pos c2] at h
    simp only [Option.some.injEq, Prod.mk.injEq] at h
    obtain ⟨rfl, rfl⟩ := h
    exact Or.inr (Or.inr (Or.inr (Or.inl ⟨c1, c2, rfl, rfl⟩)))
  rw [if_neg c2] at h
  by_cases c3 : t = "string" ∨ t = "bytes" ∨ root.hasMessage t = true
  · rw [if_pos c3] at h
    simp only [Option.some.injEq, Prod.mk.injEq] at h
    obtain ⟨rfl, rfl⟩ := h
    exact Or.inr (Or.inr (Or.inr (Or.inr (Or.inl ⟨c1, c2, c3, rfl, rfl⟩))))
  rw [if_neg c3] at h
  by_cases c4 : t = "fixed32" ∨ t = "sfixed32" ∨ t = "float"
  · rw [if_pos c4] at h
    simp only [Option.some.injEq, Prod.mk.injEq] at h
    obtain ⟨rfl, rfl⟩ := h
    exact Or.inr (Or.inr (Or.inr (Or.inr (Or.inr (Or.inl ⟨c1, c2, c3, c4, rfl, rfl⟩)))))
  rw [if_neg c4] at h
  by_cases c5 : hasPrefix t "google.protobuf." = true
  · rw [if_pos c5] at h
    simp only [Option.some.injEq, Prod.mk.injEq] at h
    obtain ⟨rfl, rfl⟩ := h
    exact Or.inr (Or.inr (Or.inr (Or.inr (Or.inr (Or.inr ⟨c1, c2, c3, c5, rfl, rfl⟩)))))
  rw [if_neg c5] at h
  exact Option.noConfusion h

theorem wire_enc_consistent (root : Protobuf) (t : String) (w : Nat)
    (enc : Option encoder) (valEnc : Option valueEncoder)
    (hclash : noScalarClash root = true)
    (hw :
    (t = "sint32" ∧ w = WireVarint ∧ valEnc = some .EncodeZigzag32)
    ∨ (t = "sint64" ∧ w = WireVarint ∧ valEnc = some .EncodeZigzag64)
    ∨ ((t = "int32" ∨ t = "int64" ∨ t = "uint32" ∨ t = "uint64" ∨ t = "sint32" ∨ t = "sint64"
          ∨ t = "bool" ∨ root.hasEnum t = true)
        ∧ w = WireVarint ∧ valEnc = some .EncodeVarint)
    ∨ (¬ (t = "int32" ∨ t = "int64" ∨ t = "uint32" ∨ t = "uint64" ∨ t = "sint32" ∨ t = "sint64"
          ∨ t = "bool" ∨ root.hasEnum t = true)
        ∧ (t = "fixed64" ∨ t = "sfixed64" ∨ t = "double") ∧ w = WireFixed64 ∧ valEnc = some .EncodeFixed64)
    ∨ (¬ (t = "int32" ∨ t = "int64" ∨ t = "uint32" ∨ t = "uint64" ∨ t = "sint32" ∨ t = "sint64"
          ∨ t = "bool" ∨ root.hasEnum t = true)
        ∧ ¬ (t = "fixed64" ∨ t = "sfixed64" ∨ t = "double") ∧ (t = "string" ∨ t = "bytes" ∨ root.hasMessage t = true)
        ∧ w = WireBytes ∧ valEnc = some .EncodeVarint)
    ∨ (¬ (t = "int32" ∨ t = "int64" ∨ t = "uint32" ∨ t = "uint64" ∨ t = "sint32" ∨ t = "sint64"
          ∨ t = "bool" ∨ root.hasEnum t = true)
        ∧ ¬ (t = "fixed64" ∨ t = "sfixed64" ∨ t = "double") ∧ ¬ (t = "string" ∨ t = "bytes" ∨ root.hasMessage t = true)
        ∧ (t = "fixed32" ∨ t = "sfixed32" ∨ t = "float") ∧ w = WireFixed32 ∧ valEnc = none)
    ∨ (¬ (t = "int32" ∨ t = "int64" ∨ t = "uint32" ∨ t = "uint64" ∨ t = "sint32" ∨ t = "sint64"
          ∨ t = "bool" ∨ root.hasEnum t = true)
        ∧ ¬ (t = "fixed64" ∨ t = "sfixed64" ∨ t = "double") ∧ ¬ (t = "string" ∨ t = "bytes" ∨ root.hasMessage t = true)
        ∧ hasPrefix t "google.protobuf." = true ∧ w = WireBytes ∧ valEnc = none))
    (he : (t = "bool" ∧ enc = some .enc_bool)
        ∨ ((t = "int32" ∨ t = "sint32" ∨ t = "sfixed32") ∧ enc = some .enc_int32)
        ∨ ((t = "uint32" ∨ t = "fixed32") ∧ enc = some .enc_uint32)
        ∨ ((t = "int64" ∨ t = "sint64" ∨ t = "sfixed64" ∨ t = "uint64" ∨ t = "fixed64")
            ∧ enc = some .enc_int64)
        ∨ (t = "float" ∧ enc = some .enc_float32)
        ∨ (t = "double" ∧ enc = some .enc_float64)
        ∨ ((t = "string" ∨ t = "bytes") ∧ enc = some .enc_string)
        ∨ (¬ scalarName t ∧ hasPrefix t "google.protobuf." = true ∧ enc = none)
        ∨ (¬ scalarName t ∧ hasPrefix t "google.protobuf." = false
            ∧ root.hasEnum t = true ∧ enc = some .enc_int32)
        ∨ (¬ scalarName t ∧ hasPrefix t "google.protobuf." = false
            ∧ root.hasEnum t = false ∧ root.hasMessage t = true ∧ enc = none)) :
    w < 8 ∧ wireConsistent w enc valEnc := by
  have hw8 : w < 8 := by
    rcases hw with ⟨_, h, _⟩ | ⟨_, h, _⟩ | ⟨_, h, _⟩ | ⟨_, _, h, _⟩ | ⟨_, _, _, h, _⟩
      | ⟨_, _, _, _, h, _⟩ | ⟨_, _, _, _, h, _⟩ <;> rw [h] <;> decide
  refine ⟨hw8, ?_⟩
  unfold noScalarClash at hclash
  simp only [Bool.and_eq_true, Bool.not_eq_true'] at hclash
  obtain ⟨⟨⟨⟨k1, k2⟩, k3⟩, k4⟩, k5⟩ := hclash
  unfold wireConsistent
  -- the string encoder needs wire kind Bytes
  by_cases hs : t = "string" ∨ t = "bytes"
  · have henc : enc = some .enc_string := by
      rcases he with ⟨ht, _⟩ | ⟨ht, _⟩ | ⟨ht, _⟩ | ⟨ht, _⟩ | ⟨ht, _⟩ | ⟨ht, _⟩ | ⟨_, h⟩
        | ⟨ht, _⟩ | ⟨ht, _⟩ | ⟨ht, _⟩
      · rcases hs with rfl | rfl <;> exact absurd ht (by decide)
      · rcases hs with rfl | rfl <;> exact absurd ht (by decide)
      · rcases hs with rfl | rfl <;> exact absurd ht (by decide)
      · rcases hs with rfl | rfl <;> exact absurd ht (by decide)
      · rcases hs with rfl | rfl <;> exact absurd ht (by decide)
      · rcases hs with rfl | rfl <;> exact absurd ht (by decide)
      · exact h
      · exact absurd (show scalarName t by unfold scalarName; rcases hs with h | h <;> simp [h]) ht
      · exact absurd (show scalarName t by unfold scalarName; rcases hs with h | h <;> simp [h]) ht
      · exact absurd (show scalarName t by unfold scalarName; rcases hs with h | h <;> simp [h]) ht
    have hE : root.hasEnum t = false := by rcases hs with rfl | rfl <;> assumption
    refine Or.inr (Or.inl ⟨henc, ?_⟩)
    rcases hw with ⟨h1, _⟩ | ⟨h1, _⟩ | ⟨h1, _⟩ | ⟨_, h1, _⟩ | ⟨_, _, _, h1, _⟩
      | ⟨_, _, h1, _⟩ | ⟨_, _, h1, _⟩
    · rcases hs with rfl | rfl <;> exact absurd h1 (by decide)
    · rcases hs with rfl | rfl <;> exact absurd h1 (by decide)
    · rw [hE] at h1
      rcases hs with rfl | rfl <;> exact absurd h1 (by decide)
    · rcases hs with rfl | rfl <;> exact absurd h1 (by decide)
    · exact h1
    · exact absurd (hs.elim Or.inl (fun h => Or.inr (Or.inl h))) h1
    · exact absurd (hs.elim Or.inl (fun h => Or.inr (Or.inl h))) h1
  -- every other encoder is numeric, or there is none
  have hnum : enc = none ∨ (enc = some .enc_bool ∨ enc = some .enc_int32
      ∨ enc = some .enc_uint32 ∨ enc = some .enc_int64 ∨ enc = some .enc_float32
      ∨ enc = some .enc_float64) := by
    rcases he with ⟨_, h⟩ | ⟨_, h⟩ | ⟨_, h⟩ | ⟨_, h⟩ | ⟨_, h⟩ | ⟨_, h⟩ | ⟨ht, _⟩ | ⟨_, _, h⟩
      | ⟨_, _, _, h⟩ | ⟨_, _, _, _, h⟩
    · exact Or.inr (by simp [h])
    · exact Or.inr (by simp [h])
    · exact Or.inr (by simp [h])
    · exact Or.inr (by simp [h])
    · exact Or.inr (by simp [h])
    · exact Or.inr (by simp [h])
    · exact absurd ht hs
    · exact Or.inl h
    · exact Or.inr (by simp [h])
    · exact Or.inl h
  rcases hnum with hnone | hnum
  · exact Or.inl hnone
  rcases hw with ⟨_, h, h'⟩ | ⟨_, h, h'⟩ | ⟨_, h, h'⟩ | ⟨_, _, h, h'⟩ | ⟨c1, c2, c3, _, _⟩
    | ⟨_, _, _, _, _, h'⟩ | ⟨_, _, _, _, _, h'⟩
  · exact Or.inr (Or.inr ⟨hnum, Or.inl ⟨h, Or.inr (Or.inl h')⟩⟩)
  · exact Or.inr (Or.inr ⟨hnum, Or.inl ⟨h, Or.inr (Or.inr h')⟩⟩)
  · exact Or.inr (Or.inr ⟨hnum, Or.inl ⟨h, Or.inl h'⟩⟩)
  · exact Or.inr (Or.inr ⟨hnum, Or.inr (Or.inl ⟨h, h'⟩)⟩)
  · -- wire kind Bytes for a name that is a message: the encoder is nil, or the
    -- name is fixed32, sfixed32 or float, which no message bears
    left
    have hM : root.hasMessage t = true := by
      rcases c3 with h | h | h
      · exact absurd (Or.inl h) hs
      · exact absurd (Or.inr h) hs
      · exact h
    have hE : root.hasEnum t = false := by
      cases hh : root.hasEnum t with
      | false => rfl
      | true => exact absurd (by simp [hh]) c1
    rcases he with ⟨ht, _⟩ | ⟨ht, _⟩ | ⟨ht, _⟩ | ⟨ht, _⟩ | ⟨ht, _⟩ | ⟨ht, _⟩ | ⟨ht, _⟩
      | ⟨_, _, h⟩ | ⟨_, _, hE', _⟩ | ⟨_, _, _, _, h⟩
    · exact absurd (by simp [ht]) c1
    · rcases ht with ht | ht | ht
      · exact absurd (by simp [ht]) c1
      · exact absurd (by simp [ht]) c1
      · subst ht; rw [k4] at hM; exact Bool.noConfusion hM
    · rcases ht with ht | ht
      · exact absurd (by simp [ht]) c1
      · subst ht; rw [k3] at hM; exact Bool.noConfusion hM
    · rcases ht with ht | ht | ht | ht | ht
      · exact absurd (by simp [ht]) c1
      · exact absurd (by simp [ht]) c1
      · exact absurd (by simp [ht]) c2
      · exact absurd (by simp [ht]) c1
      · exact absurd (by simp [ht]) c2
    · subst ht; rw [k5] at hM; exact Bool.noConfusion hM
    · exact absurd (by simp [ht]) c2
    · exact absurd ht hs
    · exact h
    · rw [hE] at hE'; exact Bool.noConfusion hE'
    · exact h
  · exact Or.inr (Or.inr ⟨hnum, Or.inr (Or.inr h')⟩)
  · exact Or.inr (Or.inr ⟨hnum, Or.inr (Or.inr h')⟩)

/-- What a successful `Field.init` leaves of a field the parser produced, in a
schema without a clash of names: a tag code that is the varint of the key and
an encoder that fits the wire kind. -/
theorem field_init_wire (f0 f : Field) (root : Protobuf) (h : f0.init root = (f, .ok ()))
    (hfe : f0.enc = none) (hfv : f0.valEnc = none) (hclash : noScalarClash root = true) :
    ∃ w, w < 8
      ∧ f.tagcode = Buffer.EncodeVarint [] ((toUint32 f0.Tag <<< 3) % 2 ^ 32 ||| w)
      ∧ wireConsistent w f.enc f.valEnc := by
  obtain ⟨w0, f1, w, f2, hw, he, ht⟩ := field_init_ok f0 f root h
  obtain ⟨a1, _, a3, _, a5, _⟩ := wireStep_typ f0 f1 root w0 hw
  have hwc := wireStep_cases f0 f1 root w0 hw
  obtain ⟨_, _, b3, _, b5, _, hc⟩ := encStep_cases f1 root w0 w f2 he
  obtain ⟨_, _, _, _, c5, c6⟩ := tagStep_fields f2 f w ht
  have ev : f1.valEnc = f.valEnc := by rw [c6, b5]
  have ee : f1.enc = none := by rw [a5, hfe]
  rw [ev, hfv] at hwc
  rw [a1, ee, ← c5] at hc
  have htag : f2.Tag = f0.Tag := by rw [b3, a3]
  rcases hc with ⟨_, hwb, hen⟩ | ⟨_, hww, hc⟩
  · have hw8 : w < 8 := by rw [hwb]; decide
    refine ⟨w, hw8, ?_, Or.inl hen⟩
    rw [tagStep_tagcode f2 f w hw8 ht, htag]
  · subst hww
    obtain ⟨hw8, hcons⟩ := wire_enc_consistent root f0.Typ.Name w f.enc f.valEnc hclash hwc hc
    refine ⟨w, hw8, ?_, hcons⟩
    rw [tagStep_tagcode f2 f w hw8 ht, htag]

/-- A tag code followed by a varint is a group of wire kind Varint. -/
theorem isGroup_varint (n y : Nat) :
    isGroup n (Buffer.EncodeVarint [] (2 ^ 3 * n + WireVarint) ++ Buffer.EncodeVarint [] y) := by
  intro rest
  obtain ⟨k1, k2⟩ := tagKey_split n WireVarint (by decide)
  have hd := decodeVarint_EncodeVarint (2 ^ 3 * n + WireVarint)
    (Buffer.EncodeVarint [] y ++ rest)
  have hs : skipValue ((2 ^ 3 * n + WireVarint) &&& 7) (Buffer.EncodeVarint [] y ++ rest)
      = some rest := by
    rw [k2]
    unfold skipValue
    rw [if_pos rfl, decodeVarint_EncodeVarint]
    rfl
  rw [List.append_assoc, scanTags_step _ _ _ _ hd hs, k1]

/-- A tag code followed by eight bytes is a group of wire kind Fixed64. -/
theorem isGroup_fixed64 (n x : Nat) :
    isGroup n (Buffer.EncodeVarint [] (2 ^ 3 * n + WireFixed64)
      ++ Buffer.EncodeFixed64 [] x) := by
  intro rest
  obtain ⟨k1, k2⟩ := tagKey_split n WireFixed64 (by decide)
  have hd := decodeVarint_EncodeVarint (2 ^ 3 * n + WireFixed64)
    (Buffer.EncodeFixed64 [] x ++ rest)
  have hs : skipValue ((2 ^ 3 * n + WireFixed64) &&& 7) (Buffer.EncodeFixed64 [] x ++ rest)
      = some rest := by
    rw [k2]
    unfold skipValue Buffer.EncodeFixed64
    rw [if_neg (by decide), if_pos rfl]
    simp
  rw [List.append_assoc, scanTags_step _ _ _ _ hd hs, k1]

/-- A tag code followed by a length and that many bytes is a group of wire
kind Bytes. -/
theorem isGroup_bytes (n : Nat) (s : List Nat) :
    isGroup n (Buffer.EncodeVarint [] (2 ^ 3 * n + WireBytes)
      ++ (Buffer.EncodeVarint [] s.length ++ s)) := by
  intro rest
  obtain ⟨k1, k2⟩ := tagKey_split n WireBytes (by decide)
  have hd := decodeVarint_EncodeVarint (2 ^ 3 * n + WireBytes)
    ((Buffer.EncodeVarint [] s.length ++ s) ++ rest)
  have hs : skipValue ((2 ^ 3 * n + WireBytes) &&& 7)
      ((Buffer.EncodeVarint [] s.length ++ s) ++ rest) = some rest := by
    rw [k2]
    unfold skipValue
    rw [if_neg (by decide), if_neg (by decide), if_pos rfl, List.append_assoc,
      decodeVarint_EncodeVarint]
    simp
  rw [List.append_assoc, scanTags_step _ _ _ _ hd hs, k1]

/-- What a numeric encoder does: it returns an error and leaves the buffer, or
it writes the tag code and calls the value encoder. -/
theorem numeric_encoder_call (L : Strconv) (e : encoder) (buf : Buffer) (f : Field) (v : Value)
    (he : e = .enc_bool ∨ e = .enc_int32 ∨ e = .enc_uint32 ∨ e = .enc_int64
      ∨ e = .enc_float32 ∨ e = .enc_float64) :
    (∃ er, e.call L buf f v = (buf, .err er))
    ∨ ∃ x, e.call L buf f v =
        (match f.callValEnc (buf ++ f.tagcode) x with
          | (o, .panic) => (o, .panic)
          | (o, _) => (o, .ok ())) := by
  rcases he with rfl | rfl | rfl | rfl | rfl | rfl
  · simp only [encoder.call, Buffer.enc_bool]
    split
    · exact Or.inl ⟨_, rfl⟩
    · split
      · exact Or.inl ⟨_, rfl⟩
      · exact Or.inr ⟨_, rfl⟩
  · simp only [encoder.call, Buffer.enc_int32]
    split
    · exact Or.inl ⟨_, rfl⟩
    · split
      · exact Or.inl ⟨_, rfl⟩
      · exact Or.inr ⟨_, rfl⟩
  · simp only [encoder.call, Buffer.enc_uint32]
    split
    · exact Or.inl ⟨_, rfl⟩
    · split
      · exact Or.inl ⟨_, rfl⟩
      · exact Or.inr ⟨_, rfl⟩
  · simp only [encoder.call, Buffer.enc_int64]
    split
    · exact Or.inl ⟨_, rfl⟩
    · split
      · exact Or.inl ⟨_, rfl⟩
      · exact Or.inr ⟨_, rfl⟩
  · simp only [encoder.call, Buffer.enc_float32]
    split
    · exact Or.inl ⟨_, rfl⟩
    · split
      · exact Or.inl ⟨_, rfl⟩
      · exact Or.inr ⟨_, rfl⟩
  · simp only [encoder.call, Buffer.enc_float64]
    split
    · exact Or.inl ⟨_, rfl⟩
    · split
      · exact Or.inl ⟨_, rfl⟩
      · exact Or.inr ⟨_, rfl⟩

/-- What the string encoder does: it returns an error and leaves the buffer,
or it writes the tag code, the length and the bytes. -/
theorem string_encoder_call (L : Strconv) (buf : Buffer) (f : Field) (v : Value) :
    (∃ er, encoder.enc_string.call L buf f v = (buf, .err er))
    ∨ ∃ s, encoder.enc_string.call L buf f v
        = (Buffer.EncodeStringBytes (buf ++ f.tagcode) s, .ok ()) := by
  simp only [encoder.call, Buffer.enc_string]
  split
  · exact Or.inl ⟨_, rfl⟩
  · split
    · exact Or.inl ⟨_, rfl⟩
    · exact Or.inr ⟨_, rfl⟩

/-- A field whose encoder fits its wire kind panics, writes nothing, or writes
one group that bears its field number. -/
theorem field_writes_group (L : Strconv) (f : Field) (w n : Nat)
    (htc : f.tagcode = Buffer.EncodeVarint [] (2 ^ 3 * n + w))
    (hc : wireConsistent w f.enc f.valEnc) (e : encoder) (he : f.enc = some e)
    (v : Value) (buf : Buffer) :
    (e.call L buf f v).2 = .panic ∨ (e.call L buf f v).1 = buf
      ∨ ∃ c, (e.call L buf f v).1 = buf ++ c ∧ isGroup n c := by
  unfold wireConsistent at hc
  rw [he] at hc
  rcases hc with hc | ⟨hc, hw⟩ | ⟨hc, hv⟩
  · exact Option.noConfusion hc
  · cases Option.some.inj hc
    rcases string_encoder_call L buf f v with ⟨er, h⟩ | ⟨s, h⟩
    · rw [h]; exact Or.inr (Or.inl rfl)
    · rw [h]
      refine Or.inr (Or.inr ⟨f.tagcode ++ (Buffer.EncodeVarint [] s.length ++ s), ?_, ?_⟩)
      · simp only [Buffer.EncodeStringBytes]
        rw [EncodeVarint_append]
        simp
      · rw [htc, hw]
        exact isGroup_bytes n s
  · have hnum : e = .enc_bool ∨ e = .enc_int32 ∨ e = .enc_uint32 ∨ e = .enc_int64
        ∨ e = .enc_float32 ∨ e = .enc_float64 := by
      simpa using hc
    rcases numeric_encoder_call L e buf f v hnum with ⟨er, h⟩ | ⟨x, h⟩
    · rw [h]; exact Or.inr (Or.inl rfl)
    · rw [h]
      unfold Field.callValEnc
      rcases hv with ⟨hw, hv⟩ | ⟨hw, hv⟩ | hv
      · have key : ∀ y, isGroup n (f.tagcode ++ Buffer.EncodeVarint [] y) := by
          intro y
          rw [htc, hw]
          exact isGroup_varint n y
        rcases hv with hv | hv | hv <;> rw [hv] <;> simp only [valueEncoder.call]
        · refine Or.inr (Or.inr ⟨f.tagcode ++ Buffer.EncodeVarint [] x, ?_, key x⟩)
          rw [EncodeVarint_append]
          simp
        · refine Or.inr (Or.inr ⟨f.tagcode ++ Buffer.EncodeVarint [] (zigzag32 x), ?_, key _⟩)
          simp only [Buffer.EncodeZigzag32]
          rw [EncodeVarint_append]
          simp
        · refine Or.inr (Or.inr ⟨f.tagcode ++ Buffer.EncodeVarint [] (zigzag64 x), ?_, key _⟩)
          simp only [Buffer.EncodeZigzag64]
          rw [EncodeVarint_append]
          simp
      · rw [hv]
        simp only [valueEncoder.call]
        refine Or.inr (Or.inr ⟨f.tagcode ++ Buffer.EncodeFixed64 [] x, ?_, ?_⟩)
        · simp [Buffer.EncodeFixed64]
        · rw [htc, hw]
          exact isGroup_fixed64 n x
      · rw [hv]
        exact Or.inl rfl

theorem scan_nil_prefix (rest : List Nat) :
    scanTags ([] ++ rest) = (scanTags rest).map (fun l => [] ++ l) := by
  rw [List.nil_append]
  cases scanTags rest <;> rfl

/-- The bytes the loop of Marshal appends, when it does not panic, are the
groups of some of the fields of `order`, in the order of `order`. -/
theorem marshalLoop_scan (L : Strconv) (fields : List (String × Field))
    (data : List (String × Value))
    (hf : ∀ fn f, fields.lookup fn = some f → ∀ e, f.enc = some e → ∀ v buf,
      (e.call L buf f v).2 = .panic ∨ (e.call L buf f v).1 = buf
        ∨ ∃ c, (e.call L buf f v).1 = buf ++ c ∧ isGroup (tagOf fields fn).toNat c)
    (order : List String) (buf : Buffer)
    (hnp : (marshalLoop L fields data order buf).2 ≠ .panic) :
    ∃ ts bytes, (marshalLoop L fields data order buf).1 = buf ++ bytes
      ∧ (∀ rest, scanTags (bytes ++ rest) = (scanTags rest).map (fun l => ts ++ l))
      ∧ ts.Sublist (order.map (fun fn => (tagOf fields fn).toNat)) := by
  induction order generalizing buf with
  | nil =>
    exact ⟨[], [], by simp [marshalLoop], scan_nil_prefix, by simp⟩
  | cons fn rest ih =>
    have skip : ∀ b, (marshalLoop L fields data rest b).2 ≠ .panic →
        ∃ ts bytes, (marshalLoop L fields data rest b).1 = b ++ bytes
        ∧ (∀ r, scanTags (bytes ++ r) = (scanTags r).map (fun l => ts ++ l))
        ∧ ts.Sublist ((fn :: rest).map (fun fn => (tagOf fields fn).toNat)) := by
      intro b hb
      obtain ⟨ts, bytes, h1, h2, h3⟩ := ih b hb
      exact ⟨ts, bytes, h1, h2, List.Sublist.cons _ h3⟩
    generalize hr : marshalLoop L fields data (fn :: rest) buf = r at hnp ⊢
    unfold marshalLoop at hr
    split at hr
    · subst hr
      exact ⟨[], [], by simp, scan_nil_prefix, by simp⟩
    · rename_i field hl
      split at hr
      · subst hr; exact skip buf hnp
      · subst hr; exact skip buf hnp
      · rename_i v hv hd
        split at hr
        · subst hr; exact skip buf hnp
        · rename_i e he
          have hfe := hf fn field hl e he v buf
          split at hr
          · rename_i b hc
            subst hr
            exact absurd rfl hnp
          · rename_i b st hst hc
            subst hr
            rw [hc] at hfe
            simp only at hfe
            rcases hfe with h0 | h0 | ⟨c, h0, hg⟩
            · exact absurd h0 (fun h => hst (by rw [h]))
            · subst h0
              exact skip b hnp
            · subst h0
              obtain ⟨ts, bytes, h1, h2, h3⟩ := ih (buf ++ c) hnp
              refine ⟨(tagOf fields fn).toNat :: ts, c ++ bytes, ?_, ?_, ?_⟩
              · rw [h1, List.append_assoc]
              · intro r
                rw [List.append_assoc, hg (bytes ++ r), h2 r]
                cases scanTags r <;> rfl
              · exact List.Sublist.cons₂ _ h3

theorem field_init_tag (f0 f : Field) (root : Protobuf) (h : f0.init root = (f, .ok ())) :
    f.Tag = f0.Tag := by
  obtain ⟨w0, f1, w, f2, hw, he, ht⟩ := field_init_ok f0 f root h
  obtain ⟨_, _, a3, _⟩ := wireStep_typ f0 f1 root w0 hw
  obtain ⟨_, _, b3, _⟩ := encStep_cases f1 root w0 w f2 he
  obtain ⟨_, _, c3, _⟩ := tagStep_fields f2 f w ht
  rw [c3, b3, a3]

/-- Compiling a message changes no tag. -/
theorem tagOf_init (p : Protobuf) (m0 : Message) (h : (Message.init p m0).ret = .ok ())
    (fn : String) : tagOf (Message.init p m0).m.Fields fn = tagOf m0.Fields fn := by
  obtain ⟨h1, h2, _⟩ := message_init_fields p m0 h
  unfold tagOf
  cases hl : (Message.init p m0).m.Fields.lookup fn with
  | none =>
    have := h2 fn
    rw [hl] at this
    cases hl0 : m0.Fields.lookup fn with
    | none => rfl
    | some f0 => rw [hl0] at this; exact Bool.noConfusion this
  | some f =>
    obtain ⟨f0, hl0, hi⟩ := h1 fn f hl
    rw [hl0]
    exact field_init_tag f0 f _ hi

theorem tagOf_nonneg (m0 : Message) (hrange : m0.tagsInRange = true) (fn : String) :
    0 ≤ tagOf m0.Fields fn := by
  unfold tagOf
  cases hl : m0.Fields.lookup fn with
  | none => exact le_refl _
  | some f =>
    have hmem := mem_of_lookup _ _ _ hl
    unfold Message.tagsInRange at hrange
    have := List.all_eq_true.1 hrange _ hmem
    simp only [Bool.and_eq_true, decide_eq_true_eq] at this
    simp only
    omega

theorem pairwise_lt_of_sorted (fields : List (String × Field)) (l : List String)
    (hs : l.Sorted (fun a b => tagOf fields a ≤ tagOf fields b))
    (hn : (l.map (tagOf fields)).Nodup) (h0 : ∀ fn, 0 ≤ tagOf fields fn) :
    (l.map (fun fn => (tagOf fields fn).toNat)).Pairwise (· < ·) := by
  have h1 : (l.map (tagOf fields)).Sorted (· ≤ ·) := by
    unfold List.Sorted
    rw [List.pairwise_map]
    exact hs
  have h2 : (l.map (tagOf fields)).Sorted (· < ·) := h1.lt_of_le hn
  unfold List.Sorted at h2
  rw [List.pairwise_map] at h2 ⊢
  exact h2.imp (fun {a b} hab => by
    have := h0 a
    have := h0 b
    omega)

/-- After `Message.init` the tags along `Order` ascend strictly, when the tags
of the fields `Order` lists are distinct and none is negative. -/
theorem order_tags_ascending (p : Protobuf) (m0 : Message)
    (h : (Message.init p m0).ret = .ok ()) (hrange : m0.tagsInRange = true)
    (hdist : m0.orderTagsDistinct = true) :
    ((Message.init p m0).m.Order.map
      (fun fn => (tagOf (Message.init p m0).m.Fields fn).toNat)).Pairwise (· < ·) := by
  obtain ⟨_, hso⟩ := message_init_ok p m0 h
  have htag : tagOf (Message.init p m0).m.Fields = tagOf m0.Fields :=
    funext (tagOf_init p m0 h)
  unfold Message.orderTagsDistinct at hdist
  have hnd : (m0.Order.map (tagOf m0.Fields)).Nodup := of_decide_eq_true hdist
  rw [htag]
  unfold sortOrder at hso
  rw [htag] at hso
  split at hso
  · rename_i hlen
    simp only [Option.some.injEq] at hso
    rw [← hso]
    match hm : m0.Order, hlen with
    | [], _ => simp
    | [a], _ => simp
    | a :: b :: l, hlen =>
      simp only [List.length_cons] at hlen
      omega
  · split at hso
    · simp only [Option.some.injEq] at hso
      rw [← hso]
      haveI : IsTotal String (fun a b => tagOf m0.Fields a ≤ tagOf m0.Fields b) :=
        ⟨fun a b => le_total _ _⟩
      haveI : IsTrans String (fun a b => tagOf m0.Fields a ≤ tagOf m0.Fields b) :=
        ⟨fun a b c hab hbc => le_trans hab hbc⟩
      apply pairwise_lt_of_sorted
      · exact List.sorted_insertionSort _ _
      · exact ((List.perm_insertionSort _ _).map _).nodup_iff.2 hnd
      · exact tagOf_nonneg m0 hrange
    · exact Option.noConfusion hso


/-- A compiled field that is not of type fixed32, sfixed32 or float has a
value encoder, or no encoder at all. -/
theorem field_init_valEnc (f0 f : Field) (root : Protobuf) (h : f0.init root = (f, .ok ()))
    (hfe : f0.enc = none)
    (ht : f0.Typ.Name ≠ "fixed32" ∧ f0.Typ.Name ≠ "sfixed32" ∧ f0.Typ.Name ≠ "float") :
    f.enc = none ∨ ∃ ve, f.valEnc = some ve := by
  obtain ⟨w0, f1, w, f2, hw, he, hts⟩ := field_init_ok f0 f root h
  have hwc := wireStep_cases f0 f1 root w0 hw
  obtain ⟨_, _, _, _, b5, _⟩ := encStep_cases f1 root w0 w f2 he
  obtain ⟨_, _, _, _, _, c6⟩ := tagStep_fields f2 f w hts
  have ev : f.valEnc = f1.valEnc := by rw [c6, b5]
  rw [ev]
  rcases hwc with ⟨_, _, h1⟩ | ⟨_, _, h1⟩ | ⟨_, _, h1⟩ | ⟨_, _, _, h1⟩ | ⟨_, _, _, _, h1⟩
    | ⟨_, _, _, h1, _⟩ | ⟨_, _, _, h1, _⟩
  · exact Or.inr ⟨_, h1⟩
  · exact Or.inr ⟨_, h1⟩
  · exact Or.inr ⟨_, h1⟩
  · exact Or.inr ⟨_, h1⟩
  · exact Or.inr ⟨_, h1⟩
  · rcases h1 with h1 | h1 | h1
    · exact absurd h1 ht.1
    · exact absurd h1 ht.2.1
    · exact absurd h1 ht.2.2
  · exact Or.inl (field_init_google_enc f0 f root h hfe h1)

/-- A compiled field with a value encoder does not panic. -/
theorem field_no_panic (L : Strconv) (f0 f : Field) (root : Protobuf)
    (h : f0.init root = (f, .ok ())) (hfe : f0.enc = none) (ve : valueEncoder)
    (hve : f.valEnc = some ve) (e : encoder) (he : f.enc = some e) (v : Value) (buf : Buffer) :
    (e.call L buf f v).2 ≠ .panic := by
  obtain ⟨_, _, _, _, hc⟩ := field_init_ok_enc f0 f root h hfe
  rw [he] at hc
  have hcase : e = .enc_string ∨ (e = .enc_bool ∨ e = .enc_int32 ∨ e = .enc_uint32
      ∨ e = .enc_int64 ∨ e = .enc_float32 ∨ e = .enc_float64) := by
    rcases hc with ⟨_, h2⟩ | ⟨_, hc⟩
    · exact Option.noConfusion h2
    · rcases hc with ⟨_, h2⟩ | ⟨_, h2⟩ | ⟨_, h2⟩ | ⟨_, h2⟩ | ⟨_, h2⟩ | ⟨_, h2⟩ | ⟨_, h2⟩
        | ⟨_, _, h2⟩ | ⟨_, _, _, h2⟩ | ⟨_, _, _, _, h2⟩
      · cases Option.some.inj h2; simp
      · cases Option.some.inj h2; simp
      · cases Option.some.inj h2; simp
      · cases Option.some.inj h2; simp
      · cases Option.some.inj h2; simp
      · cases Option.some.inj h2; simp
      · cases Option.some.inj h2; simp
      · exact Option.noConfusion h2
      · cases Option.some.inj h2; simp
      · exact Option.noConfusion h2
  rcases hcase with rfl | hnum
  · rcases string_encoder_call L buf f v with ⟨er, h1⟩ | ⟨s, h1⟩ <;> rw [h1] <;> simp
  · rcases numeric_encoder_call L e buf f v hnum with ⟨er, h1⟩ | ⟨x, h1⟩
    · rw [h1]; simp
    · rw [h1]
      unfold Field.callValEnc
      rw [hve]
      simp

theorem marshalLoop_no_panic (L : Strconv) (fields : List (String × Field))
    (data : List (String × Value))
    (hf : ∀ fn f, fields.lookup fn = some f → ∀ e, f.enc = some e → ∀ v buf,
      (e.call L buf f v).2 ≠ .panic)
    (order : List String) (buf : Buffer) :
    (marshalLoop L fields data order buf).2 ≠ .panic := by
  induction order generalizing buf with
  | nil => simp [marshalLoop]
  | cons fn rest ih =>
    generalize hr : marshalLoop L fields data (fn :: rest) buf = r
    unfold marshalLoop at hr
    split at hr
    · subst hr; simp
    · rename_i field hl
      split at hr
      · subst hr; exact ih buf
      · subst hr; exact ih buf
      · rename_i v hv hd
        split at hr
        · subst hr; exact ih buf
        · rename_i e he
          have hfe := hf fn field hl e he v buf
          split at hr
          · rename_i b hc
            rw [hc] at hfe
            exact absurd rfl hfe
          · subst hr; exact ih _

/-- C4, amended. For a message the parser can produce, compiled without
error, whose tags lie in [1, 2^29) and are distinct along Order, in a schema
where no enum is named string or bytes and no message is named fixed32,
sfixed32 or float: Marshal into an empty buffer does not panic when no field is
of type fixed32, sfixed32 or float, and whenever it does not panic the bytes it
wrote are a sequence of tag codes with values whose field numbers ascend
strictly, for every record. -/
theorem marshal_tags_ascending (L : Strconv) (root : Protobuf) (m0 : Message)
    (data : List (String × Value))
    (hun : m0.uncompiled = true) (hinit : (Message.init root m0).ret = .ok ())
    (hrange : m0.tagsInRange = true) (hdist : m0.orderTagsDistinct = true)
    (hclash : noScalarClash (Message.init root m0).p = true) :
    (m0.noFixed32 = true →
      ((Message.init root m0).m.Marshal L (Message.init root m0).p [] data).2 ≠ .panic)
    ∧ (((Message.init root m0).m.Marshal L (Message.init root m0).p [] data).2 ≠ .panic →
      ∃ ts, scanTags
          ((Message.init root m0).m.Marshal L (Message.init root m0).p [] data).1 = some ts
        ∧ ts.Pairwise (· < ·)) := by
  obtain ⟨h1, _, _⟩ := message_init_fields root m0 hinit
  have hfresh : ∀ fn f0, m0.Fields.lookup fn = some f0 → f0.enc = none ∧ f0.valEnc = none := by
    intro fn f0 hl0
    have hmem := mem_of_lookup _ _ _ hl0
    unfold Message.uncompiled at hun
    have hf0 := List.all_eq_true.1 hun _ hmem
    simpa only [Bool.and_eq_true, Option.isNone_iff_eq_none] using hf0
  constructor
  · intro hno
    unfold Message.Marshal
    apply marshalLoop_no_panic
    intro fn f hl e he v buf
    obtain ⟨f0, hl0, hi⟩ := h1 fn f hl
    have hmem := mem_of_lookup _ _ _ hl0
    unfold Message.noFixed32 at hno
    have ht := List.all_eq_true.1 hno _ hmem
    simp only [Bool.and_eq_true, decide_eq_true_eq] at ht
    rcases field_init_valEnc f0 f _ hi (hfresh fn f0 hl0).1 ⟨ht.1.1, ht.1.2, ht.2⟩
      with h0 | ⟨ve, hve⟩
    · rw [h0] at he; exact Option.noConfusion he
    · exact field_no_panic L f0 f _ hi (hfresh fn f0 hl0).1 ve hve e he v buf
  · intro hnp
    unfold Message.Marshal at hnp ⊢
    have hf : ∀ fn f, (Message.init root m0).m.Fields.lookup fn = some f →
        ∀ e, f.enc = some e → ∀ v buf,
        (e.call L buf f v).2 = .panic ∨ (e.call L buf f v).1 = buf
          ∨ ∃ c, (e.call L buf f v).1 = buf ++ c
            ∧ isGroup (tagOf (Message.init root m0).m.Fields fn).toNat c := by
      intro fn f hl e he v buf
      obtain ⟨f0, hl0, hi⟩ := h1 fn f hl
      have hmem := mem_of_lookup _ _ _ hl0
      obtain ⟨w, hw8, htc, hcons⟩ := field_init_wire f0 f _ hi (hfresh fn f0 hl0).1
        (hfresh fn f0 hl0).2 hclash
      unfold Message.tagsInRange at hrange
      have hr := List.all_eq_true.1 hrange _ hmem
      simp only [Bool.and_eq_true, decide_eq_true_eq] at hr
      rw [tagKey_eq f0.Tag w hr.1 hr.2 hw8] at htc
      have htag : tagOf (Message.init root m0).m.Fields fn = f0.Tag := by
        unfold tagOf
        rw [hl]
        exact field_init_tag f0 f _ hi
      rw [htag]
      exact field_writes_group L f w f0.Tag.toNat htc hcons e he v buf
    obtain ⟨ts, bytes, e1, e2, e3⟩ := marshalLoop_scan L _ data hf
      (Message.init root m0).m.Order [] hnp
    refine ⟨ts, ?_, ?_⟩
    · rw [e1, List.nil_append]
      have := e2 []
      rw [List.append_nil] at this
      rw [this]
      simp [scanTags, scanLoop]
    · exact (order_tags_ascending root m0 hinit hrange hdist).sublist e3

/-- C4, the claim refuted.  With the tags 2 and 2^29 + 1, unique and each field
listed once in Order, Marshal writes 10 01 08 01: the field numbers of the tag
codes are 2 then 1, because the tag code keeps only `uint32(Tag) << 3`.  And in
a schema with an enum named string, a string field gets a tag code of wire kind
Varint before its length and bytes: the bytes 10 02 08 01 read as the field
numbers 2 then 1. -/
theorem marshal_tags_not_ascending :
    (Message.init wideProto wideDecl).ret = .ok ()
    ∧ wideDecl.orderTagsDistinct = true
    ∧ ((Message.init wideProto wideDecl).m.Marshal Strconv.decimal
        (Message.init wideProto wideDecl).p [] [("a", .int .int 1), ("b", .int .int 1)])
      = ([0x10, 0x01, 0x08, 0x01], .ok ())
    ∧ scanTags [0x10, 0x01, 0x08, 0x01] = some [2, 1]
    ∧ (Message.init clashProto textDecl).ret = .ok ()
    ∧ ((Message.init clashProto textDecl).m.Marshal Strconv.decimal
        (Message.init clashProto textDecl).p [] [("s", .str [0x08, 0x01])])
      = ([0x10, 0x02, 0x08, 0x01], .ok ())
    ∧ scanTags [0x10, 0x02, 0x08, 0x01] = some [2, 1] := by
  decide

/-- Witness of C4, amended: Pet of the test schema with the record of the test. -/
theorem marshal_tags_ascending_witness :
    petDecl.noFixed32 = true
    ∧ ((Message.init testProto petDecl).m.Marshal Strconv.decimal
        (Message.init testProto petDecl).p [] petRecord).2 ≠ .panic
    ∧ ∃ ts, scanTags ((Message.init testProto petDecl).m.Marshal Strconv.decimal
        (Message.init testProto petDecl).p [] petRecord).1 = some ts ∧ ts.Pairwise (· < ·) :=
  have h := marshal_tags_ascending Strconv.decimal testProto petDecl petRecord
    (by decide) (by decide) (by decide) (by decide) (by decide)
  ⟨by decide, h.1 (by decide), h.2 (h.1 (by decide))⟩

/-! ### The varint writer -/

theorem varintLoop_fuel (x : Nat) : ∀ (fuel : Nat) (p : Buffer), x ≤ fuel →
    varintLoop fuel p x = varintLoop x p x := by
  induction x using Nat.strong_induction_on with
  | _ x ih =>
    intro fuel p h
    have hs : x >>> 7 = x / 128 := by rw [Nat.shiftRight_eq_div_pow]
    cases fuel with
    | zero =>
      have : x = 0 := by omega
      subst this
      rfl
    | succ n =>
      cases x with
      | zero => simp [varintLoop]
      | succ k =>
        unfold varintLoop
        by_cases hx : k + 1 ≥ 1 <<< 7
        · rw [if_pos hx, if_pos hx]
          have hx' : 128 ≤ k + 1 := hx
          have hlt : (k + 1) >>> 7 < k + 1 := by rw [hs]; omega
          rw [ih _ hlt n _ (by omega), ih _ hlt k _ (by omega)]
        · rw [if_neg hx, if_neg hx]

theorem EncodeVarint_step (x : Nat) :
    Buffer.EncodeVarint [] x
      = if x < 128 then [x] else (x % 128 + 128) :: Buffer.EncodeVarint [] (x / 128) := by
  unfold Buffer.EncodeVarint
  cases x with
  | zero => rfl
  | succ k =>
    have hstep : varintLoop (k + 1) [] (k + 1)
        = if k + 1 ≥ 1 <<< 7 then
            varintLoop k ([] ++ [((k + 1) &&& 0x7f ||| 0x80) % 256]) ((k + 1) >>> 7)
          else [] ++ [(k + 1) % 256] := rfl
    rw [hstep]
    by_cases hx : k + 1 ≥ 1 <<< 7
    · have hx' : 128 ≤ k + 1 := hx
      rw [if_pos hx, if_neg (by omega), varint_byte, varintLoop_append]
      have hs : (k + 1) >>> 7 = (k + 1) / 128 := by rw [Nat.shiftRight_eq_div_pow]
      rw [hs, varintLoop_fuel ((k + 1) / 128) k [] (by omega)]
      rfl
    · have hx' : ¬ 128 ≤ k + 1 := hx
      rw [if_neg hx, if_pos (by omega), Nat.mod_eq_of_lt (by omega)]
      rfl

theorem EncodeVarint_length (n x : Nat) (hn : 1 ≤ n) (hx : x < 128 ^ n) :
    1 ≤ (Buffer.EncodeVarint [] x).length ∧ (Buffer.EncodeVarint [] x).length ≤ n := by
  induction n generalizing x with
  | zero => omega
  | succ m ih =>
    rw [EncodeVarint_step]
    by_cases h : x < 128
    · rw [if_pos h]
      simp
    · rw [if_neg h]
      have hm : 1 ≤ m := by
        by_contra hc
        have : m = 0 := by omega
        subst this
        simp at hx
        omega
      have hx2 : x / 128 < 128 ^ m := by
        apply Nat.div_lt_of_lt_mul
        rw [pow_succ] at hx
        omega
      have := ih (x / 128) hm hx2
      simp only [List.length_cons]
      omega

theorem EncodeVarint_value (x : Nat) : varintValue (Buffer.EncodeVarint [] x) = x := by
  induction x using Nat.strong_induction_on with
  | _ x ih =>
    rw [EncodeVarint_step]
    by_cases h : x < 128
    · rw [if_pos h]
      simp only [varintValue]
      omega
    · rw [if_neg h]
      simp only [varintValue]
      rw [ih (x / 128) (by omega)]
      omega

theorem EncodeVarint_bytes (x : Nat) :
    (∀ b ∈ (Buffer.EncodeVarint [] x).dropLast, 128 ≤ b ∧ b < 256)
    ∧ ∃ l, (Buffer.EncodeVarint [] x).getLast? = some l ∧ l < 128 ∧ (l = 0 → x = 0) := by
  induction x using Nat.strong_induction_on with
  | _ x ih =>
    rw [EncodeVarint_step]
    by_cases h : x < 128
    · rw [if_pos h]
      exact ⟨by simp, x, rfl, h, fun h0 => h0⟩
    · rw [if_neg h]
      obtain ⟨h1, l, h2, h3, h4⟩ := ih (x / 128) (by omega)
      have hne : Buffer.EncodeVarint [] (x / 128) ≠ [] := by
        intro hc
        rw [hc] at h2
        simp at h2
      obtain ⟨c, cs, hcs⟩ := List.exists_cons_of_ne_nil hne
      rw [hcs] at h1 h2 ⊢
      refine ⟨?_, l, ?_, h3, ?_⟩
      · intro b hb
        simp only [List.dropLast_cons₂, List.mem_cons] at hb
        rcases hb with hb | hb
        · omega
        · exact h1 b hb
      · rw [List.getLast?_cons_cons]
        exact h2
      · intro h0
        have := h4 h0
        omega

/-- C14. For every 64-bit unsigned x, EncodeVarint terminates (any bound on the
iterations from x upwards gives the same bytes) and appends to the buffer, whose
bytes it leaves alone, between 1 and maxVarintBytes = 10 bytes: every byte but
the last has its high bit set, the last has it clear and is non-zero unless
x = 0, the sum of (b_i mod 128) * 128^i is x, and the base-128 reader reads x
back and stops right behind them. -/
theorem encodeVarint_wire_format (p : Buffer) (x : Nat) (hx : x < 2 ^ 64) :
    (∀ fuel, x ≤ fuel → varintLoop fuel p x = Buffer.EncodeVarint p x)
    ∧ Buffer.EncodeVarint p x = p ++ Buffer.EncodeVarint [] x
    ∧ 1 ≤ (Buffer.EncodeVarint [] x).length
    ∧ (Buffer.EncodeVarint [] x).length ≤ maxVarintBytes
    ∧ (∀ b ∈ (Buffer.EncodeVarint [] x).dropLast, 128 ≤ b ∧ b < 256)
    ∧ (∃ l, (Buffer.EncodeVarint [] x).getLast? = some l ∧ l < 128 ∧ (l = 0 → x = 0))
    ∧ varintValue (Buffer.EncodeVarint [] x) = x
    ∧ (∀ rest, decodeVarint (Buffer.EncodeVarint [] x ++ rest) = some (x, rest)) := by
  have hlen := EncodeVarint_length 10 x (by norm_num) (by omega)
  have hb := EncodeVarint_bytes x
  exact ⟨fun fuel h => varintLoop_fuel x fuel p h, EncodeVarint_append p x, hlen.1, hlen.2,
    hb.1, hb.2, EncodeVarint_value x, decodeVarint_EncodeVarint x⟩

/-- Witness of C14: 300 appended to a buffer that holds one byte. -/
theorem encodeVarint_wire_format_witness :
    (300 : Nat) < 2 ^ 64
    ∧ Buffer.EncodeVarint [7] 300 = [7] ++ Buffer.EncodeVarint [] 300
    ∧ Buffer.EncodeVarint [] 300 = [0xAC, 0x02]
    ∧ varintValue (Buffer.EncodeVarint [] 300) = 300 :=
  have h := encodeVarint_wire_format [7] 300 (by norm_num)
  ⟨by norm_num, h.2.1, by decide, h.2.2.2.2.2.2.1⟩

/-! ### The zigzag mapping -/

theorem xor_ones (k y : Nat) (h : y < 2 ^ k) : y ^^^ (2 ^ k - 1) = 2 ^ k - 1 - y := by
  apply Nat.eq_of_testBit_eq
  intro i
  have e : 2 ^ k - 1 - y = 2 ^ k - (y + 1) := by omega
  rw [Nat.testBit_xor, Nat.testBit_two_pow_sub_one, e, Nat.testBit_two_pow_sub_succ h]
  by_cases hi : i < k
  · simp [hi]
  · have hy : y < 2 ^ i := lt_of_lt_of_le h (Nat.pow_le_pow_right (by norm_num) (by omega))
    simp [hi, Nat.testBit_lt_two_pow hy]

theorem zigzag64_eq (x : Nat) (hx : x < 2 ^ 64) :
    zigzag64 x = if x < 2 ^ 63 then 2 * x else 2 ^ 65 - 1 - 2 * x := by
  unfold zigzag64
  rw [Nat.mod_eq_of_lt hx, Nat.shiftLeft_eq]
  by_cases h : x < 2 ^ 63
  · rw [if_pos h, if_neg (by omega), Nat.xor_zero, Nat.mod_eq_of_lt (by omega)]
    omega
  · rw [if_neg h, if_pos (by omega), xor_ones 64 _ (Nat.mod_lt _ (by norm_num))]
    omega

theorem zigzag32_eq (x : Nat) :
    zigzag32 x = if x % 2 ^ 32 < 2 ^ 31 then 2 * (x % 2 ^ 32)
      else 2 ^ 33 - 1 - 2 * (x % 2 ^ 32) := by
  unfold zigzag32
  have hx : x % 2 ^ 32 < 2 ^ 32 := Nat.mod_lt _ (by norm_num)
  rw [Nat.shiftLeft_eq]
  by_cases h : x % 2 ^ 32 < 2 ^ 31
  · rw [if_pos h, if_neg (by omega), Nat.xor_zero, Nat.mod_eq_of_lt (by omega)]
    omega
  · rw [if_neg h, if_pos (by omega), xor_ones 32 _ (Nat.mod_lt _ (by norm_num))]
    omega

theorem unzigzag64_eq (z : Nat) (hz : z < 2 ^ 64) :
    unzigzag64 z = if z % 2 = 0 then z / 2 else 2 ^ 64 - 1 - z / 2 := by
  unfold unzigzag64
  have h1 : z &&& 1 = z % 2 := Nat.and_pow_two_sub_one_eq_mod z 1
  have h2 : z >>> 1 = z / 2 := by rw [Nat.shiftRight_eq_div_pow, pow_one]
  rw [h1, h2]
  by_cases h : z % 2 = 0
  · rw [if_pos h, h]
    simp
  · have h3 : z % 2 = 1 := by omega
    rw [if_neg h, h3]
    exact xor_ones 64 (z / 2) (by omega)

theorem unzigzag32_eq (z : Nat) (hz : z < 2 ^ 32) :
    unzigzag32 z = if z % 2 = 0 then z / 2 else 2 ^ 32 - 1 - z / 2 := by
  unfold unzigzag32
  have h1 : z &&& 1 = z % 2 := Nat.and_pow_two_sub_one_eq_mod z 1
  have h2 : z >>> 1 = z / 2 := by rw [Nat.shiftRight_eq_div_pow, pow_one]
  rw [h1, h2]
  by_cases h : z % 2 = 0
  · rw [if_pos h, h]
    simp
  · have h3 : z % 2 = 1 := by omega
    rw [if_neg h, h3]
    exact xor_ones 32 (z / 2) (by omega)

/-- C15. The zigzag mapping interleaves the signs and is undone by
(z >> 1) ^ -(z & 1).  For a signed 64-bit n handed over as its two's-complement
uint64, EncodeZigzag64 writes the varint of z = 2n when n >= 0 and of
z = -2n - 1 when n < 0, and the formula gives back n (as uint64).  For a signed
32-bit k handed over sign-extended to uint64, EncodeZigzag32 writes the varint
of the z given by the same rule, which is below 2^32, takes at most 5 bytes, and
from which the formula at width 32 gives back k (as uint32). -/
theorem zigzag_interleaves_signs (p : Buffer) (n k : Int)
    (hn1 : -2 ^ 63 ≤ n) (hn2 : n < 2 ^ 63) (hk1 : -2 ^ 31 ≤ k) (hk2 : k < 2 ^ 31) :
    (Buffer.EncodeZigzag64 p (toUint64 n) = Buffer.EncodeVarint p (zigzag64 (toUint64 n))
      ∧ (zigzag64 (toUint64 n) : Int) = (if 0 ≤ n then 2 * n else -2 * n - 1)
      ∧ unzigzag64 (zigzag64 (toUint64 n)) = toUint64 n)
    ∧ (Buffer.EncodeZigzag32 p (toUint64 k) = Buffer.EncodeVarint p (zigzag32 (toUint64 k))
      ∧ (zigzag32 (toUint64 k) : Int) = (if 0 ≤ k then 2 * k else -2 * k - 1)
      ∧ unzigzag32 (zigzag32 (toUint64 k)) = toUint32 k
      ∧ zigzag32 (toUint64 k) < 2 ^ 32
      ∧ (Buffer.EncodeVarint [] (zigzag32 (toUint64 k))).length ≤ 5) := by
  constructor
  · refine ⟨rfl, ?_⟩
    have hx : toUint64 n < 2 ^ 64 := by unfold toUint64; omega
    have hz := zigzag64_eq (toUint64 n) hx
    by_cases h : 0 ≤ n
    · have e : toUint64 n = n.toNat := by unfold toUint64; omega
      rw [if_pos (by omega)] at hz
      have hz64 : zigzag64 (toUint64 n) < 2 ^ 64 := by omega
      rw [unzigzag64_eq _ hz64, if_pos h, hz]
      constructor
      · omega
      · rw [if_pos (by omega)]; omega
    · have e : (toUint64 n : Int) = 2 ^ 64 + n := by unfold toUint64; omega
      rw [if_neg (by omega)] at hz
      have hz64 : zigzag64 (toUint64 n) < 2 ^ 64 := by omega
      rw [unzigzag64_eq _ hz64, if_neg h, hz]
      constructor
      · omega
      · rw [if_neg (by omega)]; omega
  · refine ⟨rfl, ?_⟩
    have hz := zigzag32_eq (toUint64 k)
    have e32 : toUint64 k % 2 ^ 32 = toUint32 k := by unfold toUint64 toUint32; omega
    rw [e32] at hz
    have hx : toUint32 k < 2 ^ 32 := by unfold toUint32; omega
    have hlen : ∀ z, z < 2 ^ 32 → (Buffer.EncodeVarint [] z).length ≤ 5 :=
      fun z hz => (EncodeVarint_length 5 z (by norm_num) (by omega)).2
    by_cases h : 0 ≤ k
    · have e : toUint32 k = k.toNat := by unfold toUint32; omega
      rw [if_pos (by omega)] at hz
      have hz32 : zigzag32 (toUint64 k) < 2 ^ 32 := by omega
      rw [unzigzag32_eq _ hz32, if_pos h, hz]
      refine ⟨by omega, ?_, by omega, ?_⟩
      · rw [if_pos (by omega)]; omega
      · rw [← hz]; exact hlen _ hz32
    · have e : (toUint32 k : Int) = 2 ^ 32 + k := by unfold toUint32; omega
      rw [if_neg (by omega)] at hz
      have hz32 : zigzag32 (toUint64 k) < 2 ^ 32 := by omega
      rw [unzigzag32_eq _ hz32, if_neg h, hz]
      refine ⟨by omega, ?_, by omega, ?_⟩
      · rw [if_neg (by omega)]; omega
      · rw [← hz]; exact hlen _ hz32

/-- Witness of C15: n = -2 in 64 bit and k = -3 in 32 bit, both sign-extended. -/
theorem zigzag_interleaves_signs_witness :
    toUint64 (-2) = 2 ^ 64 - 2 ∧ zigzag64 (toUint64 (-2)) = 3
    ∧ unzigzag64 (zigzag64 (toUint64 (-2))) = toUint64 (-2)
    ∧ zigzag32 (toUint64 (-3)) = 5
    ∧ unzigzag32 (zigzag32 (toUint64 (-3))) = toUint32 (-3) :=
  have h := zigzag_interleaves_signs [] (-2) (-3) (by norm_num) (by norm_num) (by norm_num)
    (by norm_num)
  ⟨by decide, by decide, h.1.2.2, by decide, h.2.2.2.1⟩

/-! ### The fixed-width writers -/

theorem EncodeFixed64_value (x : Nat) (hx : x < 2 ^ 64) :
    leValue (Buffer.EncodeFixed64 [] x) = x := by
  unfold Buffer.EncodeFixed64
  simp only [List.nil_append, leValue, Nat.shiftRight_eq_div_pow]
  norm_num
  omega

theorem EncodeFixed32_value (x : Nat) :
    leValue (Buffer.EncodeFixed32 [] x) = x % 2 ^ 32 := by
  unfold Buffer.EncodeFixed32
  simp only [List.nil_append, leValue, Nat.shiftRight_eq_div_pow]
  norm_num
  omega

/-- C16. For every uint64 x, EncodeFixed64 appends to the buffer, whose bytes it
leaves alone, exactly the 8 bytes b_i = (x >> 8i) mod 256, whose little-endian
value is x; EncodeFixed32 appends exactly 4 bytes whose little-endian value is
x mod 2^32; two values below 2^64 with the same 8 bytes are equal, and so are
two values below 2^32 with the same 4 bytes. -/
theorem encodeFixed_little_endian (p : Buffer) (x y : Nat) (hx : x < 2 ^ 64) (hy : y < 2 ^ 64) :
    (Buffer.EncodeFixed64 p x = p ++ Buffer.EncodeFixed64 [] x
      ∧ (Buffer.EncodeFixed64 [] x).length = 8
      ∧ (∀ i, i < 8 → (Buffer.EncodeFixed64 [] x).get? i = some ((x >>> (8 * i)) % 256))
      ∧ leValue (Buffer.EncodeFixed64 [] x) = x)
    ∧ (Buffer.EncodeFixed32 p x = p ++ Buffer.EncodeFixed32 [] x
      ∧ (Buffer.EncodeFixed32 [] x).length = 4
      ∧ (∀ i, i < 4 → (Buffer.EncodeFixed32 [] x).get? i = some ((x >>> (8 * i)) % 256))
      ∧ leValue (Buffer.EncodeFixed32 [] x) = x % 2 ^ 32)
    ∧ (Buffer.EncodeFixed64 p x = Buffer.EncodeFixed64 p y → x = y)
    ∧ (x < 2 ^ 32 → y < 2 ^ 32 → Buffer.EncodeFixed32 p x = Buffer.EncodeFixed32 p y → x = y) := by
  refine ⟨⟨rfl, rfl, ?_, EncodeFixed64_value x hx⟩, ⟨rfl, rfl, ?_, EncodeFixed32_value x⟩, ?_, ?_⟩
  · intro i hi
    interval_cases i <;> rfl
  · intro i hi
    interval_cases i <;> rfl
  · intro h
    have h1 : Buffer.EncodeFixed64 [] x = Buffer.EncodeFixed64 [] y :=
      List.append_cancel_left h
    rw [← EncodeFixed64_value x hx, h1, EncodeFixed64_value y hy]
  · intro hx2 hy2 h
    have h1 : Buffer.EncodeFixed32 [] x = Buffer.EncodeFixed32 [] y :=
      List.append_cancel_left h
    have h2 := EncodeFixed32_value x
    rw [h1, EncodeFixed32_value y] at h2
    omega

/-- Witness of C16: the values 0x0102030405060708 and 1. -/
theorem encodeFixed_little_endian_witness :
    Buffer.EncodeFixed64 [9] 0x0102030405060708 = [9, 8, 7, 6, 5, 4, 3, 2, 1]
    ∧ Buffer.EncodeFixed32 [9] 0x0102030405060708 = [9, 8, 7, 6, 5]
    ∧ leValue (Buffer.EncodeFixed64 [] 0x0102030405060708) = 0x0102030405060708
    ∧ leValue (Buffer.EncodeFixed32 [] 0x0102030405060708) = 0x0102030405060708 % 2 ^ 32 :=
  have h := encodeFixed_little_endian [9] 0x0102030405060708 1 (by norm_num) (by norm_num)
  ⟨by decide, by decide, h.1.2.2.2, h.2.1.2.2.2⟩

/-! ### Wire kind, value encoder and tag code of a compiled field -/

theorem wireStep_spec (f f1 : Field) (root : Protobuf) (w : Nat)
    (h : f.wireStep root = some (w, f1)) :
    (isVarintType root f.Typ.Name → w = WireVarint
        ∧ (f.Typ.Name = "sint32" → f1.valEnc = some .EncodeZigzag32)
        ∧ (f.Typ.Name = "sint64" → f1.valEnc = some .EncodeZigzag64)
        ∧ (f.Typ.Name ≠ "sint32" → f.Typ.Name ≠ "sint64" → f1.valEnc = some .EncodeVarint))
    ∧ (¬ isVarintType root f.Typ.Name → isFixed64Type f.Typ.Name → w = WireFixed64)
    ∧ (¬ isVarintType root f.Typ.Name → ¬ isFixed64Type f.Typ.Name →
        isBytesType root f.Typ.Name → w = WireBytes)
    ∧ (¬ isVarintType root f.Typ.Name → ¬ isFixed64Type f.Typ.Name →
        ¬ isBytesType root f.Typ.Name → isFixed32Type f.Typ.Name → w = WireFixed32)
    ∧ (¬ isVarintType root f.Typ.Name → ¬ isFixed64Type f.Typ.Name →
        ¬ isBytesType root f.Typ.Name → ¬ isFixed32Type f.Typ.Name → w = WireBytes) := by
  unfold Field.wireStep at h
  dsimp only at h
  unfold isVarintType isFixed64Type isBytesType isFixed32Type
  generalize f.Typ.Name = t at *
  by_cases c1 : t = "int32" ∨ t = "int64" ∨ t = "uint32" ∨ t = "uint64" ∨
      t = "sint32" ∨ t = "sint64" ∨ t = "bool" ∨ root.hasEnum t = true
  · rw [if_pos c1] at h
    refine ⟨fun _ => ?_, fun n => absurd c1 n, fun n => absurd c1 n, fun n => absurd c1 n,
      fun n => absurd c1 n⟩
    by_cases s1 : t = "sint32"
    · rw [if_pos s1] at h
      simp only [Option.some.injEq, Prod.mk.injEq] at h
      obtain ⟨rfl, rfl⟩ := h
      refine ⟨rfl, fun _ => rfl, fun s2 => ?_, fun n => absurd s1 n⟩
      rw [s1] at s2
      exact absurd s2 (by decide)
    rw [if_neg s1] at h
    by_cases s2 : t = "sint64"
    · rw [if_pos s2] at h
      simp only [Option.some.injEq, Prod.mk.injEq] at h
      obtain ⟨rfl, rfl⟩ := h
      exact ⟨rfl, fun s => absurd s s1, fun _ => rfl, fun _ n => absurd s2 n⟩
    rw [if_neg s2] at h
    simp only [Option.some.injEq, Prod.mk.injEq] at h
    obtain ⟨rfl, rfl⟩ := h
    exact ⟨rfl, fun s => absurd s s1, fun s => absurd s s2, fun _ _ => rfl⟩
  rw [if_neg c1] at h
  refine ⟨fun c => absurd c c1, ?_⟩
  by_cases c2 : t = "fixed64" ∨ t = "sfixed64" ∨ t = "double"
  · rw [if_pos c2] at h
    simp only [Option.some.injEq, Prod.mk.injEq] at h
    obtain ⟨rfl, rfl⟩ := h
    exact ⟨fun _ _ => rfl, fun _ n => absurd c2 n, fun _ n => absurd c2 n,
      fun _ n => absurd c2 n⟩
  rw [if_neg c2] at h
  refine ⟨fun _ c => absurd c c2, ?_⟩
  by_cases c3 : t = "string" ∨ t = "bytes" ∨ root.hasMessage t = true
  · rw [if_pos c3] at h
    simp only [Option.some.injEq, Prod.mk.injEq] at h
    obtain ⟨rfl, rfl⟩ := h
    exact ⟨fun _ _ _ => rfl, fun _ _ n => absurd c3 n, fun _ _ n => absurd c3 n⟩
  rw [if_neg c3] at h
  refine ⟨fun _ _ c => absurd c c3, ?_⟩
  by_cases c4 : t = "fixed32" ∨ t = "sfixed32" ∨ t = "float"
  · rw [if_pos c4] at h
    simp only [Option.some.injEq, Prod.mk.injEq] at h
    obtain ⟨rfl, rfl⟩ := h
    exact ⟨fun _ _ _ _ => rfl, fun _ _ _ n => absurd c4 n⟩
  rw [if_neg c4] at h
  refine ⟨fun _ _ _ c => absurd c c4, ?_⟩
  by_cases c5 : hasPrefix t "google.protobuf." = true
  · rw [if_pos c5] at h
    simp only [Option.some.injEq, Prod.mk.injEq] at h
    obtain ⟨rfl, rfl⟩ := h
    exact fun _ _ _ _ => rfl
  rw [if_neg c5] at h
  exact Option.noConfusion h

theorem wireStep_lt (f f1 : Field) (root : Protobuf) (w : Nat)
    (h : f.wireStep root = some (w, f1)) : w < 8 := by
  rcases wireStep_cases f f1 root w h with h' | h' | h' | h' | h' | h' | h'
  · rw [h'.2.1]; decide
  · rw [h'.2.1]; decide
  · rw [h'.2.1]; decide
  · rw [h'.2.2.1]; decide
  · rw [h'.2.2.2.1]; decide
  · rw [h'.2.2.2.2.1]; decide
  · rw [h'.2.2.2.2.1]; decide

theorem encStep_lt (f f' : Field) (root : Protobuf) (w w' : Nat) (hw : w < 8)
    (h : f.encStep root w = some (w', f')) : w' < 8 := by
  obtain ⟨_, _, _, _, _, _, h' | h'⟩ := encStep_cases f root w w' f' h
  · rw [h'.2.1]; decide
  · rw [h'.2.1]; exact hw

theorem tagKey_lt (tag : Int) (w : Nat) (hw : w < 8) :
    (toUint32 tag <<< 3) % 2 ^ 32 ||| w < 2 ^ 32 :=
  Nat.or_lt_two_pow (Nat.mod_lt _ (by norm_num)) (by omega)

/-- The index into the scratch array stays in range: the third part of
`Field.init` never fails. -/
theorem tagStep_isSome (f : Field) (w : Nat) (hw : w < 8) : ∃ f', f.tagStep w = some f' := by
  unfold Field.tagStep
  dsimp only
  generalize hk : (toUint32 f.Tag <<< 3) % 2 ^ 32 ||| w = key
  have hkey : key < 128 ^ 8 := by
    have := tagKey_lt f.Tag w hw
    rw [hk] at this
    omega
  obtain ⟨tb', i', x', h1, h2, _⟩ := tagLoop_spec key (List.replicate 8 0) 0 key
    (Nat.le_refl _) (by simp) (by simpa using hkey)
  rw [h1]
  simp only [if_pos h2]
  exact ⟨_, rfl⟩

theorem field_init_no_panic (f : Field) (root : Protobuf) : (f.init root).2 ≠ .panic := by
  unfold Field.init
  split
  · simp
  · rename_i w0 f1 hw
    split
    · simp
    · rename_i k f2 he
      obtain ⟨f', hf'⟩ := tagStep_isSome f2 k
        (encStep_lt f1 f2 root w0 k (wireStep_lt f f1 root w0 hw) he)
      rw [hf']
      simp

theorem tagKey_low (tag : Int) (w : Nat) (hw : w < 8) :
    ((toUint32 tag <<< 3) % 2 ^ 32 ||| w) &&& 7 = w := by
  have e : (toUint32 tag <<< 3) % 2 ^ 32 = 2 ^ 3 * (toUint32 tag % 2 ^ 29) := by
    rw [Nat.shiftLeft_eq]
    omega
  rw [e, ← Nat.mul_add_lt_is_or (i := 3) hw]
  exact (tagKey_split _ w hw).2

theorem EncodeVarint_head (x : Nat) :
    ∃ b, (Buffer.EncodeVarint [] x).head? = some b ∧ b &&& 7 = x &&& 7 := by
  have e : ∀ y, y &&& 7 = y % 8 := fun y => Nat.and_pow_two_sub_one_eq_mod y 3
  rw [EncodeVarint_step]
  by_cases h : x < 128
  · rw [if_pos h]
    exact ⟨x, rfl, rfl⟩
  · rw [if_neg h]
    refine ⟨x % 128 + 128, rfl, ?_⟩
    rw [e, e]
    omega

/-- After `Field.init` succeeds, the tag code is the varint of a key whose low
three bits, which are the low three bits of its first byte, hold the wire kind:
Bytes for every repeated field; for a non-repeated field the one of the first
branch of the if-chain that applies: Varint for the integer types, bool and
enum names, Fixed64 for fixed64, sfixed64 and double, Bytes for string, bytes,
message names and google.protobuf names, Fixed32 for fixed32, sfixed32 and
float.  The value encoder is zigzag32 for sint32, zigzag64 for sint64 and the
plain varint for the other names of the first branch. -/
theorem field_init_wire_kind (f0 f : Field) (root : Protobuf)
    (h : f0.init root = (f, .ok ())) :
    ∃ key k b, f.tagcode = Buffer.EncodeVarint [] key ∧ key &&& 7 = k
      ∧ f.tagcode.head? = some b ∧ b &&& 7 = k
      ∧ (f0.Repeated = true → k = WireBytes)
      ∧ (f0.Repeated = false →
          (isVarintType root f0.Typ.Name → k = WireVarint)
          ∧ (¬ isVarintType root f0.Typ.Name → isFixed64Type f0.Typ.Name → k = WireFixed64)
          ∧ (¬ isVarintType root f0.Typ.Name → ¬ isFixed64Type f0.Typ.Name →
              isBytesType root f0.Typ.Name ∨ hasPrefix f0.Typ.Name "google.protobuf." = true →
              k = WireBytes)
          ∧ (¬ isVarintType root f0.Typ.Name → ¬ isFixed64Type f0.Typ.Name →
              ¬ isBytesType root f0.Typ.Name → isFixed32Type f0.Typ.Name → k = WireFixed32))
      ∧ (f0.Typ.Name = "sint32" → f.valEnc = some .EncodeZigzag32)
      ∧ (f0.Typ.Name = "sint64" → f.valEnc = some .EncodeZigzag64)
      ∧ (isVarintType root f0.Typ.Name → f0.Typ.Name ≠ "sint32" → f0.Typ.Name ≠ "sint64" →
          f.valEnc = some .EncodeVarint) := by
  obtain ⟨w0, f1, k, f2, hw, he, ht⟩ := field_init_ok f0 f root h
  obtain ⟨_, a2, _, _, _, _⟩ := wireStep_typ f0 f1 root w0 hw
  obtain ⟨_, _, _, _, b5, _, hrep⟩ := encStep_cases f1 root w0 k f2 he
  obtain ⟨_, _, _, _, _, c6⟩ := tagStep_fields f2 f k ht
  have hk8 : k < 8 := encStep_lt f1 f2 root w0 k (wireStep_lt f0 f1 root w0 hw) he
  have htc := tagStep_tagcode f2 f k hk8 ht
  obtain ⟨b, hb1, hb2⟩ := EncodeVarint_head ((toUint32 f2.Tag <<< 3) % 2 ^ 32 ||| k)
  obtain ⟨s1, s2, s3, s4, s5⟩ := wireStep_spec f0 f1 root w0 hw
  have hv : f.valEnc = f1.valEnc := by rw [c6, b5]
  refine ⟨_, k, b, htc, tagKey_low f2.Tag k hk8, by rw [htc]; exact hb1,
    by rw [hb2]; exact tagKey_low f2.Tag k hk8, ?_, ?_, ?_, ?_, ?_⟩
  · intro hr
    rcases hrep with h' | h'
    · exact h'.2.1
    · rw [a2, hr] at h'
      exact Bool.noConfusion h'.1
  · intro hr
    have hk : k = w0 := by
      rcases hrep with h' | h'
      · rw [a2, hr] at h'
        exact Bool.noConfusion h'.1
      · exact h'.2.1
    rw [hk]
    refine ⟨fun c1 => (s1 c1).1, s2, ?_, s4⟩
    intro n1 n2 c
    by_cases c3 : isBytesType root f0.Typ.Name
    · exact s3 n1 n2 c3
    · rcases c with c | c
      · exact absurd c c3
      · have hns := hasPrefix_google_not_scalar _ c
        refine s5 n1 n2 c3 ?_
        intro c4
        apply hns
        unfold scalarName
        unfold isFixed32Type at c4
        rcases c4 with c4 | c4 | c4 <;> simp [c4]
  · intro ht32
    rw [hv]
    exact (s1 (by unfold isVarintType; simp [ht32])).2.1 ht32
  · intro ht64
    rw [hv]
    exact (s1 (by unfold isVarintType; simp [ht64])).2.2.1 ht64
  · intro c1 n32 n64
    rw [hv]
    exact (s1 c1).2.2.2 n32 n64

/-- C11. In a schema with an enum named double, `Field.init` takes the enum
branch for a non-repeated field `double d = 1`: wire kind Varint (tag code 08)
and the plain varint as value encoder, while its switch gives the field
enc_float64.  Marshal of 1.0 writes 08 and the nine-byte varint of the bits of
1.0, not 09 and their eight little-endian bytes, the fixed64 format that
encode.go documents for double and that the same field gets in a schema
without that enum. -/
theorem field_init_double_enum_varint :
    doubleEnumProto.hasEnum "double" = true
    ∧ (declField "d" 1 "double" false).Repeated = false
    ∧ ((declField "d" 1 "double" false).init doubleEnumProto).2 = .ok ()
    ∧ ((declField "d" 1 "double" false).init doubleEnumProto).1.tagcode = [0x08]
    ∧ 0x08 &&& 7 = WireVarint
    ∧ ((declField "d" 1 "double" false).init doubleEnumProto).1.valEnc = some .EncodeVarint
    ∧ ((declField "d" 1 "double" false).init doubleEnumProto).1.enc = some .enc_float64
    ∧ (Message.init doubleEnumProto doubleDecl).ret = .ok ()
    ∧ ((Message.init doubleEnumProto doubleDecl).m.Marshal Strconv.decimal
        (Message.init doubleEnumProto doubleDecl).p [] [("d", .float64 0x3FF0000000000000)])
      = ([0x08, 0x80, 0x80, 0x80, 0x80, 0x80, 0x80, 0x80, 0xF8, 0x3F], .ok ())
    ∧ Buffer.EncodeVarint [] (1 <<< 3 ||| WireFixed64) = [0x09]
    ∧ Buffer.EncodeFixed64 [0x09] 0x3FF0000000000000
        = [0x09, 0x00, 0x00, 0x00, 0x00, 0x00, 0x00, 0xF0, 0x3F]
    ∧ ((declField "d" 1 "double" false).init testProto).1.tagcode = [0x09]
    ∧ ((declField "d" 1 "double" false).init testProto).1.valEnc = some .EncodeFixed64 := by
  decide

/-- The wire kind of the field `string name = 2` of Pet in the test schema,
whose tag code is 12. -/
theorem field_init_wire_kind_witness :
    ((declField "name" 2 "string" false).init testProto).2 = .ok ()
    ∧ ∃ key k b, ((declField "name" 2 "string" false).init testProto).1.tagcode
          = Buffer.EncodeVarint [] key
        ∧ key &&& 7 = k
        ∧ ((declField "name" 2 "string" false).init testProto).1.tagcode.head? = some b
        ∧ b &&& 7 = k :=
  have h := field_init_wire_kind (declField "name" 2 "string" false)
    ((declField "name" 2 "string" false).init testProto).1 testProto rfl
  ⟨by decide, by
    obtain ⟨key, k, b, h1, h2, h3, h4, _⟩ := h
    exact ⟨key, k, b, h1, h2, h3, h4⟩⟩

/-- C12. For every field with 1 <= Tag < 2^29 whose type `Field.init` accepts,
with wire kind k: `Field.init` succeeds, and the tag code it leaves is exactly
what EncodeVarint appends to an empty buffer for (Tag << 3) | k, between 1 and
5 bytes.  The index into the 8-byte scratch array never leaves its range:
`Field.init` panics on no field, whatever its tag. -/
theorem tagcode_is_varint_of_key (f0 f1 f2 : Field) (root : Protobuf) (w0 k : Nat)
    (h1 : 1 ≤ f0.Tag) (h2 : f0.Tag < 2 ^ 29)
    (hw : f0.wireStep root = some (w0, f1)) (he : f1.encStep root w0 = some (k, f2)) :
    (f0.init root).2 = .ok ()
    ∧ (f0.init root).1.tagcode = Buffer.EncodeVarint [] (f0.Tag.toNat <<< 3 ||| k)
    ∧ 1 ≤ (f0.init root).1.tagcode.length
    ∧ (f0.init root).1.tagcode.length ≤ 5
    ∧ ∀ (g : Field) (r : Protobuf), (g.init r).2 ≠ .panic := by
  have hk8 : k < 8 := encStep_lt f1 f2 root w0 k (wireStep_lt f0 f1 root w0 hw) he
  obtain ⟨f, hf⟩ := tagStep_isSome f2 k hk8
  have hi : f0.init root = (f, .ok ()) := by
    unfold Field.init
    rw [hw]
    simp only [he, hf]
  obtain ⟨_, _, a3, _⟩ := wireStep_typ f0 f1 root w0 hw
  obtain ⟨_, _, b3, _⟩ := encStep_cases f1 root w0 k f2 he
  have htc := tagStep_tagcode f2 f k hk8 hf
  rw [b3, a3] at htc
  have hlen := EncodeVarint_length 5 _ (by norm_num)
    (lt_of_lt_of_le (tagKey_lt f0.Tag k hk8) (by norm_num))
  rw [← htc] at hlen
  rw [tagKey_eq f0.Tag k h1 h2 hk8] at htc
  have hkey : f0.Tag.toNat <<< 3 ||| k = 2 ^ 3 * f0.Tag.toNat + k := by
    rw [Nat.shiftLeft_eq, Nat.mul_comm]
    exact (Nat.mul_add_lt_is_or (i := 3) hk8 f0.Tag.toNat).symm
  rw [hi, hkey]
  exact ⟨rfl, htc, hlen.1, hlen.2, field_init_no_panic⟩

/-- Witness of C12: the field `string name = 2` of Pet in the test schema. -/
theorem tagcode_is_varint_of_key_witness :
    ((declField "name" 2 "string" false).init testProto).2 = .ok ()
    ∧ ((declField "name" 2 "string" false).init testProto).1.tagcode
        = Buffer.EncodeVarint [] ((2 : Int).toNat <<< 3 ||| WireBytes)
    ∧ ((declField "name" 2 "string" false).init testProto).1.tagcode = [0x12] :=
  have h := tagcode_is_varint_of_key (declField "name" 2 "string" false)
    { declField "name" 2 "string" false with valEnc := some .EncodeVarint }
    { declField "name" 2 "string" false with
        valEnc := some .EncodeVarint, enc := some .enc_string }
    testProto WireBytes WireBytes (by decide) (by decide) rfl rfl
  ⟨h.1, h.2.1, by decide⟩

/-! ### Fixed32 fields, byte sequences and packed int32 -/

/-- C13. A non-repeated fixed32 or sfixed32 field gets wire kind Fixed32 and an
encoder from `Field.init`, but no value encoder (the branch assigns none, and
EncodeFixed32 is referenced nowhere): Marshal of a non-zero integer writes the
tag code and then calls the nil value encoder, which panics.  The tag code
followed by the four little-endian bytes is what the claim describes. -/
theorem marshal_fixed32_panics :
    (fixedProtocol.Marshal Strconv.decimal none "Fixed" [("x", .int .int 7)]).2 = .panic
    ∧ (fixedProtocol.Marshal Strconv.decimal none "Fixed" [("y", .int .int 7)]).2 = .panic
    ∧ (fixedProtocol.Marshal Strconv.decimal none "Fixed" [("x", .int .int 7)]).1.bufPool
        = [[0x0D]]
    ∧ (fixedField "x").map (fun f => (f.tagcode, f.enc, f.valEnc))
        = some ([0x0D], some .enc_uint32, none)
    ∧ (fixedField "y").map (fun f => (f.tagcode, f.enc, f.valEnc))
        = some ([0x15], some .enc_int32, none)
    ∧ Buffer.EncodeFixed32 [0x0D] 7 = [0x0D, 7, 0, 0, 0] := by
  decide

theorem toByteSliceE_uint8 (ns : List Int) :
    ToByteSliceE (.list (ns.map (Value.int .uint8)))
      = some (ns.map (fun n => (n % 256).toNat)) := by
  induction ns with
  | nil => rfl
  | cons n rest ih =>
    simp only [ToByteSliceE] at ih ⊢
    simp only [List.map_cons, List.mapM_cons, ih]
    rfl

theorem toByteSliceE_not_uint8 (xs : List Value) (x : Value) (hx : x ∈ xs)
    (hn : ∀ n, x ≠ .int .uint8 n) : ToByteSliceE (.list xs) = none := by
  induction xs with
  | nil => simp at hx
  | cons y rest ih =>
    simp only [ToByteSliceE] at ih ⊢
    rw [List.mapM_cons]
    rcases List.mem_cons.1 hx with h | h
    · subst h
      split
      · rename_i n
        exact absurd rfl (hn n)
      · rfl
    · rw [ih h]
      split <;> rfl

/-- C17, amended. ToByteSliceE returns a native byte sequence as it is and the
bytes of a string; of a generic sequence whose elements are all of the dynamic
type byte (uint8) it returns the values in order; it fails on a generic
sequence with any other element, an integer of another type included, and on
every other value. -/
theorem toByteSliceE_cases :
    (∀ v : List Nat, ToByteSliceE (.bytes v) = some v)
    ∧ (∀ s : List Nat, ToByteSliceE (.str s) = some s)
    ∧ (∀ s : String, ToByteSliceE (.str (utf8 s)) = some (utf8 s))
    ∧ (∀ ns : List Int, (∀ n ∈ ns, 0 ≤ n ∧ n ≤ 255) →
        ToByteSliceE (.list (ns.map (Value.int .uint8))) = some (ns.map Int.toNat))
    ∧ (∀ (xs : List Value) (x : Value), x ∈ xs → (∀ n, x ≠ .int .uint8 n) →
        ToByteSliceE (.list xs) = none)
    ∧ (∀ (xs : List Value) (k : IntKind) (n : Int), k ≠ .uint8 → Value.int k n ∈ xs →
        ToByteSliceE (.list xs) = none)
    ∧ (∀ v : Value, (∀ b, v ≠ .bytes b) → (∀ s, v ≠ .str s) → (∀ xs, v ≠ .list xs) →
        ToByteSliceE v = none) := by
  refine ⟨fun _ => rfl, fun _ => rfl, fun _ => rfl, ?_, ?_, ?_, ?_⟩
  · intro ns hns
    rw [toByteSliceE_uint8]
    congr 1
    apply List.map_congr_left
    intro n hn
    have := hns n hn
    omega
  · intro xs x hx hn
    exact toByteSliceE_not_uint8 xs x hx hn
  · intro xs k n hk hx
    apply toByteSliceE_not_uint8 xs _ hx
    intro m hm
    injection hm with h1 h2
    exact hk h1
  · intro v h1 h2 h3
    cases v with
    | bytes b => exact absurd rfl (h1 b)
    | str s => exact absurd rfl (h2 s)
    | list xs => exact absurd rfl (h3 xs)
    | null => rfl
    | bool b => rfl
    | int k n => rfl
    | float32 b => rfl
    | float64 b => rfl
    | other => rfl

/-- C17, the claim refuted.  A generic sequence of small integers of type int,
[1, 2], is rejected, and so is one of float64 numbers (what a JSON decoder
yields); only elements of type byte pass. -/
theorem toByteSliceE_rejects_ints :
    ToByteSliceE (.list [.int .int 1, .int .int 2]) = none
    ∧ ToByteSliceE (.list [.float64 0x3FF0000000000000]) = none
    ∧ ToByteSliceE (.list [.int .uint8 1, .int .uint8 2]) = some [1, 2] := by
  decide

theorem valEncAll_varint (f : Field) (hv : f.valEnc = some .EncodeVarint) (xs : List Nat)
    (buf : Buffer) :
    valEncAll f buf xs
      = (buf ++ (xs.map (fun x => Buffer.EncodeVarint [] x)).flatten, .ok ()) := by
  induction xs generalizing buf with
  | nil => simp [valEncAll]
  | cons x rest ih =>
    unfold valEncAll
    have hc : f.callValEnc buf x = (Buffer.EncodeVarint buf x, .ok ()) := by
      unfold Field.callValEnc
      rw [hv]
      rfl
    rw [hc]
    simp only
    rw [ih, EncodeVarint_append buf x]
    simp

theorem toIntSliceE_ints (L : Strconv) (k : IntKind) (ns : List Int) :
    cast.ToIntSliceE L (.list (ns.map (Value.int k))) = some (ns.map toInt64) := by
  induction ns with
  | nil => rfl
  | cons n rest ih =>
    simp only [cast.ToIntSliceE] at ih ⊢
    simp only [List.map_cons, List.mapM_cons, ih, cast.ToIntE]
    rfl

theorem toInt32_signExtend (x : Int) :
    toUint64 (toInt32 x) = signExtend32 (x % 2 ^ 32).toNat := by
  unfold toUint64 toInt32 signExtend32
  split <;> omega

/-- C20. With the plain varint as value encoder, enc_slice_int32 appends for a
non-empty list s exactly tagcode ++ varint(L) ++ P, where P joins in list order
the varints of the elements, each truncated to its low 32 bits and that pattern
sign-extended to 64 bits, and L is the length of P; for an empty list it
returns ErrNil and appends nothing.  A list of integers of any integer type is
taken element by element.  For [1, 300, -1], P is 01 AC 02, nine bytes FF and
01, and L is 13; for [2^31, 2^32 + 5], which an int32 does not hold, P is the
ten-byte varint of 2^64 - 2^31 and 05. -/
theorem enc_slice_int32_packed (L : Strconv) (o : Buffer) (f : Field) (v : Value)
    (s : List Int) (hv : f.valEnc = some .EncodeVarint)
    (hs : cast.ToIntSliceE L v = some s) :
    (s ≠ [] → Buffer.enc_slice_int32 L o f v
        = (o ++ f.tagcode ++ Buffer.EncodeVarint [] (packedInt32 s).length ++ packedInt32 s,
            .ok ()))
    ∧ (s = [] → Buffer.enc_slice_int32 L o f v = (o, .err .ErrNil))
    ∧ (∀ (k : IntKind) (ns : List Int),
        cast.ToIntSliceE L (.list (ns.map (Value.int k))) = some (ns.map toInt64))
    ∧ packedInt32 [1, 300, -1]
        = [0x01, 0xAC, 0x02, 0xFF, 0xFF, 0xFF, 0xFF, 0xFF, 0xFF, 0xFF, 0xFF, 0xFF, 0x01]
    ∧ (packedInt32 [1, 300, -1]).length = 13
    ∧ packedInt32 [2147483648, 4294967301]
        = [0x80, 0x80, 0x80, 0x80, 0xF8, 0xFF, 0xFF, 0xFF, 0xFF, 0x01, 0x05] := by
  refine ⟨?_, ?_, toIntSliceE_ints L, by decide, by decide, by decide⟩
  · intro hne
    unfold Buffer.enc_slice_int32
    rw [hs]
    have hl : ¬ s.length = 0 := fun h => hne (List.length_eq_zero.1 h)
    simp only [if_neg hl]
    rw [valEncAll_varint f hv]
    simp only [List.nil_append, List.map_map]
    rw [EncodeVarint_append]
    simp only [List.append_assoc]
    have e : (fun x => Buffer.EncodeVarint [] x) ∘ (fun x => toUint64 (toInt32 x))
        = fun x => Buffer.EncodeVarint [] (signExtend32 (x % 2 ^ 32).toNat) := by
      funext x
      simp only [Function.comp, toInt32_signExtend]
    rw [e]
    rfl
  · intro he
    subst he
    unfold Buffer.enc_slice_int32
    rw [hs]
    rfl

/-- Witness of C20: the list [1, 300, -1, 2^31, 2^32 + 5] in a field with tag
code 0A; 2^31 is written sign-extended, 2^32 + 5 as 5. -/
theorem enc_slice_int32_packed_witness :
    Buffer.enc_slice_int32 Strconv.decimal [0x08, 0x01]
        ⟨"nums", 1, .mk "int32" none none, true, none, [0x0A], none, some .EncodeVarint⟩
        wideNumsValue
      = ([0x08, 0x01] ++ [0x0A]
          ++ Buffer.EncodeVarint [] (packedInt32 [1, 300, -1, 2147483648, 4294967301]).length
          ++ packedInt32 [1, 300, -1, 2147483648, 4294967301], .ok ())
    ∧ [0x08, 0x01] ++ [0x0A]
          ++ Buffer.EncodeVarint [] (packedInt32 [1, 300, -1, 2147483648, 4294967301]).length
          ++ packedInt32 [1, 300, -1, 2147483648, 4294967301]
        = [0x08, 0x01, 0x0A, 24, 0x01, 0xAC, 0x02, 0xFF, 0xFF, 0xFF, 0xFF, 0xFF, 0xFF, 0xFF,
            0xFF, 0xFF, 0x01, 0x80, 0x80, 0x80, 0x80, 0xF8, 0xFF, 0xFF, 0xFF, 0xFF, 0x01,
            0x05] :=
  have h := enc_slice_int32_packed Strconv.decimal [0x08, 0x01]
    ⟨"nums", 1, .mk "int32" none none, true, none, [0x0A], none, some .EncodeVarint⟩
    wideNumsValue [1, 300, -1, 2147483648, 4294967301] rfl (by decide)
  ⟨h.1 (by decide), by decide⟩

/-! ### The order of the fields after compilation -/

theorem initFields_keys (root : Protobuf) (fs : List (String × Field)) :
    (initFields root fs).1.map Prod.fst = fs.map Prod.fst := by
  induction fs with
  | nil => rfl
  | cons kf rest ih =>
    obtain ⟨k, f0⟩ := kf
    unfold initFields
    split
    · simp only [List.map_cons, ih]
    · simp only [List.map_cons]

theorem sorted_of_length_lt_two (r : String → String → Prop) (l : List String)
    (h : l.length < 2) : l.Sorted r := by
  match l, h with
  | [], _ => exact List.sorted_nil
  | [a], _ => exact List.sorted_singleton a
  | a :: b :: l, h =>
    simp only [List.length_cons] at h
    omega

theorem sortOrder_sorted (fields : List (String × Field)) (order order' : List String)
    (h : sortOrder fields order = some order') :
    order'.Perm order ∧ order'.Sorted (fun a b => tagOf fields a ≤ tagOf fields b) := by
  unfold sortOrder at h
  split at h
  · rename_i hlen
    simp only [Option.some.injEq] at h
    subst h
    exact ⟨List.Perm.refl _, sorted_of_length_lt_two _ _ hlen⟩
  · split at h
    · simp only [Option.some.injEq] at h
      subst h
      haveI : IsTotal String (fun a b => tagOf fields a ≤ tagOf fields b) :=
        ⟨fun a b => le_total _ _⟩
      haveI : IsTrans String (fun a b => tagOf fields a ≤ tagOf fields b) :=
        ⟨fun a b c hab hbc => le_trans hab hbc⟩
      exact ⟨List.perm_insertionSort _ _, List.sorted_insertionSort _ _⟩
    · exact Option.noConfusion h

theorem lookup_isSome_of_mem_keys {α : Type} (l : List (String × α)) (k : String)
    (h : k ∈ l.map Prod.fst) : ∃ v, l.lookup k = some v := by
  induction l with
  | nil => simp at h
  | cons kv rest ih =>
    obtain ⟨k', v'⟩ := kv
    by_cases hk : k = k'
    · subst hk
      exact ⟨v', by simp [List.lookup_cons]⟩
    · have hk' : (k == k') = false := by simpa using hk
      simp only [List.map_cons, List.mem_cons] at h
      rcases h with h | h
      · exact absurd h hk
      · obtain ⟨v, hv⟩ := ih h
        exact ⟨v, by simp only [List.lookup_cons, hk', hv]⟩

/-- C19. For a message whose Order lists each key of Fields exactly once, after
`Message.init` succeeds Order is a reordering of the Order before, a permutation
of the keys of Fields, every name in it is a field whose tag is the declared
one, and the tags ascend along it: for names at positions i < j,
Fields[Order[i]].Tag <= Fields[Order[j]].Tag, strictly when the tags are
distinct. -/
theorem init_sorts_order_by_tag (p : Protobuf) (m0 : Message)
    (hord : m0.Order.Perm (m0.Fields.map Prod.fst))
    (hinit : (Message.init p m0).ret = .ok ()) :
    (Message.init p m0).m.Order.Perm m0.Order
    ∧ (Message.init p m0).m.Order.Perm ((Message.init p m0).m.Fields.map Prod.fst)
    ∧ (∀ fn ∈ (Message.init p m0).m.Order, ∃ f f0,
        (Message.init p m0).m.Fields.lookup fn = some f ∧ m0.Fields.lookup fn = some f0
        ∧ f.Tag = f0.Tag ∧ tagOf (Message.init p m0).m.Fields fn = f.Tag)
    ∧ (Message.init p m0).m.Order.Pairwise
        (fun a b => tagOf (Message.init p m0).m.Fields a ≤ tagOf (Message.init p m0).m.Fields b)
    ∧ (((Message.init p m0).m.Order.map (tagOf (Message.init p m0).m.Fields)).Nodup →
        (Message.init p m0).m.Order.Pairwise
          (fun a b => tagOf (Message.init p m0).m.Fields a
            < tagOf (Message.init p m0).m.Fields b)) := by
  obtain ⟨hfs, hso⟩ := message_init_ok p m0 hinit
  obtain ⟨hperm, hsorted⟩ := sortOrder_sorted _ _ _ hso
  have hkeys : (Message.init p m0).m.Fields.map Prod.fst = m0.Fields.map Prod.fst := by
    have := initFields_keys (Message.init p m0).p m0.Fields
    rw [hfs] at this
    exact this
  refine ⟨hperm, ?_, ?_, hsorted, ?_⟩
  · rw [hkeys]
    exact hperm.trans hord
  · intro fn hfn
    have hmem : fn ∈ (Message.init p m0).m.Fields.map Prod.fst := by
      rw [hkeys]
      exact hord.mem_iff.1 (hperm.mem_iff.1 hfn)
    obtain ⟨f, hf⟩ := lookup_isSome_of_mem_keys _ fn hmem
    obtain ⟨f0, hl0, hi⟩ := initFields_lookup _ _ _ hfs fn f hf
    refine ⟨f, f0, hf, hl0, field_init_tag f0 f _ hi, ?_⟩
    unfold tagOf
    rw [hf]
  · intro hnd
    have h1 : ((Message.init p m0).m.Order.map (tagOf (Message.init p m0).m.Fields)).Sorted
        (· ≤ ·) := by
      unfold List.Sorted
      rw [List.pairwise_map]
      exact hsorted
    have h2 := h1.lt_of_le hnd
    unfold List.Sorted at h2
    rw [List.pairwise_map] at h2
    exact h2

/-- Witness of C19: Person of the test schema, declared with the tags
1, 2, 3, 4, 6, 5, 7. -/
theorem init_sorts_order_by_tag_witness :
    (Message.init testProto personDecl).m.Order
        = ["name", "age", "gender", "hobbies", "online_time", "desc", "pets"]
    ∧ (Message.init testProto personDecl).m.Order.Perm personDecl.Order
    ∧ (Message.init testProto personDecl).m.Order.Pairwise
        (fun a b => tagOf (Message.init testProto personDecl).m.Fields a
          ≤ tagOf (Message.init testProto personDecl).m.Fields b) :=
  have h := init_sorts_order_by_tag testProto personDecl (List.Perm.refl _) (by decide)
  ⟨by decide, h.1, h.2.2.2.1⟩

/-! ### Hoisting of nested messages and enums -/

theorem initFields_err (p : Protobuf) (fs : List (String × Field)) (e : Error)
    (h : (initFields p fs).2 = .err e) : e = .errInvalidField := by
  induction fs with
  | nil => simp [initFields] at h
  | cons kf rest ih =>
    obtain ⟨k, f0⟩ := kf
    unfold initFields at h
    split at h
    · exact ih h
    · rename_i f1 r hne hf
      have h2 : (f0.init p).2 = .err e := by rw [hf]; exact h
      exact (field_init_err f0 p e h2).1

theorem init_err_step (p : Protobuf) (name : String) (fields : List (String × Field))
    (nested : List Message) (enums : List Enum) (order : List String) (e : Error)
    (h : (Message.init p (.mk name fields nested enums order)).ret = .err e) :
    (Message.initNested p nested).ret = .err e ∨ e = .errInvalidField := by
  generalize hr : Message.init p (.mk name fields nested enums order) = r at h
  unfold Message.init at hr
  dsimp only at hr
  split at hr
  · split at hr
    · split at hr
      · subst hr; simp at h
      · subst hr; simp at h
    · rename_i fs' e' hne hfs
      subst hr
      simp only at h
      right
      apply initFields_err _ fields e
      rw [hfs]
      exact h
  · rename_i e' hne
    subst hr
    exact Or.inl h

theorem initNested_err_step (p : Protobuf) (nm : Message) (rest : List Message) (e : Error)
    (h : (Message.initNested p (nm :: rest)).ret = .err e) :
    (∃ p0, (Message.init p0 nm).ret = .err e)
      ∨ ∃ p1, (Message.initNested p1 rest).ret = .err e := by
  generalize hr : Message.initNested p (nm :: rest) = r at h
  unfold Message.initNested at hr
  dsimp only at hr
  split at hr
  · subst hr
    exact Or.inr ⟨_, h⟩
  · subst hr
    exact Or.inl ⟨_, h⟩

mutual
theorem init_err (p : Protobuf) : ∀ (m : Message) (e : Error),
    (Message.init p m).ret = .err e → e = .errInvalidField
  | .mk name fields nested enums order, e, h => by
    rcases init_err_step p name fields nested enums order e h with h' | h'
    · exact initNested_err p nested e h'
    · exact h'
theorem initNested_err (p : Protobuf) : ∀ (ms : List Message) (e : Error),
    (Message.initNested p ms).ret = .err e → e = .errInvalidField
  | [], e, h => by simp [Message.initNested] at h
  | nm :: rest, e, h => by
    rcases initNested_err_step p nm rest e h with ⟨p0, h'⟩ | ⟨p1, h'⟩
    · exact init_err p0 nm e h'
    · exact initNested_err p1 rest e h'
end

theorem lookup_mapSet_self {α : Type} (k : String) (v : α) (l : List (String × α)) :
    (mapSet k v l).lookup k = some v := by
  induction l with
  | nil => simp [mapSet, List.lookup_cons]
  | cons kv rest ih =>
    obtain ⟨k', v'⟩ := kv
    unfold mapSet
    by_cases h : k' = k
    · rw [if_pos h]
      simp [List.lookup_cons]
    · rw [if_neg h]
      have h' : (k == k') = false := by simpa using fun e => h e.symm
      simp only [List.lookup_cons, h', ih]

theorem lookup_mapSet_ne {α : Type} (k k0 : String) (v : α) (l : List (String × α))
    (hne : k0 ≠ k) : (mapSet k v l).lookup k0 = l.lookup k0 := by
  induction l with
  | nil =>
    have h' : (k0 == k) = false := by simpa using hne
    simp [mapSet, List.lookup_cons, h']
  | cons kv rest ih =>
    obtain ⟨k', v'⟩ := kv
    unfold mapSet
    by_cases h : k' = k
    · rw [if_pos h]
      have h1 : (k0 == k) = false := by simpa using hne
      have h2 : (k0 == k') = false := by rw [h]; exact h1
      simp only [List.lookup_cons, h1, h2]
    · rw [if_neg h]
      simp only [List.lookup_cons, ih]

/-- After the loop over the nested enums, the entry of a nested enum's name is
a nested enum of that name; the other entries are as before. -/
theorem hoistEnums_lookup (es : List Enum) (E : List (String × Enum)) (n : String) :
    (∀ ne ∈ es, ne.Name ≠ n) ∧ (hoistEnums E es).lookup n = E.lookup n
    ∨ ∃ ne ∈ es, ne.Name = n ∧ (hoistEnums E es).lookup n = some ne := by
  induction es generalizing E with
  | nil => exact Or.inl ⟨by simp, rfl⟩
  | cons e rest ih =>
    unfold hoistEnums
    rcases ih (mapSet e.Name e E) with ⟨h1, h2⟩ | ⟨ne, h1, h2, h3⟩
    · by_cases he : e.Name = n
      · right
        refine ⟨e, List.mem_cons_self _ _, he, ?_⟩
        rw [h2, ← he]
        exact lookup_mapSet_self _ _ _
      · left
        refine ⟨?_, ?_⟩
        · intro ne hne
          rcases List.mem_cons.1 hne with h | h
          · rw [h]; exact he
          · exact h1 ne h
        · rw [h2]
          exact lookup_mapSet_ne _ _ _ _ (fun h => he h.symm)
    · exact Or.inr ⟨ne, List.mem_cons_of_mem _ h1, h2, h3⟩

theorem init_ok_inv (p : Protobuf) (name : String) (fields : List (String × Field))
    (nested : List Message) (enums : List Enum) (order : List String)
    (h : (Message.init p (.mk name fields nested enums order)).ret = .ok ()) :
    (Message.initNested p nested).ret = .ok ()
    ∧ (Message.init p (.mk name fields nested enums order)).p.Messages
        = (Message.initNested p nested).p.Messages
    ∧ (Message.init p (.mk name fields nested enums order)).p.Enums
        = hoistEnums (Message.initNested p nested).p.Enums enums
    ∧ (Message.init p (.mk name fields nested enums order)).assigned
        = (Message.initNested p nested).assigned := by
  generalize hr : Message.init p (.mk name fields nested enums order) = r at h ⊢
  unfold Message.init at hr
  dsimp only at hr
  split at hr
  · rename_i u hn
    have hu : u = () := rfl
    subst hu
    split at hr
    · split at hr
      · subst hr
        exact ⟨hn, rfl, rfl, rfl⟩
      · subst hr
        simp at h
    · rename_i fs' e hne hfs
      subst hr
      exact absurd h (hne ())
  · rename_i e hne
    subst hr
    exact absurd h (hne ())

theorem initNested_ok_inv (p : Protobuf) (nm : Message) (rest : List Message)
    (h : (Message.initNested p (nm :: rest)).ret = .ok ()) :
    ∃ p0 p1, p0.Messages.lookup nm.Name = some (some nm)
      ∧ (∀ k, k ≠ nm.Name → p0.Messages.lookup k = p.Messages.lookup k)
      ∧ (∀ k, k ≠ nm.Name →
          p1.Messages.lookup k = (Message.init p0 nm).p.Messages.lookup k)
      ∧ (nm.Name ∉ (Message.init p0 nm).assigned →
          p1.Messages.lookup nm.Name = some (some (Message.init p0 nm).m))
      ∧ (Message.init p0 nm).ret = .ok ()
      ∧ (Message.initNested p1 rest).ret = .ok ()
      ∧ (Message.initNested p (nm :: rest)).p = (Message.initNested p1 rest).p
      ∧ (Message.initNested p (nm :: rest)).assigned
          = nm.Name :: ((Message.init p0 nm).assigned ++ (Message.initNested p1 rest).assigned) := by
  generalize hr : Message.initNested p (nm :: rest) = r at h ⊢
  unfold Message.initNested at hr
  dsimp only at hr
  split at hr
  · rename_i u hn
    have hu : u = () := rfl
    subst hu
    subst hr
    refine ⟨_, _, lookup_mapSet_self _ _ _, fun k hk => lookup_mapSet_ne _ _ _ _ hk, ?_, ?_,
      hn, h, rfl, rfl⟩
    · intro k hk
      split
      · rfl
      · exact lookup_mapSet_ne _ _ _ _ hk
    · intro ha
      rw [if_neg ha]
      exact lookup_mapSet_self _ _ _
  · rename_i e hne
    subst hr
    exact absurd h (hne ())

mutual
theorem init_assigned (p : Protobuf) : ∀ (m : Message),
    (Message.init p m).ret = .ok () → (Message.init p m).assigned = m.nestedNames
  | .mk name fields nested enums order, h => by
    obtain ⟨h1, _, _, h4⟩ := init_ok_inv p name fields nested enums order h
    rw [h4, Message.nestedNames]
    exact initNested_assigned p nested h1
theorem initNested_assigned (p : Protobuf) : ∀ (ms : List Message),
    (Message.initNested p ms).ret = .ok () →
      (Message.initNested p ms).assigned = Message.nestedNamesList ms
  | [], _ => by simp [Message.initNested, Message.nestedNamesList]
  | nm :: rest, h => by
    obtain ⟨p0, p1, _, _, _, _, h1, h2, _, h4⟩ := initNested_ok_inv p nm rest h
    rw [h4, Message.nestedNamesList, init_assigned p0 nm h1, initNested_assigned p1 rest h2]
end

mutual
theorem init_frame (p : Protobuf) : ∀ (m : Message) (k : String),
    (Message.init p m).ret = .ok () → k ∉ m.nestedNames →
      (Message.init p m).p.Messages.lookup k = p.Messages.lookup k
  | .mk name fields nested enums order, k, h, hk => by
    obtain ⟨h1, h2, _, _⟩ := init_ok_inv p name fields nested enums order h
    rw [h2]
    rw [Message.nestedNames] at hk
    exact initNested_frame p nested k h1 hk
theorem initNested_frame (p : Protobuf) : ∀ (ms : List Message) (k : String),
    (Message.initNested p ms).ret = .ok () → k ∉ Message.nestedNamesList ms →
      (Message.initNested p ms).p.Messages.lookup k = p.Messages.lookup k
  | [], k, _, _ => by simp [Message.initNested]
  | nm :: rest, k, h, hk => by
    obtain ⟨p0, p1, _, a2, a3, _, h1, h2, h3, _⟩ := initNested_ok_inv p nm rest h
    rw [Message.nestedNamesList] at hk
    simp only [List.mem_cons, List.mem_append, not_or] at hk
    obtain ⟨hk1, hk2, hk3⟩ := hk
    rw [h3, initNested_frame p1 rest k h2 hk3, a3 k hk1, init_frame p0 nm k h1 hk2, a2 k hk1]
end

/-- After the loop over the nested messages, when no name is assigned twice,
the entry of each nested message's name is that message as compiled. -/
theorem initNested_entries (ms : List Message) : ∀ (p : Protobuf),
    (Message.initNested p ms).ret = .ok () → (Message.nestedNamesList ms).Nodup →
    ∀ nm ∈ ms, ∃ q, q.Messages.lookup nm.Name = some (some nm)
      ∧ (Message.init q nm).ret = .ok ()
      ∧ (Message.initNested p ms).p.Messages.lookup nm.Name
          = some (some (Message.init q nm).m) := by
  induction ms with
  | nil => intro p _ _ nm hnm; simp at hnm
  | cons nm0 rest ih =>
    intro p h hnd nm hnm
    obtain ⟨p0, p1, a1, _, _, a4, h1, h2, h3, _⟩ := initNested_ok_inv p nm0 rest h
    rw [Message.nestedNamesList] at hnd
    have hnd1 := (List.nodup_cons.1 hnd).1
    have hnd2 := ((List.nodup_append.1 (List.nodup_cons.1 hnd).2).2.1)
    simp only [List.mem_append, not_or] at hnd1
    rcases List.mem_cons.1 hnm with e | e
    · subst e
      refine ⟨p0, a1, h1, ?_⟩
      rw [h3, initNested_frame p1 rest nm.Name h2 hnd1.2]
      apply a4
      rw [init_assigned p0 nm h1]
      exact hnd1.1
    · rw [h3]
      exact ih p1 h2 hnd2 nm e

/-- C18, amended. The namespace pass has no collision check.  `Message.init`
returns no duplicate-definition error: the only error it returns is
errInvalidField, for a field type.  The nested enums and messages are assigned
into Enums and Messages over whatever entry their name had: after a successful
`Message.init` the entry of a nested enum's name is a nested enum of that name,
and, when the messages nested in the message at any depth have distinct names,
the entry of each nested message's name is that nested message as compiled. -/
theorem init_hoists_by_assignment (p : Protobuf) (m : Message)
    (hinit : (Message.init p m).ret = .ok ()) :
    (∀ (q : Protobuf) (m' : Message) (e : Error),
        (Message.init q m').ret = .err e → e = .errInvalidField)
    ∧ (∀ ne ∈ m.NestedEnums, ∃ ne' ∈ m.NestedEnums, ne'.Name = ne.Name
        ∧ (Message.init p m).p.Enums.lookup ne.Name = some ne')
    ∧ (m.nestedNames.Nodup → ∀ nm ∈ m.NestedMessages,
        ∃ q, q.Messages.lookup nm.Name = some (some nm)
          ∧ (Message.init q nm).ret = .ok ()
          ∧ (Message.init p m).p.Messages.lookup nm.Name
              = some (some (Message.init q nm).m)) := by
  obtain ⟨name, fields, nested, enums, order⟩ := m
  obtain ⟨h1, h2, h3, _⟩ := init_ok_inv p name fields nested enums order hinit
  refine ⟨init_err, ?_, ?_⟩
  · intro ne hne
    rw [h3]
    rcases hoistEnums_lookup enums (Message.initNested p nested).p.Enums ne.Name
      with ⟨hn, _⟩ | ⟨ne', hm, hn, hl⟩
    · exact absurd rfl (hn ne hne)
    · exact ⟨ne', hm, hn, hl⟩
  · intro hnd nm hnm
    rw [h2]
    rw [Message.nestedNames] at hnd
    exact initNested_entries nested p h1 hnd nm hnm

/-- C18, the claim refuted.  The schema holds a message Pet with the field id
and an enum Color with the value RED; Outer has a nested message Pet with the
field nick and a nested enum Color with the value BLUE.  `Message.init` of Outer
returns a nil error, and so does `Protobuf.init` in either order of the
messages; afterwards the entry of Pet is the nested message and the entry of
Color the nested enum. -/
theorem init_overwrites_on_collision :
    fieldNamesAt dupProto "Pet" = some ["id"]
    ∧ valueNamesAt dupProto "Color" = some ["RED"]
    ∧ (Message.init dupProto dupOuter).ret = .ok ()
    ∧ fieldNamesAt (Message.init dupProto dupOuter).p "Pet" = some ["nick"]
    ∧ valueNamesAt (Message.init dupProto dupOuter).p "Color" = some ["BLUE"]
    ∧ (dupProto.init ["Outer", "Pet"]).2 = .ok ()
    ∧ (dupProto.init ["Pet", "Outer"]).2 = .ok ()
    ∧ fieldNamesAt (dupProto.init ["Outer", "Pet"]).1 "Pet" = some ["nick"]
    ∧ fieldNamesAt (dupProto.init ["Pet", "Outer"]).1 "Pet" = some ["nick"] := by
  decide

/-- Witness of C18, amended: Outer in the schema that already holds a Pet. -/
theorem init_hoists_by_assignment_witness :
    dupProto.Messages.lookup "Pet"
        = some (some (.mk "Pet" [("id", declField "id" 1 "int32" false)] [] [] ["id"]))
    ∧ ∃ q, q.Messages.lookup "Pet" = some (some dupNestedPet)
        ∧ (Message.init dupProto dupOuter).p.Messages.lookup "Pet"
            = some (some (Message.init q dupNestedPet).m) :=
  have h := init_hoists_by_assignment dupProto dupOuter (by decide)
  ⟨rfl, by
    obtain ⟨q, h1, _, h3⟩ := h.2.2 (by decide) dupNestedPet (List.mem_cons_self _ _)
    exact ⟨q, h1, h3⟩⟩

/-! ### Packed uint32 -/

/-- C21. The body of enc_slice_uint32 is that of enc_slice_int32, conversion
`uint64(int32(s[i]))` included, so it returns what enc_slice_int32 returns on
every input and sign-extends: an element v with 2^31 <= v < 2^32 is written as
the varint of v + 2^64 - 2^32, ten bytes.  For [4294967295] in the compiled
field `repeated uint32 ids = 1` it appends 0A 0A, nine bytes FF and 01; the
varint of 4294967295 itself is FF FF FF FF 0F, which would give 0A 05 FF FF FF
FF 0F. -/
theorem enc_slice_uint32_sign_extends :
    (∀ (L : Strconv) (o : Buffer) (f : Field) (v : Value),
        Buffer.enc_slice_uint32 L o f v = Buffer.enc_slice_int32 L o f v)
    ∧ (∀ v : Int, 2 ^ 31 ≤ v → v < 2 ^ 32 →
        toUint64 (toInt32 v) = v.toNat + (2 ^ 64 - 2 ^ 32)
        ∧ toUint64 (toInt32 v) ≠ v.toNat)
    ∧ (idsField.tagcode, idsField.valEnc) = ([0x0A], some .EncodeVarint)
    ∧ Buffer.enc_slice_uint32 Strconv.decimal [] idsField (.list [.int .uint32 4294967295])
        = ([0x0A, 0x0A, 0xFF, 0xFF, 0xFF, 0xFF, 0xFF, 0xFF, 0xFF, 0xFF, 0xFF, 0x01], .ok ())
    ∧ Buffer.enc_slice_uint32 Strconv.decimal [] idsField (.list [.int .uint32 2147483648])
        = ([0x0A, 0x0A, 0x80, 0x80, 0x80, 0x80, 0xF8, 0xFF, 0xFF, 0xFF, 0xFF, 0x01], .ok ())
    ∧ Buffer.EncodeVarint [] 4294967295 = [0xFF, 0xFF, 0xFF, 0xFF, 0x0F]
    ∧ Buffer.EncodeVarint [] 2147483648 = [0x80, 0x80, 0x80, 0x80, 0x08]
    ∧ Buffer.enc_slice_uint32 Strconv.decimal [] idsField (.list [.int .uint32 2147483647])
        = ([0x0A, 0x05, 0xFF, 0xFF, 0xFF, 0xFF, 0x07], .ok ()) := by
  refine ⟨fun _ _ _ _ => rfl, ?_, by decide, by decide, by decide, by decide, by decide,
    by decide⟩
  intro v h1 h2
  unfold toUint64 toInt32
  constructor <;> omega

end protobuf
